import Mathlib

/-!
# mop.c: a forest of yarns merged like binary addition

A shallow embedding of `src/mop.c`.  The C heap is an explicit `Heap` value
threaded through every operation.  Pointers are natural numbers and `0` is the
null pointer.  A function that can abort returns `Except Fault`.

Conventions of the embedding.
* `calloc` always succeeds and always returns a fresh address `brk + 1`; the
  block it returns is zero filled.
* `free p` appends `p` to the log `Heap.freed`; a freed block is never handed
  out again.
* A visitor (`Bucket`) owns a state of type `β`; its two callbacks update that
  state and do not write yarn links or mop headers.  This is the case for the
  two visitors of the program.
* `int knot` and `long long count` are natural numbers: the program only ever
  stores `0`, a maximum, or a maximum plus one into `knot`, and the batch
  builder is only specified for `count ≥ 0`.
* `yarnWring` recurses along heap links, so it takes a recursion budget
  (`fuel`); running out of budget is reported as `Fault.fuel`.
-/

namespace MopRedo

/-- The macro `SIZELOG2`: a mop has `SIZELOG2` slots. -/
def SIZELOG2 : Nat := 31

/-- Ways in which a run stops without returning. -/
inductive Fault where
  /-- An `assert` failed and the process aborted. -/
  | assertion
  /-- A null pointer was dereferenced or an array was indexed outside its extent. -/
  | bounds
  /-- The recursion budget of the embedding ran out. -/
  | fuel
  deriving DecidableEq, Repr

deriving instance DecidableEq for Except

/-- The struct `Yarn`: two links, `0` for a null link. -/
structure Yarn where
  root : Nat
  tree : Nat
  deriving DecidableEq, Repr

/-- The struct `Mop`: the field `knot` and the slot array `y[SIZELOG2]`.
Only indices below `SIZELOG2` exist in C. -/
structure Mop where
  knot : Nat
  y : Nat → Nat

/-- The C heap: yarn cells, the extra member `n` of an `IntYarn`, mop headers,
the allocation frontier and the log of `free` calls. -/
structure Heap where
  yarn : Nat → Yarn
  n : Nat → Int
  mop : Nat → Mop
  brk : Nat
  freed : List Nat

/-- The store `y->root = v`. -/
def Heap.setRoot (h : Heap) (y v : Nat) : Heap :=
  { h with yarn := fun a => if a = y then { root := v, tree := (h.yarn y).tree } else h.yarn a }

/-- The store `y->tree = v`. -/
def Heap.setTree (h : Heap) (y v : Nat) : Heap :=
  { h with yarn := fun a => if a = y then { root := (h.yarn y).root, tree := v } else h.yarn a }

/-- The store `((IntYarn *)y)->n = v`. -/
def Heap.setN (h : Heap) (y : Nat) (v : Int) : Heap :=
  { h with n := fun a => if a = y then v else h.n a }

/-- The store `m->y[k] = v`. -/
def Heap.setY (h : Heap) (m k v : Nat) : Heap :=
  { h with mop := fun a => if a = m then
      { knot := (h.mop m).knot, y := fun j => if j = k then v else (h.mop m).y j }
    else h.mop a }

/-- The store `m->knot = v`. -/
def Heap.setKnot (h : Heap) (m v : Nat) : Heap :=
  { h with mop := fun a => if a = m then { knot := v, y := (h.mop m).y } else h.mop a }

/-- `yarnNew`: `calloc` a zeroed cell at a fresh address, then
`result->root = result->tree`. -/
def yarnNew (h : Heap) : Heap × Nat :=
  let result := h.brk + 1
  let h1 : Heap :=
    { h with
      brk := result
      yarn := fun a => if a = result then { root := 0, tree := 0 } else h.yarn a
      n := fun a => if a = result then 0 else h.n a }
  (h1.setRoot result (h1.yarn result).tree, result)

/-- `yarnWeave`: both arguments must satisfy `root == tree`; then three stores
and `left` is returned.  A null argument would be dereferenced. -/
def yarnWeave (h : Heap) (left right : Nat) : Except Fault (Heap × Nat) :=
  if left = 0 ∨ right = 0 then .error .bounds
  else if (h.yarn left).root ≠ (h.yarn left).tree then .error .assertion
  else if (h.yarn right).root ≠ (h.yarn right).tree then .error .assertion
  else
    let h1 := h.setRoot right (h.yarn left).tree
    let h2 := h1.setTree left right
    let h3 := h2.setRoot left (h2.yarn left).tree
    .ok (h3, left)

/-- `mopNew`: `calloc` a zeroed header at a fresh address. -/
def mopNew (h : Heap) : Heap × Nat :=
  let result := h.brk + 1
  ({ h with
     brk := result
     mop := fun a => if a = result then { knot := 0, y := fun _ => 0 } else h.mop a },
   result)

/-- The struct `Bucket`: a forest level and a node level callback, acting on
the data the visitor carries behind its two function pointers. -/
structure Bucket (β : Type) where
  mopF : β → Nat → β
  yarnF : β → Nat → β

/-- `nullBucket`: both callbacks do nothing. -/
def nullBucket {β : Type} : Bucket β :=
  { mopF := fun s _ => s, yarnF := fun s _ => s }

/-- `yarnWring`: wring `y->tree`, then `y->root` when it differs from
`y->tree`, then call `yarnF` on `y`. -/
def yarnWring {β : Type} : Nat → Heap → Nat → Bucket β → β → Except Fault β
  | 0, _, _, _, _ => .error .fuel
  | fuel + 1, h, y, b, s =>
    if y = 0 then .error .assertion
    else do
      let s2 ←
        if (h.yarn y).tree ≠ 0 then do
          let s1 ← yarnWring fuel h (h.yarn y).tree b s
          if (h.yarn y).root ≠ (h.yarn y).tree then
            yarnWring fuel h (h.yarn y).root b s1
          else pure s1
        else pure s
      pure (b.yarnF s2 y)

/-- The loop of `mopWring`: `todo` iterations remain, the next index is `k`. -/
def mopWringLoop {β : Type} (fuel : Nat) (h : Heap) (m : Nat) (b : Bucket β) :
    Nat → Nat → β → Except Fault β
  | 0, _, s => pure s
  | todo + 1, k, s =>
    if SIZELOG2 ≤ k then .error .bounds
    else do
      let y := (h.mop m).y k
      let s1 ← if y ≠ 0 then yarnWring fuel h y b s else pure s
      mopWringLoop fuel h m b todo (k + 1) s1

/-- `mopWring`: wring the slots `0 .. knot`, then call `mopF` on `m`. -/
def mopWring {β : Type} (fuel : Nat) (h : Heap) (m : Nat) (b : Bucket β) (s : β) :
    Except Fault β :=
  if m = 0 then .error .assertion
  else do
    let knot := (h.mop m).knot
    let s1 ← mopWringLoop fuel h m b (knot + 1) 0 s
    pure (b.mopF s1 m)

/-- The static `bitBucket` of `mopDelete`: both callbacks call `free`. -/
def bitBucket : Bucket (List Nat) :=
  { mopF := fun fr m => fr ++ [m], yarnF := fun fr y => fr ++ [y] }

/-- `mopDelete`: wring `m` with the bucket that frees. -/
def mopDelete (fuel : Nat) (h : Heap) (m : Nat) : Except Fault Heap := do
  let fr ← mopWring fuel h m bitBucket h.freed
  pure { h with freed := fr }

/-- The value `kind` computed at the head of the loop body of `mopWeave`. -/
def weaveKind (h : Heap) (left right k carry : Nat) : Nat :=
  (if (h.mop left).y k ≠ 0 then 1 else 0)
    + (if carry ≠ 0 then 2 else 0)
    + (if (h.mop right).y k ≠ 0 then 4 else 0)

/-- The `switch (kind)` of `mopWeave` at index `k`: the heap and the carry
after the selected case. -/
def weaveSwitch (h : Heap) (left right result k carry : Nat) : Except Fault (Heap × Nat) :=
  match weaveKind h left right k carry with
  | 0 => pure (h, carry)
  | 1 => pure (h.setY result k ((h.mop left).y k), carry)
  | 2 => pure (h.setY result k carry, 0)
  | 3 =>
    let h1 := h.setY result k 0
    yarnWeave h1 ((h1.mop left).y k) carry
  | 4 => pure (h.setY result k ((h.mop right).y k), carry)
  | 5 =>
    let h1 := h.setY result k 0
    yarnWeave h1 ((h1.mop left).y k) ((h1.mop right).y k)
  | 6 =>
    let h1 := h.setY result k 0
    yarnWeave h1 carry ((h1.mop right).y k)
  | 7 =>
    let h1 := h.setY result k carry
    yarnWeave h1 ((h1.mop left).y k) ((h1.mop right).y k)
  | kind + 8 => if kind + 8 < 8 then pure (h, carry) else .error .assertion

/-- One pass through the loop body of `mopWeave`: the switch, then
`left->y[k] = right->y[k] = 0`. -/
def weaveStep (h : Heap) (left right result k carry : Nat) : Except Fault (Heap × Nat) := do
  let (h1, carry1) ← weaveSwitch h left right result k carry
  pure ((h1.setY right k 0).setY left k 0, carry1)

/-- The loop of `mopWeave`: `todo` iterations remain, the next index is `k`. -/
def weaveLoop (left right result : Nat) : Nat → Nat → Heap → Nat → Except Fault (Heap × Nat)
  | 0, _, h, carry => pure (h, carry)
  | todo + 1, k, h, carry => do
    let (h1, carry1) ← weaveStep h left right result k carry
    weaveLoop left right result todo (k + 1) h1 carry1

/-- `mopWeave`: the new mop `result`, the assertion on the larger knot, the
loop over the slots `0 .. knot`, the final carry, then both operands get
`knot = 0` and are deleted. -/
def mopWeave (fuel : Nat) (h : Heap) (left right : Nat) : Except Fault (Heap × Nat) :=
  if left = 0 ∨ right = 0 then .error .bounds
  else
    let (h0, result) := mopNew h
    let knot := if (h0.mop left).knot > (h0.mop right).knot
      then (h0.mop left).knot else (h0.mop right).knot
    if ¬ knot < SIZELOG2 then .error .assertion
    else do
      let (h1, carry) ← weaveLoop left right result (knot + 1) 0 h0 0
      let h2 ←
        if carry ≠ 0 then
          let h2 := h1.setKnot result (knot + 1)
          if ¬ (h2.mop result).knot < SIZELOG2 then .error .assertion
          else pure (h2.setY result (h2.mop result).knot carry)
        else pure (h1.setKnot result knot)
      let h3 := (h2.setKnot right 0).setKnot left 0
      let h4 ← mopDelete fuel h3 left
      let h5 ← mopDelete fuel h4 right
      pure (h5, result)

/-- `mopAbsorb`: a new mop `d` with `d->y[0] = y`, woven with `m`. -/
def mopAbsorb (fuel : Nat) (h : Heap) (m y : Nat) : Except Fault (Heap × Nat) :=
  let (h0, d) := mopNew h
  mopWeave fuel (h0.setY d 0 y) m d

/-- `mopRedo`.  The array `mops` is a list of mop pointers, `mops + i` is
`mops.drop i`, and a read past the end of the list is a `Fault.bounds`. -/
def mopRedo (fuel : Nat) (h : Heap) (mops : List Nat) (count : Nat) :
    Except Fault (Heap × Nat) :=
  if count = 0 then pure (mopNew h)
  else if count = 1 then
    match mops[0]? with
    | some m0 => pure (h, m0)
    | none => .error .bounds
  else if count = 2 then
    match mops[0]?, mops[1]? with
    | some m0, some m1 => mopWeave fuel h m0 m1
    | _, _ => .error .bounds
  else if count % 2 ≠ 0 then
    match mops[0]? with
    | some m0 => do
      let (h1, rest) ← mopRedo fuel h (mops.drop 1) (count - 1)
      mopWeave fuel h1 m0 rest
    | none => .error .bounds
  else do
    let half := count / 2
    let (h1, left) ← mopRedo fuel h mops half
    let (h2, right) ← mopRedo fuel h1 (mops.drop half) half
    mopWeave fuel h2 left right
termination_by count
decreasing_by all_goals omega

/-- `intMopAbsorb`: a new `IntYarn` holding `n`, absorbed into `m`. -/
def intMopAbsorb (fuel : Nat) (h : Heap) (m : Nat) (n : Int) : Except Fault (Heap × Nat) :=
  let (h1, y) := yarnNew h
  mopAbsorb fuel (h1.setN y n) m y

/-- `intMopNew`: a new mop holding the single value `n`. -/
def intMopNew (fuel : Nat) (h : Heap) (n : Int) : Except Fault (Heap × Nat) :=
  let (h1, result) := mopNew h
  intMopAbsorb fuel h1 result n

/-- The loop of `intMopRedo` filling `pMop`: `todo` iterations remain, the
next index is `i`, and `pMop` lists the entries stored so far. -/
def intMopFill (fuel : Nat) (nv : List Int) :
    Nat → Nat → Heap → List Nat → Except Fault (Heap × List Nat)
  | 0, _, h, pMop => pure (h, pMop)
  | todo + 1, i, h, pMop =>
    match nv[i]? with
    | none => .error .bounds
    | some v => do
      let (h1, m) ← intMopNew fuel h v
      intMopFill fuel nv todo (i + 1) h1 (pMop ++ [m])

/-- `intMopRedo`.  The temporary array `pMop` is a local list; its own
`calloc` and `free` are not recorded in the heap. -/
def intMopRedo (fuel : Nat) (h : Heap) (size : Nat) (nv : List Int) :
    Except Fault (Heap × Nat) := do
  let (h1, pMop) ← intMopFill fuel nv size 0 h []
  mopRedo fuel h1 pMop size

/-- `range`: the integers of `[begin, end)`, for `begin ≤ end`. -/
def range (begin_ end_ : Int) : List Int :=
  (List.range (end_ - begin_).toNat).map fun (i : Nat) => begin_ + (i : Int)

/-- `intYarnF` on an output array of known extent: `out[n] = n` for the
member `n` of the yarn, a `Fault.bounds` when `n` is not an index of `out`.
The visitor state is the array, or the fault once one has happened. -/
def intYarnF (h : Heap) (s : Except Fault (List Int)) (y : Nat) : Except Fault (List Int) := do
  let out ← s
  if 0 ≤ h.n y ∧ (h.n y).toNat < out.length then
    pure (out.set (h.n y).toNat (h.n y))
  else .error .bounds

/-- The `IntBucket` built in `main`: `nullBucket.mopF`, `intYarnF` and the
array `out`. -/
def intBucket (h : Heap) : Bucket (Except Fault (List Int)) :=
  { mopF := nullBucket.mopF, yarnF := intYarnF h }

/-- A heap on which nothing has been allocated yet. -/
def Heap.empty : Heap :=
  { yarn := fun _ => { root := 0, tree := 0 }
    n := fun _ => 0
    mop := fun _ => { knot := 0, y := fun _ => 0 }
    brk := 0
    freed := [] }

/-- A visitor call, as recorded by `traceBucket`. -/
inductive Call where
  /-- The call `(*b->yarnF)(b, y)`. -/
  | yarn (y : Nat)
  /-- The call `(*b->mopF)(b, m)`. -/
  | mop (m : Nat)
  deriving DecidableEq, Repr

/-- The visitor that records each of its calls, in order. -/
def traceBucket : Bucket (List Call) :=
  { mopF := fun s m => s ++ [Call.mop m], yarnF := fun s y => s ++ [Call.yarn y] }

/-! ## Specification side: the shape and the cells of a yarn -/

/-- The cells under an inner node of rank `j`, in the order `yarnWring`
meets them: the subtree behind `tree`, the subtree behind `root`, the node. -/
def innerNodes (Y : Nat → Yarn) : Nat → Nat → List Nat
  | 0, q => [q]
  | j + 1, q => innerNodes Y j (Y q).tree ++ innerNodes Y j (Y q).root ++ [q]

/-- An inner node of rank `j`: both links null when `j = 0`, otherwise two
different non-null links to inner nodes of rank `j - 1`. -/
def innerShape (Y : Nat → Yarn) : Nat → Nat → Prop
  | 0, q => q ≠ 0 ∧ (Y q).root = 0 ∧ (Y q).tree = 0
  | j + 1, q => q ≠ 0 ∧ (Y q).tree ≠ 0 ∧ (Y q).root ≠ (Y q).tree
      ∧ innerShape Y j (Y q).tree ∧ innerShape Y j (Y q).root

/-- The cells of a yarn of knot `k` other than its root, in wring order. -/
def yarnSub (Y : Nat → Yarn) : Nat → Nat → List Nat
  | 0, _ => []
  | k + 1, p => innerNodes Y k (Y p).tree

/-- The cells of a yarn of knot `k` rooted at `p`, in wring order. -/
def yarnNodes (Y : Nat → Yarn) (k p : Nat) : List Nat :=
  yarnSub Y k p ++ [p]

/-- The root of a yarn of knot `k`: a leaf when `k = 0`, otherwise
`root == tree` pointing at an inner node of rank `k - 1`. -/
def yarnShape (Y : Nat → Yarn) : Nat → Nat → Prop
  | 0, p => p ≠ 0 ∧ (Y p).root = 0 ∧ (Y p).tree = 0
  | k + 1, p => p ≠ 0 ∧ (Y p).root = (Y p).tree ∧ innerShape Y k (Y p).tree

/-- A well-formed yarn of knot `k`: the shape of a yarn woven from leaves,
with no cell occurring twice. -/
def WfYarn (Y : Nat → Yarn) (k p : Nat) : Prop :=
  yarnShape Y k p ∧ (yarnNodes Y k p).Nodup

instance innerShapeDecidable (Y : Nat → Yarn) : ∀ j q, Decidable (innerShape Y j q)
  | 0, q => inferInstanceAs (Decidable (q ≠ 0 ∧ (Y q).root = 0 ∧ (Y q).tree = 0))
  | j + 1, q =>
    have := innerShapeDecidable Y j (Y q).tree
    have := innerShapeDecidable Y j (Y q).root
    inferInstanceAs (Decidable (q ≠ 0 ∧ (Y q).tree ≠ 0 ∧ (Y q).root ≠ (Y q).tree
      ∧ innerShape Y j (Y q).tree ∧ innerShape Y j (Y q).root))

instance yarnShapeDecidable (Y : Nat → Yarn) : ∀ k p, Decidable (yarnShape Y k p)
  | 0, p => inferInstanceAs (Decidable (p ≠ 0 ∧ (Y p).root = 0 ∧ (Y p).tree = 0))
  | k + 1, p =>
    inferInstanceAs (Decidable (p ≠ 0 ∧ (Y p).root = (Y p).tree ∧ innerShape Y k (Y p).tree))

instance WfYarnDecidable (Y : Nat → Yarn) (k p : Nat) : Decidable (WfYarn Y k p) :=
  inferInstanceAs (Decidable (yarnShape Y k p ∧ (yarnNodes Y k p).Nodup))

/-! ## Specification side: the yarns held by a mop -/

/-- A slot value as a list of yarns: nothing for a null slot, otherwise the
pair of the knot and the root. -/
def item (k v : Nat) : List (Nat × Nat) :=
  if v = 0 then [] else [(k, v)]

/-- The occupied slots among `y[s] .. y[s + n - 1]`, each with its index. -/
def slotItems (y : Nat → Nat) : Nat → Nat → List (Nat × Nat)
  | _, 0 => []
  | s, n + 1 => item s (y s) ++ slotItems y (s + 1) n

/-- The cells of a list of yarns, yarn after yarn, each in wring order. -/
def itemNodes (Y : Nat → Yarn) (items : List (Nat × Nat)) : List Nat :=
  items.flatMap fun it => yarnNodes Y it.1 it.2

/-- A list of yarns is in order: each has the shape of its knot and no cell
occurs twice, within a yarn or in two yarns. -/
def PoolOk (Y : Nat → Yarn) (items : List (Nat × Nat)) : Prop :=
  (∀ it ∈ items, yarnShape Y it.1 it.2) ∧ (itemNodes Y items).Nodup

/-- The yarns in the slots `0 .. knot` of the mop at `m`. -/
def mopItems (h : Heap) (m : Nat) : List (Nat × Nat) :=
  slotItems (h.mop m).y 0 ((h.mop m).knot + 1)

/-- The cells of the mop at `m`, in the order `mopWring` meets them. -/
def mopNodes (h : Heap) (m : Nat) : List Nat :=
  itemNodes h.yarn (mopItems h m)

/-- A well-formed mop: `knot` indexes the array, each slot up to `knot` is
null or a yarn of that knot, no cell is shared, the slots above `knot` are
null, and `knot` is the highest occupied slot, or `0` when there is none. -/
def WfMop (h : Heap) (m : Nat) : Prop :=
  m ≠ 0 ∧ (h.mop m).knot < SIZELOG2 ∧ PoolOk h.yarn (mopItems h m)
    ∧ (∀ k, k < SIZELOG2 → (h.mop m).knot < k → (h.mop m).y k = 0)
    ∧ ((h.mop m).knot = 0 ∨ (h.mop m).y (h.mop m).knot ≠ 0)

instance PoolOkDecidable (Y : Nat → Yarn) (items : List (Nat × Nat)) :
    Decidable (PoolOk Y items) :=
  inferInstanceAs (Decidable ((∀ it ∈ items, yarnShape Y it.1 it.2) ∧ (itemNodes Y items).Nodup))

instance WfMopDecidable (h : Heap) (m : Nat) : Decidable (WfMop h m) :=
  inferInstanceAs (Decidable (m ≠ 0 ∧ (h.mop m).knot < SIZELOG2 ∧ PoolOk h.yarn (mopItems h m)
    ∧ (∀ k, k < SIZELOG2 → (h.mop m).knot < k → (h.mop m).y k = 0)
    ∧ ((h.mop m).knot = 0 ∨ (h.mop m).y (h.mop m).knot ≠ 0)))

/-- The yarns the loop body of `mopWeave` looks at for index `k`: the slot
of `left`, the carry, the slot of `right`. -/
def curItems (h : Heap) (left right k carry : Nat) : List (Nat × Nat) :=
  item k ((h.mop left).y k) ++ item k carry ++ item k ((h.mop right).y k)

/-- What the loop of `mopWeave` may change between two heaps while it runs
over the indices `lo .. hi - 1` with operands `l`, `r` and result `m`: it
nulls the slots `lo .. hi - 1` of both operands and writes the same slots of
the result; no other header field, no member `n`, and neither the allocation
frontier nor the log of freed blocks changes. -/
def LoopFrame (h h1 : Heap) (l r m lo hi : Nat) : Prop :=
  (∀ x, x ≠ l → x ≠ r → x ≠ m → h1.mop x = h.mop x)
    ∧ (h1.mop l).knot = (h.mop l).knot ∧ (h1.mop r).knot = (h.mop r).knot
    ∧ (h1.mop m).knot = (h.mop m).knot
    ∧ (∀ j, (h1.mop l).y j = if lo ≤ j ∧ j < hi then 0 else (h.mop l).y j)
    ∧ (∀ j, (h1.mop r).y j = if lo ≤ j ∧ j < hi then 0 else (h.mop r).y j)
    ∧ (∀ j, j < lo ∨ hi ≤ j → (h1.mop m).y j = (h.mop m).y j)
    ∧ h1.n = h.n ∧ h1.brk = h.brk ∧ h1.freed = h.freed

/-- The state `mopWeave h l r` leaves when it returns `m` in heap `h1`: `m`
is the fresh header, a well-formed mop holding the cells of both operands;
both operand headers are freed with `knot == 0` and every slot null; headers
of other mops and yarn cells outside the operands are untouched. -/
def WeavePost (h h1 : Heap) (l r m : Nat) : Prop :=
  m = h.brk + 1 ∧ h1.brk = h.brk + 1 ∧ h1.n = h.n ∧ h1.freed = h.freed ++ [l, r]
    ∧ WfMop h1 m ∧ (mopNodes h1 m).Perm (mopNodes h l ++ mopNodes h r)
    ∧ (∀ x, x ≠ l → x ≠ r → x ≠ m → h1.mop x = h.mop x)
    ∧ (∀ a, a ∉ mopNodes h l ++ mopNodes h r → h1.yarn a = h.yarn a)
    ∧ (h1.mop l).knot = 0 ∧ (h1.mop r).knot = 0
    ∧ (∀ j, j < SIZELOG2 → (h1.mop l).y j = 0 ∧ (h1.mop r).y j = 0)

/-! ## Recorded calls and a small heap -/

/-- The yarns on which a recorded call sequence called `yarnF`, in order. -/
def yarnCalls : List Call → List Nat
  | [] => []
  | Call.yarn y :: t => y :: yarnCalls t
  | Call.mop _ :: t => yarnCalls t

/-- A small heap: the leaves `1`, `2` and `8`, the yarn of knot `1` rooted
at `3` with the cell `4` below it, the mop `5` holding `1`, the mop `6`
holding `2` and `3`, and the mop `7` holding `8`. -/
def exHeap : Heap :=
  { yarn := fun a => if a = 3 then { root := 4, tree := 4 } else { root := 0, tree := 0 }
    n := fun a => (a : Int) * 10
    mop := fun a =>
      if a = 5 then { knot := 0, y := fun k => if k = 0 then 1 else 0 }
      else if a = 6 then { knot := 1, y := fun k => if k = 0 then 2 else if k = 1 then 3 else 0 }
      else if a = 7 then { knot := 0, y := fun k => if k = 0 then 8 else 0 }
      else { knot := 0, y := fun _ => 0 }
    brk := 8
    freed := [] }

/-- Replaying a recorded call sequence on a visitor: each recorded call is
made on the visitor, in order. -/
def replay {β : Type} (b : Bucket β) (s : β) (t : List Call) : β :=
  t.foldl (fun s c => match c with
    | Call.yarn y => b.yarnF s y
    | Call.mop m => b.mopF s m) s

/-- The cell `c` is behind a non-null link of the cell `q`. -/
def link (Y : Nat → Yarn) (q c : Nat) : Prop :=
  c ≠ 0 ∧ (c = (Y q).root ∨ c = (Y q).tree)

/-- In the visit sequence `t` the cell `c` comes before the cell `q`: the
sequence splits into a first part holding `c` and a second part holding `q`. -/
def VisitedBefore (t : List Nat) (c q : Nat) : Prop :=
  ∃ t1 t2, t = t1 ++ t2 ∧ c ∈ t1 ∧ q ∈ t2

/-! ## Specification side: the objects a client holds -/

/-- The client invariant.  A client holds the mops `ms` and the loose
leaves `ys` (yarns from `yarnNew` it has not absorbed yet): the mops are
different allocated headers, each well-formed; the loose yarns are leaves;
no cell occurs twice among the loose leaves and the cells of the mops; and
every such cell is allocated. -/
def Live (h : Heap) (ms ys : List Nat) : Prop :=
  ms.Nodup ∧ (∀ m ∈ ms, m ≤ h.brk ∧ WfMop h m) ∧ (∀ y ∈ ys, yarnShape h.yarn 0 y)
    ∧ (ys ++ ms.flatMap (mopNodes h)).Nodup
    ∧ ∀ a ∈ ys ++ ms.flatMap (mopNodes h), a ≤ h.brk

instance LiveDecidable (h : Heap) (ms ys : List Nat) : Decidable (Live h ms ys) :=
  inferInstanceAs (Decidable (ms.Nodup ∧ (∀ m ∈ ms, m ≤ h.brk ∧ WfMop h m)
    ∧ (∀ y ∈ ys, yarnShape h.yarn 0 y)
    ∧ (ys ++ ms.flatMap (mopNodes h)).Nodup
    ∧ ∀ a ∈ ys ++ ms.flatMap (mopNodes h), a ≤ h.brk))

/-- The loop `for (i = 0; i < size; ++i) assert(in[i] == out[i])` of `main`:
`todo` iterations remain, the next index is `i`. -/
def assertEqual (in_ out : List Int) : Nat → Nat → Except Fault Unit
  | 0, _ => pure ()
  | todo + 1, i =>
    match in_[i]?, out[i]? with
    | some a, some b => if a = b then assertEqual in_ out todo (i + 1) else .error .assertion
    | _, _ => .error .bounds

/-- The body of the `if` in `main` for an argument that parsed to `end_ ≥ 0`:
build the mop of `range(0, end)`, wring it into a zeroed array `out`, delete
it, and assert `in[i] == out[i]` for every `i`.  The arrays `in` and `out`
are local lists; their own `calloc` and `free` are not recorded in the heap. -/
def mainTest (fuel : Nat) (h : Heap) (end_ : Nat) : Except Fault Heap := do
  let begin_ : Int := 0
  let size := ((end_ : Int) - begin_).toNat
  let in_ := range begin_ end_
  let (h1, m) ← intMopRedo fuel h size in_
  let out := List.replicate size (0 : Int)
  let r ← mopWring fuel h1 m (intBucket h1) (.ok out)
  let out1 ← r
  let h2 ← mopDelete fuel h1 m
  assertEqual in_ out1 size 0
  pure h2

/-- The states a client can reach.  `Reach h ms ys` says that some sequence
of calls of `mopNew`, `yarnNew`, `mopAbsorb`, `mopWeave` and `mopRedo`, none
of which failed, and of stores to members `n`, has led to the heap `h` in
which the client holds the mops `ms` and the loose leaves `ys`.  A call
consumes its operands: the client holds the result in their place. -/
inductive Reach : Heap → List Nat → List Nat → Prop where
  /-- Nothing is held at the start, whatever the heap. -/
  | start (h : Heap) : Reach h [] []
  /-- A call of `mopNew`. -/
  | mopNew {h : Heap} {ms ys : List Nat} :
      Reach h ms ys → Reach (mopNew h).1 ((mopNew h).2 :: ms) ys
  /-- A call of `yarnNew`. -/
  | yarnNew {h : Heap} {ms ys : List Nat} :
      Reach h ms ys → Reach (yarnNew h).1 ms ((yarnNew h).2 :: ys)
  /-- A store to the member `n` of a cell. -/
  | setN {h : Heap} {ms ys : List Nat} (y : Nat) (v : Int) :
      Reach h ms ys → Reach (h.setN y v) ms ys
  /-- A call of `mopAbsorb` on a held mop and a held loose leaf that returned. -/
  | mopAbsorb {h h1 : Heap} {ms ys : List Nat} {m y m1 : Nat} (fuel : Nat) :
      Reach h ms ys → m ∈ ms → y ∈ ys → mopAbsorb fuel h m y = .ok (h1, m1) →
      Reach h1 (m1 :: ms.erase m) (ys.erase y)
  /-- A call of `mopWeave` on two different held mops that returned. -/
  | mopWeave {h h1 : Heap} {ms ys : List Nat} {l r m1 : Nat} (fuel : Nat) :
      Reach h ms ys → l ∈ ms → r ∈ ms → l ≠ r → mopWeave fuel h l r = .ok (h1, m1) →
      Reach h1 (m1 :: (ms.erase l).erase r) ys
  /-- A call of `mopRedo` on an array of different held mops that returned. -/
  | mopRedo {h h1 : Heap} {ms ys : List Nat} {m1 : Nat} (fuel : Nat) (mops : List Nat) :
      Reach h ms ys → mops.Nodup → (∀ m ∈ mops, m ∈ ms) →
      mopRedo fuel h mops mops.length = .ok (h1, m1) →
      Reach h1 (m1 :: ms.filter (fun m => m ∉ mops)) ys

/-- A heap a client reaches from the empty heap by `mopNew`, `yarnNew` and
`mopAbsorb`, with the mop it then holds. -/
def exAbsorbed : Heap × Nat :=
  match mopAbsorb 0 (yarnNew (mopNew Heap.empty).1).1 1 2 with
  | .ok p => p
  | .error _ => (Heap.empty, 0)

/-- What one pass through the loop body of `mopWeave` at index `k` does, by
which of the slot of `left`, the incoming carry `c` and the slot of `right`
are present: `out` is the slot `result->y[k]` after the pass (`old` before
it), `c1` the outgoing carry and `Y1` the yarn cells after the pass. -/
def StepOutcome (h : Heap) (l r k c old out c1 : Nat) (Y1 : Nat → Yarn) : Prop :=
  ((h.mop l).y k = 0 → c = 0 → (h.mop r).y k = 0 → out = old ∧ c1 = 0 ∧ Y1 = h.yarn)
    ∧ ((h.mop l).y k ≠ 0 → c = 0 → (h.mop r).y k = 0 →
        out = (h.mop l).y k ∧ c1 = 0 ∧ Y1 = h.yarn)
    ∧ ((h.mop l).y k = 0 → c ≠ 0 → (h.mop r).y k = 0 → out = c ∧ c1 = 0 ∧ Y1 = h.yarn)
    ∧ ((h.mop l).y k = 0 → c = 0 → (h.mop r).y k ≠ 0 →
        out = (h.mop r).y k ∧ c1 = 0 ∧ Y1 = h.yarn)
    ∧ ((h.mop l).y k ≠ 0 → c ≠ 0 → (h.mop r).y k = 0 →
        out = 0 ∧ ∃ hw, yarnWeave h ((h.mop l).y k) c = .ok (hw, c1) ∧ Y1 = hw.yarn)
    ∧ ((h.mop l).y k ≠ 0 → c = 0 → (h.mop r).y k ≠ 0 →
        out = 0 ∧ ∃ hw, yarnWeave h ((h.mop l).y k) ((h.mop r).y k) = .ok (hw, c1)
          ∧ Y1 = hw.yarn)
    ∧ ((h.mop l).y k = 0 → c ≠ 0 → (h.mop r).y k ≠ 0 →
        out = 0 ∧ ∃ hw, yarnWeave h c ((h.mop r).y k) = .ok (hw, c1) ∧ Y1 = hw.yarn)
    ∧ ((h.mop l).y k ≠ 0 → c ≠ 0 → (h.mop r).y k ≠ 0 →
        out = c ∧ ∃ hw, yarnWeave h ((h.mop l).y k) ((h.mop r).y k) = .ok (hw, c1)
          ∧ Y1 = hw.yarn)

/-- The heap and the mop that `mopWeave` returns on the mops `5` and `6` of
`exHeap`. -/
def exWoven : Heap × Nat :=
  match mopWeave 0 exHeap 5 6 with
  | .ok p => p
  | .error _ => (Heap.empty, 0)

/-- The number `1` for an occupied slot or a present carry, `0` for a null
one. -/
def present (v : Nat) : Nat :=
  if v ≠ 0 then 1 else 0

/-- The heap and the carry after the pass for index `0` of the loop of
`mopWeave` on the mops `5` and `6` of `exHeap`. -/
def exStep0 : Heap × Nat :=
  match weaveStep (mopNew exHeap).1 5 6 9 0 0 with
  | .ok p => p
  | .error _ => (Heap.empty, 0)

/-- The heap and the carry after the pass for index `1` of the same loop. -/
def exStep1 : Heap × Nat :=
  match weaveStep exStep0.1 5 6 9 1 exStep0.2 with
  | .ok p => p
  | .error _ => (Heap.empty, 0)

/-! ## Specification side: chains of links and the yarns woven from leaves -/

/-- A chain of `n` links starts at the cell `q`: a non-null link of `q`,
`root` or `tree`, leads to a cell at which a chain of `n - 1` links starts. -/
def linkChain (Y : Nat → Yarn) : Nat → Nat → Prop
  | 0, _ => True
  | n + 1, q => (link Y q (Y q).root ∧ linkChain Y n (Y q).root)
      ∨ (link Y q (Y q).tree ∧ linkChain Y n (Y q).tree)

/-- The yarns woven from leaves.  `Woven h k p` says that in the heap `h` the
cell `p` is the root of a yarn of knot `k` obtained from cells returned by
`yarnNew` by calls of `yarnWeave`, each on two yarns of the same knot that
share no cell; stores that leave the cells of a yarn alone do not matter. -/
inductive Woven : Heap → Nat → Nat → Prop where
  /-- A cell fresh from `yarnNew` is a yarn of knot `0`. -/
  | leaf (h : Heap) : Woven (yarnNew h).1 0 (yarnNew h).2
  /-- A call of `yarnWeave` that returned, on two yarns of knot `k` sharing no
  cell, gives a yarn of knot `k + 1`. -/
  | weave {h h1 : Heap} {k a b c : Nat} :
      Woven h k a → Woven h k b → (yarnNodes h.yarn k a ++ yarnNodes h.yarn k b).Nodup →
      yarnWeave h a b = .ok (h1, c) → Woven h1 (k + 1) c
  /-- A yarn stays what it is while none of its cells is written. -/
  | frame {h h1 : Heap} {k p : Nat} :
      Woven h k p → (∀ x ∈ yarnNodes h.yarn k p, h1.yarn x = h.yarn x) → Woven h1 k p

/-- The heap after four calls of `yarnNew` on the empty heap: the leaves
`1`, `2`, `3` and `4`. -/
def exLeaves : Heap :=
  (yarnNew (yarnNew (yarnNew (yarnNew Heap.empty).1).1).1).1

/-- The heap and the yarn that `yarnWeave` returns on the leaves `1` and `2`
of `exLeaves`. -/
def exPair1 : Heap × Nat :=
  match yarnWeave exLeaves 1 2 with
  | .ok p => p
  | .error _ => (Heap.empty, 0)

/-- The heap and the yarn that `yarnWeave` then returns on the leaves `3` and
`4`. -/
def exPair2 : Heap × Nat :=
  match yarnWeave exPair1.1 3 4 with
  | .ok p => p
  | .error _ => (Heap.empty, 0)

/-- The heap and the yarn of knot `2` that `yarnWeave` then returns on the
two yarns of knot `1`. -/
def exYarn : Heap × Nat :=
  match yarnWeave exPair2.1 exPair1.2 exPair2.2 with
  | .ok p => p
  | .error _ => (Heap.empty, 0)

/-! ## The driver `main` -/

/-- The conversion in `const int end = strtoll(..)` of a `long long` to an
`int` of 32 bits: the value modulo `2 ^ 32`, taken in `-2 ^ 31 .. 2 ^ 31 - 1`. -/
def toInt (v : Int) : Int :=
  (v + 2147483648) % 4294967296 - 2147483648

/-- The test `*pEnd == *""` for `pEnd` at offset `n` of the argument `a`:
the argument is the list of its characters, followed in memory by the
terminating NUL. -/
def atEnd (a : List Char) (n : Nat) : Bool :=
  (a ++ [Char.ofNat 0])[n]? == some (Char.ofNat 0)

/-- The loop of `main` over the arguments: `todo` iterations remain, the
next index is `i`, and `ok` counts the tests run so far.  The library
function `strtoll`, in base 10, is a parameter: for an argument it gives the
value it returns and the offset at which it leaves `pEnd`.  Heaps are as in
`mainTest`.  For `end < 0` the C `mopRedo` is called with a negative `count`,
which reaches none of its base cases (the counts `-1` and `-2` call each
other) and reads `mops[0]` of an array of negative size: the run does not
return, a `Fault.bounds` here. -/
def mainLoop (strtoll : List Char → Int × Nat) (fuel : Nat) (av : List (List Char)) :
    Nat → Nat → Heap → Nat → Except Fault (Heap × Nat)
  | 0, _, h, ok => pure (h, ok)
  | todo + 1, i, h, ok =>
    match av[i]? with
    | none => .error .bounds
    | some a =>
      let end_ := toInt (strtoll a).1
      if atEnd a (strtoll a).2 then
        if end_ < 0 then .error .bounds
        else do
          let h1 ← mainTest fuel h end_.toNat
          mainLoop strtoll fuel av todo (i + 1) h1 (ok + 1)
      else mainLoop strtoll fuel av todo (i + 1) h ok

/-- `main` on the argument vector `av`, with `ac` its length: the loop over
`av[1] .. av[ac - 1]`, then `return 0` when `ac > 1 && ac == ok + 1`, else
`showUsage(av[0])` and `return 1`.  The result is the heap, the status
returned, and whether `showUsage` was called. -/
def main (strtoll : List Char → Int × Nat) (fuel : Nat) (h : Heap) (av : List (List Char)) :
    Except Fault (Heap × Nat × Bool) := do
  let ac := av.length
  let (h1, ok) ← mainLoop strtoll fuel av (ac - 1) 1 h 0
  if ac > 1 ∧ ac = ok + 1 then pure (h1, 0, false)
  else pure (h1, 1, true)

/-- A stand-in for `strtoll` on unsigned decimal numerals: the value of the
leading digits and their number. -/
def exStrtoll (a : List Char) : Int × Nat :=
  (((a.takeWhile Char.isDigit).foldl (fun n c => 10 * n + (c.toNat - 48)) 0 : Nat),
    (a.takeWhile Char.isDigit).length)

end MopRedo

namespace MopRedo

/-! ## Yarns: cells, frames and the wring order -/

theorem innerNodes_length (Y : Nat → Yarn) (j q : Nat) :
    (innerNodes Y j q).length + 1 = 2 ^ (j + 1) := by
  induction j generalizing q with
  | zero => simp [innerNodes]
  | succ j ih =>
    have h1 := ih (Y q).tree
    have h2 := ih (Y q).root
    simp only [innerNodes, List.length_append, List.length_singleton]
    rw [pow_succ 2 (j + 1)]
    omega

theorem yarnNodes_length (Y : Nat → Yarn) (k p : Nat) :
    (yarnNodes Y k p).length = 2 ^ k := by
  cases k with
  | zero => simp [yarnNodes, yarnSub]
  | succ k =>
    have h1 := innerNodes_length Y k (Y p).tree
    simp only [yarnNodes, yarnSub, List.length_append, List.length_singleton]
    omega

theorem mem_innerNodes_self (Y : Nat → Yarn) (j q : Nat) : q ∈ innerNodes Y j q := by
  cases j <;> simp [innerNodes]

theorem mem_yarnNodes_self (Y : Nat → Yarn) (k p : Nat) : p ∈ yarnNodes Y k p := by
  simp [yarnNodes]

theorem innerShape_ne_zero {Y : Nat → Yarn} {j q : Nat} (hs : innerShape Y j q) : q ≠ 0 := by
  cases j with
  | zero => exact hs.1
  | succ j => exact hs.1

theorem yarnShape_ne_zero {Y : Nat → Yarn} {k p : Nat} (hs : yarnShape Y k p) : p ≠ 0 := by
  cases k with
  | zero => exact hs.1
  | succ k => exact hs.1

theorem yarnShape_root_eq_tree {Y : Nat → Yarn} {k p : Nat} (hs : yarnShape Y k p) :
    (Y p).root = (Y p).tree := by
  cases k with
  | zero => rw [hs.2.1, hs.2.2]
  | succ k => exact hs.2.1

/-- Cells outside a subtree do not matter: two yarn maps that agree on the
cells of an inner node give it the same cells. -/
theorem innerNodes_frame {Y Z : Nat → Yarn} (j q : Nat)
    (hf : ∀ a ∈ innerNodes Y j q, Z a = Y a) : innerNodes Z j q = innerNodes Y j q := by
  induction j generalizing q with
  | zero => simp [innerNodes]
  | succ j ih =>
    have hq : Z q = Y q := hf q (mem_innerNodes_self Y (j + 1) q)
    have h1 : innerNodes Z j (Y q).tree = innerNodes Y j (Y q).tree :=
      ih (Y q).tree (fun a ha => hf a (by simp [innerNodes, ha]))
    have h2 : innerNodes Z j (Y q).root = innerNodes Y j (Y q).root :=
      ih (Y q).root (fun a ha => hf a (by simp [innerNodes, ha]))
    simp only [innerNodes, hq, h1, h2]

theorem innerShape_frame {Y Z : Nat → Yarn} (j q : Nat)
    (hf : ∀ a ∈ innerNodes Y j q, Z a = Y a) (hs : innerShape Y j q) : innerShape Z j q := by
  induction j generalizing q with
  | zero =>
    have hq : Z q = Y q := hf q (mem_innerNodes_self Y 0 q)
    simpa [innerShape, hq] using hs
  | succ j ih =>
    have hq : Z q = Y q := hf q (mem_innerNodes_self Y (j + 1) q)
    obtain ⟨h0, h1, h2, h3, h4⟩ := hs
    refine ⟨h0, by rw [hq]; exact h1, by rw [hq]; exact h2, ?_, ?_⟩
    · rw [hq]; exact ih (Y q).tree (fun a ha => hf a (by simp [innerNodes, ha])) h3
    · rw [hq]; exact ih (Y q).root (fun a ha => hf a (by simp [innerNodes, ha])) h4

theorem yarnNodes_frame {Y Z : Nat → Yarn} (k p : Nat)
    (hf : ∀ a ∈ yarnNodes Y k p, Z a = Y a) : yarnNodes Z k p = yarnNodes Y k p := by
  cases k with
  | zero => simp [yarnNodes, yarnSub]
  | succ k =>
    have hp : Z p = Y p := hf p (mem_yarnNodes_self Y (k + 1) p)
    have h1 : innerNodes Z k (Y p).tree = innerNodes Y k (Y p).tree :=
      innerNodes_frame k (Y p).tree (fun a ha => hf a (by simp [yarnNodes, yarnSub, ha]))
    simp only [yarnNodes, yarnSub, hp, h1]

theorem yarnShape_frame {Y Z : Nat → Yarn} (k p : Nat)
    (hf : ∀ a ∈ yarnNodes Y k p, Z a = Y a) (hs : yarnShape Y k p) : yarnShape Z k p := by
  have hp : Z p = Y p := hf p (mem_yarnNodes_self Y k p)
  cases k with
  | zero => simpa [yarnShape, hp] using hs
  | succ k =>
    obtain ⟨h0, h1, h2⟩ := hs
    refine ⟨h0, by rw [hp]; exact h1, ?_⟩
    rw [hp]
    exact innerShape_frame k (Y p).tree (fun a ha => hf a (by simp [yarnNodes, yarnSub, ha])) h2

/-! ## `yarnWring` on a yarn and `yarnWeave` on two yarns -/

theorem yarnWring_inner {β : Type} (h : Heap) (b : Bucket β) (j : Nat) :
    ∀ (fuel q : Nat) (s : β), innerShape h.yarn j q → j < fuel →
      yarnWring fuel h q b s = .ok ((innerNodes h.yarn j q).foldl b.yarnF s) := by
  induction j with
  | zero =>
    intro fuel q s hs hf
    obtain ⟨f, rfl⟩ : ∃ f, fuel = f + 1 := ⟨fuel - 1, by omega⟩
    obtain ⟨h0, _, h2⟩ := hs
    simp [yarnWring, h0, h2, innerNodes, pure, Except.pure, bind, Except.bind]
  | succ j ih =>
    intro fuel q s hs hf
    obtain ⟨f, rfl⟩ : ∃ f, fuel = f + 1 := ⟨fuel - 1, by omega⟩
    obtain ⟨h0, h1, h2, h3, h4⟩ := hs
    have e1 := ih f (h.yarn q).tree s h3 (by omega)
    have e2 := ih f (h.yarn q).root
      ((innerNodes h.yarn j (h.yarn q).tree).foldl b.yarnF s) h4 (by omega)
    simp [yarnWring, h0, h1, h2, e1, e2, innerNodes, pure, Except.pure, bind, Except.bind]

theorem yarnWring_yarn {β : Type} (h : Heap) (b : Bucket β) (k fuel p : Nat) (s : β)
    (hs : yarnShape h.yarn k p) (hf : k < fuel) :
    yarnWring fuel h p b s = .ok ((yarnNodes h.yarn k p).foldl b.yarnF s) := by
  obtain ⟨f, rfl⟩ : ∃ f, fuel = f + 1 := ⟨fuel - 1, by omega⟩
  cases k with
  | zero =>
    obtain ⟨h0, _, h2⟩ := hs
    simp [yarnWring, h0, h2, yarnNodes, yarnSub, pure, Except.pure, bind, Except.bind]
  | succ k =>
    obtain ⟨h0, h1, h2⟩ := hs
    have e1 := yarnWring_inner h b k f (h.yarn p).tree s h2 (by omega)
    have h3 := innerShape_ne_zero h2
    simp [yarnWring, h0, h1, h3, e1, yarnNodes, yarnSub, pure, Except.pure, bind, Except.bind]

/-- The heap left by the three stores of `yarnWeave h a b`. -/
theorem yarnWeave_ok (h : Heap) (a b : Nat) (ha : a ≠ 0) (hb : b ≠ 0)
    (hra : (h.yarn a).root = (h.yarn a).tree) (hrb : (h.yarn b).root = (h.yarn b).tree) :
    yarnWeave h a b = .ok
      (((h.setRoot b (h.yarn a).tree).setTree a b).setRoot a
        ((((h.setRoot b (h.yarn a).tree).setTree a b).yarn a).tree), a) := by
  simp [yarnWeave, ha, hb, hra, hrb]

/-- The specification of `yarnWeave` on two disjoint yarns of the same knot:
it returns `a`, now the root of a yarn of the next knot whose cells are the
cells under `b`, the cells under `a`, `b` and `a`; nothing but the two root
cells is written. -/
theorem yarnWeave_spec (h : Heap) (k a b : Nat) (ha : yarnShape h.yarn k a)
    (hb : yarnShape h.yarn k b) (hd : (yarnNodes h.yarn k a ++ yarnNodes h.yarn k b).Nodup) :
    ∃ h1, yarnWeave h a b = .ok (h1, a) ∧ yarnShape h1.yarn (k + 1) a
      ∧ yarnNodes h1.yarn (k + 1) a = yarnSub h.yarn k b ++ yarnSub h.yarn k a ++ [b, a]
      ∧ (∀ c, c ≠ a → c ≠ b → h1.yarn c = h.yarn c)
      ∧ h1.mop = h.mop ∧ h1.n = h.n ∧ h1.brk = h.brk ∧ h1.freed = h.freed := by
  have ha0 := yarnShape_ne_zero ha
  have hb0 := yarnShape_ne_zero hb
  have hab : a ≠ b := by
    intro e
    subst e
    exact List.disjoint_of_nodup_append hd (mem_yarnNodes_self _ k a)
      (mem_yarnNodes_self _ k a)
  refine ⟨_, yarnWeave_ok h a b ha0 hb0 (yarnShape_root_eq_tree ha)
    (yarnShape_root_eq_tree hb), ?_⟩
  set h1 := ((h.setRoot b (h.yarn a).tree).setTree a b).setRoot a
        ((((h.setRoot b (h.yarn a).tree).setTree a b).yarn a).tree) with hh1
  have ya : h1.yarn a = { root := b, tree := b } := by
    simp [hh1, Heap.setRoot, Heap.setTree]
  have yb : h1.yarn b = { root := (h.yarn a).tree, tree := (h.yarn b).tree } := by
    simp [hh1, Heap.setRoot, Heap.setTree, hab.symm]
  have yc : ∀ c, c ≠ a → c ≠ b → h1.yarn c = h.yarn c := by
    intro c hca hcb
    simp [hh1, Heap.setRoot, Heap.setTree, hca, hcb]
  have hrest : h1.mop = h.mop ∧ h1.n = h.n ∧ h1.brk = h.brk ∧ h1.freed = h.freed := by
    simp [hh1, Heap.setRoot, Heap.setTree]
  cases k with
  | zero =>
    obtain ⟨_, _, hat⟩ := ha
    obtain ⟨_, _, hbt⟩ := hb
    refine ⟨?_, ?_, yc, hrest⟩
    · simp [yarnShape, innerShape, ya, yb, ha0, hb0, hat, hbt]
    · simp [yarnNodes, yarnSub, innerNodes, ya]
  | succ j =>
    obtain ⟨_, _, has⟩ := ha
    obtain ⟨_, _, hbs⟩ := hb
    simp only [yarnNodes, yarnSub] at hd
    have hnd := hd
    rw [List.nodup_append] at hnd
    obtain ⟨hna, hnb, hdis⟩ := hnd
    rw [List.nodup_append] at hna hnb
    have fa : ∀ c ∈ innerNodes h.yarn j (h.yarn a).tree, h1.yarn c = h.yarn c := by
      intro c hc
      apply yc
      · intro e; subst e
        exact hna.2.2 hc (List.mem_singleton_self _)
      · intro e; subst e
        exact hdis (List.mem_append_left _ hc) (List.mem_append_right _ (List.mem_singleton_self _))
    have fb : ∀ c ∈ innerNodes h.yarn j (h.yarn b).tree, h1.yarn c = h.yarn c := by
      intro c hc
      apply yc
      · intro e; subst e
        exact hdis (List.mem_append_right _ (List.mem_singleton_self _)) (List.mem_append_left _ hc)
      · intro e; subst e
        exact hnb.2.2 hc (List.mem_singleton_self _)
    have hne : (h.yarn a).tree ≠ (h.yarn b).tree := by
      intro e
      exact hdis (List.mem_append_left _ (mem_innerNodes_self _ j _))
        (List.mem_append_left _ (e ▸ mem_innerNodes_self _ j _))
    refine ⟨?_, ?_, yc, hrest⟩
    · refine ⟨ha0, by rw [ya], ?_⟩
      rw [ya]
      refine ⟨hb0, ?_, ?_, ?_, ?_⟩
      · rw [yb]; exact innerShape_ne_zero hbs
      · rw [yb]; exact hne
      · rw [yb]; exact innerShape_frame j _ fb hbs
      · rw [yb]; exact innerShape_frame j _ fa has
    · simp only [yarnNodes, yarnSub, innerNodes, ya, yb, innerNodes_frame j _ fa,
        innerNodes_frame j _ fb]
      simp

/-! ## Lists of yarns -/

theorem itemNodes_nil (Y : Nat → Yarn) : itemNodes Y [] = [] := rfl

theorem itemNodes_cons (Y : Nat → Yarn) (it : Nat × Nat) (l : List (Nat × Nat)) :
    itemNodes Y (it :: l) = yarnNodes Y it.1 it.2 ++ itemNodes Y l := by
  simp [itemNodes]

theorem itemNodes_append (Y : Nat → Yarn) (l1 l2 : List (Nat × Nat)) :
    itemNodes Y (l1 ++ l2) = itemNodes Y l1 ++ itemNodes Y l2 := by
  simp [itemNodes]

theorem itemNodes_perm (Y : Nat → Yarn) {l1 l2 : List (Nat × Nat)} (hp : l1.Perm l2) :
    (itemNodes Y l1).Perm (itemNodes Y l2) :=
  List.Perm.flatMap_right _ hp

theorem mem_itemNodes {Y : Nat → Yarn} {l : List (Nat × Nat)} {a : Nat} :
    a ∈ itemNodes Y l ↔ ∃ it ∈ l, a ∈ yarnNodes Y it.1 it.2 := by
  simp [itemNodes]

theorem PoolOk.permPool {Y : Nat → Yarn} {l1 l2 : List (Nat × Nat)} (h1 : PoolOk Y l1)
    (hp : l1.Perm l2) : PoolOk Y l2 :=
  ⟨fun it hit => h1.1 it (hp.mem_iff.mpr hit), (itemNodes_perm Y hp).nodup_iff.mp h1.2⟩

theorem itemNodes_frame {Y Z : Nat → Yarn} (l : List (Nat × Nat))
    (hf : ∀ a ∈ itemNodes Y l, Z a = Y a) : itemNodes Z l = itemNodes Y l := by
  induction l with
  | nil => rfl
  | cons it l ih =>
    rw [itemNodes_cons, itemNodes_cons]
    rw [itemNodes_cons] at hf
    rw [yarnNodes_frame it.1 it.2 (fun a ha => hf a (List.mem_append_left _ ha)),
      ih (fun a ha => hf a (List.mem_append_right _ ha))]

theorem PoolOk.framePool {Y Z : Nat → Yarn} {l : List (Nat × Nat)} (h1 : PoolOk Y l)
    (hf : ∀ a ∈ itemNodes Y l, Z a = Y a) : PoolOk Z l := by
  refine ⟨fun it hit => ?_, ?_⟩
  · exact yarnShape_frame it.1 it.2
      (fun a ha => hf a (mem_itemNodes.mpr ⟨it, hit, ha⟩)) (h1.1 it hit)
  · rw [itemNodes_frame l hf]; exact h1.2

theorem PoolOk.append_left {Y : Nat → Yarn} {l1 l2 : List (Nat × Nat)}
    (h1 : PoolOk Y (l1 ++ l2)) : PoolOk Y l1 := by
  refine ⟨fun it hit => h1.1 it (List.mem_append_left _ hit), ?_⟩
  have := h1.2
  rw [itemNodes_append] at this
  exact (List.nodup_append.mp this).1

theorem PoolOk.append_right {Y : Nat → Yarn} {l1 l2 : List (Nat × Nat)}
    (h1 : PoolOk Y (l1 ++ l2)) : PoolOk Y l2 := by
  refine ⟨fun it hit => h1.1 it (List.mem_append_right _ hit), ?_⟩
  have := h1.2
  rw [itemNodes_append] at this
  exact (List.nodup_append.mp this).2.1

/-- Weaving the first two yarns of a list that is in order: the woven yarn
and the remaining yarns are in order again and hold the same cells. -/
theorem yarnWeave_pool (h : Heap) (k a b : Nat) (rest : List (Nat × Nat))
    (hp : PoolOk h.yarn ((k, a) :: (k, b) :: rest)) :
    ∃ h1, yarnWeave h a b = .ok (h1, a) ∧ PoolOk h1.yarn ((k + 1, a) :: rest)
      ∧ (itemNodes h1.yarn ((k + 1, a) :: rest)).Perm
          (itemNodes h.yarn ((k, a) :: (k, b) :: rest))
      ∧ (∀ c, c ≠ a → c ≠ b → h1.yarn c = h.yarn c)
      ∧ h1.mop = h.mop ∧ h1.n = h.n ∧ h1.brk = h.brk ∧ h1.freed = h.freed := by
  obtain ⟨hsh, hnd⟩ := hp
  have hsa : yarnShape h.yarn k a := hsh (k, a) (by simp)
  have hsb : yarnShape h.yarn k b := hsh (k, b) (by simp)
  rw [itemNodes_cons, itemNodes_cons, ← List.append_assoc] at hnd
  have hnd2 := List.nodup_append.mp hnd
  obtain ⟨h1, e1, s1, n1, f1, r1⟩ := yarnWeave_spec h k a b hsa hsb hnd2.1
  have hfr : ∀ c ∈ itemNodes h.yarn rest, h1.yarn c = h.yarn c := by
    intro c hc
    apply f1
    · intro e; subst e
      exact hnd2.2.2 (List.mem_append_left _ (mem_yarnNodes_self _ k _)) hc
    · intro e; subst e
      exact hnd2.2.2 (List.mem_append_right _ (mem_yarnNodes_self _ k _)) hc
  have hperm : (yarnNodes h1.yarn (k + 1) a).Perm
      (yarnNodes h.yarn k a ++ yarnNodes h.yarn k b) := by
    rw [n1]
    simp only [yarnNodes]
    refine List.perm_iff_count.mpr (fun x => ?_)
    simp only [List.count_append, List.count_cons, List.count_nil]
    omega
  have hperm2 : (itemNodes h1.yarn ((k + 1, a) :: rest)).Perm
      (itemNodes h.yarn ((k, a) :: (k, b) :: rest)) := by
    rw [itemNodes_cons, itemNodes_cons, itemNodes_cons, itemNodes_frame rest hfr,
      ← List.append_assoc]
    exact hperm.append_right _
  refine ⟨h1, e1, ⟨?_, ?_⟩, hperm2, f1, r1⟩
  · intro it hit
    rcases List.mem_cons.mp hit with e | hr
    · subst e; exact s1
    · exact yarnShape_frame it.1 it.2
        (fun c hc => hfr c (mem_itemNodes.mpr ⟨it, hr, hc⟩)) (hsh it (by simp [hr]))
  · refine hperm2.nodup_iff.mpr ?_
    rw [itemNodes_cons, itemNodes_cons, ← List.append_assoc]
    exact hnd

/-! ## One pass through the loop body of `mopWeave` -/

theorem item_zero (k : Nat) : item k 0 = [] := rfl

theorem item_ne {k v : Nat} (hv : v ≠ 0) : item k v = [(k, v)] := by
  simp [item, hv]

theorem setY_mop_self (h : Heap) (m k : Nat) :
    (h.setY m k ((h.mop m).y k)).mop = h.mop := by
  funext a
  by_cases ha : a = m
  · subst ha
    simp only [Heap.setY, if_true]
    congr 1
    funext j
    by_cases hj : j = k
    · subst hj; simp
    · simp [hj]
  · simp [Heap.setY, ha]

/-- The switch of the loop body: it succeeds on a list of yarns that is in
order, leaves `out` in `result->y[k]` and returns the carry `c1`. -/
theorem weaveSwitch_spec (h : Heap) (l r m k c : Nat) (rest : List (Nat × Nat))
    (hlm : l ≠ m) (hrm : r ≠ m) (hM : (h.mop m).y k = 0)
    (hp : PoolOk h.yarn (curItems h l r k c ++ rest)) :
    ∃ h1 c1 out, weaveSwitch h l r m k c = .ok (h1, c1)
      ∧ PoolOk h1.yarn (item k out ++ item (k + 1) c1 ++ rest)
      ∧ (itemNodes h1.yarn (item k out ++ item (k + 1) c1 ++ rest)).Perm
          (itemNodes h.yarn (curItems h l r k c ++ rest))
      ∧ (∀ a, a ∉ itemNodes h.yarn (curItems h l r k c) → h1.yarn a = h.yarn a)
      ∧ h1.mop = (h.setY m k out).mop ∧ h1.n = h.n ∧ h1.brk = h.brk
      ∧ h1.freed = h.freed := by
  have hyl : ∀ v, ((h.setY m k v).mop l).y k = (h.mop l).y k := by
    intro v; simp [Heap.setY, hlm]
  have hyr : ∀ v, ((h.setY m k v).mop r).y k = (h.mop r).y k := by
    intro v; simp [Heap.setY, hrm]
  have hyarn : ∀ v, (h.setY m k v).yarn = h.yarn := fun _ => rfl
  by_cases hL : (h.mop l).y k = 0 <;> by_cases hC : c = 0 <;> by_cases hR : (h.mop r).y k = 0
  · -- kind 0
    have hk : weaveKind h l r k c = 0 := by simp [weaveKind, hL, hC, hR]
    refine ⟨h, c, 0, by simp [weaveSwitch, hk, pure, Except.pure], ?_, ?_, fun _ _ => rfl,
      ?_, rfl, rfl, rfl⟩
    · simpa [curItems, hL, hC, hR, item_zero] using hp
    · simp [curItems, hL, hC, hR, item_zero]
    · rw [← hM, setY_mop_self]
  · -- kind 4
    have hk : weaveKind h l r k c = 4 := by simp [weaveKind, hL, hC, hR]
    refine ⟨h.setY m k ((h.mop r).y k), c, (h.mop r).y k,
      by simp [weaveSwitch, hk, pure, Except.pure], ?_, ?_, fun _ _ => rfl, rfl, rfl, rfl, rfl⟩
    · simpa [curItems, hL, hC, hR, item_zero, hyarn] using hp
    · simp [curItems, hL, hC, hR, item_zero, hyarn]
  · -- kind 2
    have hk : weaveKind h l r k c = 2 := by simp [weaveKind, hL, hC, hR]
    refine ⟨h.setY m k c, 0, c,
      by simp [weaveSwitch, hk, pure, Except.pure], ?_, ?_, fun _ _ => rfl, rfl, rfl, rfl, rfl⟩
    · simpa [curItems, hL, hC, hR, item_zero, hyarn] using hp
    · simp [curItems, hL, hC, hR, item_zero, hyarn]
  · -- kind 6
    have hk : weaveKind h l r k c = 6 := by simp [weaveKind, hL, hC, hR]
    have hp1 : PoolOk (h.setY m k 0).yarn ((k, c) :: (k, (h.mop r).y k) :: rest) := by
      simpa [curItems, hL, hC, hR, item_zero, item_ne, hyarn] using hp
    obtain ⟨h1, e1, p1, n1, f1, m1, r1⟩ := yarnWeave_pool (h.setY m k 0) k c _ rest hp1
    refine ⟨h1, c, 0, by simp [weaveSwitch, hk, hyr, e1], ?_, ?_, ?_, m1, r1⟩
    · simpa [item_zero, item_ne hC] using p1
    · simpa [curItems, hL, hC, hR, item_zero, item_ne, hyarn] using n1
    · intro a ha
      apply f1 <;> intro e <;> subst e <;> apply ha <;>
        simp [curItems, hL, hC, hR, item_zero, item_ne, itemNodes_cons, itemNodes_nil,
          mem_yarnNodes_self]
  · -- kind 1
    have hk : weaveKind h l r k c = 1 := by simp [weaveKind, hL, hC, hR]
    refine ⟨h.setY m k ((h.mop l).y k), c, (h.mop l).y k,
      by simp [weaveSwitch, hk, pure, Except.pure], ?_, ?_, fun _ _ => rfl, rfl, rfl, rfl, rfl⟩
    · simpa [curItems, hL, hC, hR, item_zero, hyarn] using hp
    · simp [curItems, hL, hC, hR, item_zero, hyarn]
  · -- kind 5
    have hk : weaveKind h l r k c = 5 := by simp [weaveKind, hL, hC, hR]
    have hp1 : PoolOk (h.setY m k 0).yarn ((k, (h.mop l).y k) :: (k, (h.mop r).y k) :: rest) := by
      simpa [curItems, hL, hC, hR, item_zero, item_ne, hyarn] using hp
    obtain ⟨h1, e1, p1, n1, f1, m1, r1⟩ := yarnWeave_pool (h.setY m k 0) k _ _ rest hp1
    refine ⟨h1, (h.mop l).y k, 0, by simp [weaveSwitch, hk, hyl, hyr, e1], ?_, ?_, ?_, m1, r1⟩
    · simpa [item_zero, item_ne hL] using p1
    · simpa [curItems, hL, hC, hR, item_zero, item_ne, hyarn] using n1
    · intro a ha
      apply f1 <;> intro e <;> subst e <;> apply ha <;>
        simp [curItems, hL, hC, hR, item_zero, item_ne, itemNodes_cons, itemNodes_nil,
          mem_yarnNodes_self]
  · -- kind 3
    have hk : weaveKind h l r k c = 3 := by simp [weaveKind, hL, hC, hR]
    have hp1 : PoolOk (h.setY m k 0).yarn ((k, (h.mop l).y k) :: (k, c) :: rest) := by
      simpa [curItems, hL, hC, hR, item_zero, item_ne, hyarn] using hp
    obtain ⟨h1, e1, p1, n1, f1, m1, r1⟩ := yarnWeave_pool (h.setY m k 0) k _ c rest hp1
    refine ⟨h1, (h.mop l).y k, 0, by simp [weaveSwitch, hk, hyl, e1], ?_, ?_, ?_, m1, r1⟩
    · simpa [item_zero, item_ne hL] using p1
    · simpa [curItems, hL, hC, hR, item_zero, item_ne, hyarn] using n1
    · intro a ha
      apply f1 <;> intro e <;> subst e <;> apply ha <;>
        simp [curItems, hL, hC, hR, item_zero, item_ne, itemNodes_cons, itemNodes_nil,
          mem_yarnNodes_self]
  · -- kind 7
    have hk : weaveKind h l r k c = 7 := by simp [weaveKind, hL, hC, hR]
    have hsw : ((k, (h.mop l).y k) :: (k, c) :: (k, (h.mop r).y k) :: rest).Perm
        ((k, (h.mop l).y k) :: (k, (h.mop r).y k) :: (k, c) :: rest) :=
      (List.Perm.swap _ _ _).cons _
    have hp0 : PoolOk h.yarn ((k, (h.mop l).y k) :: (k, c) :: (k, (h.mop r).y k) :: rest) := by
      simpa [curItems, hL, hC, hR, item_zero, item_ne] using hp
    have hp1 : PoolOk (h.setY m k c).yarn
        ((k, (h.mop l).y k) :: (k, (h.mop r).y k) :: (k, c) :: rest) := hp0.permPool hsw
    obtain ⟨h1, e1, p1, n1, f1, m1, r1⟩ :=
      yarnWeave_pool (h.setY m k c) k _ _ ((k, c) :: rest) hp1
    refine ⟨h1, (h.mop l).y k, c, by simp [weaveSwitch, hk, hyl, hyr, e1], ?_, ?_, ?_, m1, r1⟩
    · have : PoolOk h1.yarn ((k, c) :: (k + 1, (h.mop l).y k) :: rest) :=
        p1.permPool (List.Perm.swap _ _ _)
      simpa [item_ne hC, item_ne hL] using this
    · have e : item k c ++ item (k + 1) ((h.mop l).y k) ++ rest
          = (k, c) :: (k + 1, (h.mop l).y k) :: rest := by simp [item_ne hC, item_ne hL]
      have e2 : curItems h l r k c ++ rest
          = (k, (h.mop l).y k) :: (k, c) :: (k, (h.mop r).y k) :: rest := by
        simp [curItems, hL, hC, hR, item_ne]
      rw [e, e2]
      exact ((itemNodes_perm _ (List.Perm.swap _ _ _)).trans n1).trans
        (itemNodes_perm _ hsw.symm)
    · intro a ha
      apply f1 <;> intro e <;> subst e <;> apply ha <;>
        simp [curItems, hL, hC, hR, item_zero, item_ne, itemNodes_cons, itemNodes_nil,
          mem_yarnNodes_self]

theorem LoopFrame.refl (h : Heap) (l r m k : Nat) : LoopFrame h h l r m k k := by
  refine ⟨fun _ _ _ _ => rfl, rfl, rfl, rfl, fun j => ?_, fun j => ?_, fun _ _ => rfl,
    rfl, rfl, rfl⟩ <;>
  · have : ¬ (k ≤ j ∧ j < k) := by omega
    simp [this]

theorem LoopFrame.compose {h h1 h2 : Heap} {l r m lo mid hi : Nat} (hlo : lo ≤ mid)
    (hhi : mid ≤ hi) (f1 : LoopFrame h h1 l r m lo mid) (f2 : LoopFrame h1 h2 l r m mid hi) :
    LoopFrame h h2 l r m lo hi := by
  obtain ⟨a1, a2, a3, a4, a5, a6, a7, a8, a9, a10⟩ := f1
  obtain ⟨b1, b2, b3, b4, b5, b6, b7, b8, b9, b10⟩ := f2
  refine ⟨fun x h1 h2 h3 => (b1 x h1 h2 h3).trans (a1 x h1 h2 h3), b2.trans a2, b3.trans a3,
    b4.trans a4, fun j => ?_, fun j => ?_, fun j hj => ?_, b8.trans a8, b9.trans a9,
    b10.trans a10⟩
  · rw [b5 j, a5 j]
    by_cases c1 : mid ≤ j ∧ j < hi
    · have : lo ≤ j ∧ j < hi := by omega
      simp [c1, this]
    · by_cases c2 : lo ≤ j ∧ j < mid
      · have : lo ≤ j ∧ j < hi := by omega
        simp [c1, c2, this]
      · have : ¬ (lo ≤ j ∧ j < hi) := by omega
        simp [c1, c2, this]
  · rw [b6 j, a6 j]
    by_cases c1 : mid ≤ j ∧ j < hi
    · have : lo ≤ j ∧ j < hi := by omega
      simp [c1, this]
    · by_cases c2 : lo ≤ j ∧ j < mid
      · have : lo ≤ j ∧ j < hi := by omega
        simp [c1, c2, this]
      · have : ¬ (lo ≤ j ∧ j < hi) := by omega
        simp [c1, c2, this]
  · rw [b7 j (by omega), a7 j (by omega)]

/-- The loop body of `mopWeave` at index `k`, on a list of yarns in order. -/
theorem weaveStep_spec (h : Heap) (l r m k c : Nat) (rest : List (Nat × Nat))
    (hlr : l ≠ r) (hlm : l ≠ m) (hrm : r ≠ m) (hM : (h.mop m).y k = 0)
    (hp : PoolOk h.yarn (curItems h l r k c ++ rest)) :
    ∃ h1 c1, weaveStep h l r m k c = .ok (h1, c1)
      ∧ PoolOk h1.yarn (item k ((h1.mop m).y k) ++ item (k + 1) c1 ++ rest)
      ∧ (itemNodes h1.yarn (item k ((h1.mop m).y k) ++ item (k + 1) c1 ++ rest)).Perm
          (itemNodes h.yarn (curItems h l r k c ++ rest))
      ∧ (∀ a, a ∉ itemNodes h.yarn (curItems h l r k c) → h1.yarn a = h.yarn a)
      ∧ LoopFrame h h1 l r m k (k + 1) := by
  obtain ⟨h1, c1, out, e1, p1, n1, f1, m1, r1, r2, r3⟩ :=
    weaveSwitch_spec h l r m k c rest hlm hrm hM hp
  have hout : ((((h1.setY r k 0).setY l k 0).mop m).y k) = out := by
    simp [Heap.setY, m1, hlm.symm, hrm.symm]
  refine ⟨(h1.setY r k 0).setY l k 0, c1, by simp [weaveStep, e1, bind, Except.bind, pure,
    Except.pure], ?_, ?_, f1, ?_⟩
  · rw [hout]; exact p1
  · rw [hout]; exact n1
  · refine ⟨fun x hxl hxr hxm => ?_, ?_, ?_, ?_, fun j => ?_, fun j => ?_, fun j hj => ?_,
      r1, r2, r3⟩
    · simp [Heap.setY, m1, hxl, hxr, hxm]
    · simp [Heap.setY, m1, hlm, hlr]
    · simp [Heap.setY, m1, hrm, hlr.symm]
    · simp [Heap.setY, m1, hlm.symm, hrm.symm]
    · have : (k ≤ j ∧ j < k + 1) ↔ j = k := by omega
      simp only [this]
      by_cases hj : j = k <;> simp [Heap.setY, m1, hlm, hlr, hj]
    · have : (k ≤ j ∧ j < k + 1) ↔ j = k := by omega
      simp only [this]
      by_cases hj : j = k <;> simp [Heap.setY, m1, hrm, hlr.symm, hj]
    · have : j ≠ k := by omega
      simp [Heap.setY, m1, hlm.symm, hrm.symm, this]

theorem slotItems_congr {y z : Nat → Nat} (n : Nat) :
    ∀ s, (∀ j, s ≤ j → j < s + n → z j = y j) → slotItems z s n = slotItems y s n := by
  induction n with
  | zero => intro s _; rfl
  | succ n ih =>
    intro s hz
    simp only [slotItems]
    rw [hz s (by omega) (by omega), ih (s + 1) (fun j h1 h2 => hz j (by omega) (by omega))]

theorem slotItems_snoc (y : Nat → Nat) (n : Nat) :
    ∀ s, slotItems y s (n + 1) = slotItems y s n ++ item (s + n) (y (s + n)) := by
  induction n with
  | zero => intro s; simp [slotItems]
  | succ n ih =>
    intro s
    rw [slotItems, ih (s + 1), slotItems, List.append_assoc]
    have : s + 1 + n = s + (n + 1) := by omega
    rw [this]

theorem slotItems_null (y : Nat → Nat) (n : Nat) :
    ∀ s, (∀ j, s ≤ j → j < s + n → y j = 0) → slotItems y s n = [] := by
  induction n with
  | zero => intro s _; rfl
  | succ n ih =>
    intro s hz
    simp only [slotItems]
    rw [hz s (by omega) (by omega), ih (s + 1) (fun j h1 h2 => hz j (by omega) (by omega))]
    rfl

/-! ## The loop of `mopWeave` -/

/-- The loop of `mopWeave` over the indices `k .. k + todo - 1`.  The yarns
it starts from (the carry and the slots of both operands, plus any bystanders
`rest`) are in order; it returns, and the yarns it leaves (the slots it wrote
in the result, the carry, the bystanders) are in order and hold the same
cells. -/
theorem weaveLoop_spec (l r m : Nat) (hlr : l ≠ r) (hlm : l ≠ m) (hrm : r ≠ m) :
    ∀ (todo k : Nat) (h : Heap) (c : Nat) (rest : List (Nat × Nat)),
      (∀ j, k ≤ j → (h.mop m).y j = 0) →
      PoolOk h.yarn (item k c ++ slotItems (h.mop l).y k todo
        ++ slotItems (h.mop r).y k todo ++ rest) →
      ∃ h1 c1, weaveLoop l r m todo k h c = .ok (h1, c1)
        ∧ PoolOk h1.yarn (slotItems (h1.mop m).y k todo ++ item (k + todo) c1 ++ rest)
        ∧ (itemNodes h1.yarn (slotItems (h1.mop m).y k todo ++ item (k + todo) c1 ++ rest)).Perm
            (itemNodes h.yarn (item k c ++ slotItems (h.mop l).y k todo
              ++ slotItems (h.mop r).y k todo ++ rest))
        ∧ (∀ a, a ∉ itemNodes h.yarn (item k c ++ slotItems (h.mop l).y k todo
              ++ slotItems (h.mop r).y k todo ++ rest) → h1.yarn a = h.yarn a)
        ∧ LoopFrame h h1 l r m k (k + todo) := by
  intro todo
  induction todo with
  | zero =>
    intro k h c rest _ hp
    refine ⟨h, c, rfl, ?_, ?_, fun _ _ => rfl, LoopFrame.refl h l r m k⟩
    · simpa [slotItems] using hp
    · simp [slotItems]
  | succ todo ih =>
    intro k h c rest hM hp
    have hperm0 : (item k c ++ slotItems (h.mop l).y k (todo + 1)
        ++ slotItems (h.mop r).y k (todo + 1) ++ rest).Perm
        (curItems h l r k c ++ (slotItems (h.mop l).y (k + 1) todo
          ++ slotItems (h.mop r).y (k + 1) todo ++ rest)) := by
      refine List.perm_iff_count.mpr (fun x => ?_)
      simp only [slotItems, curItems, List.count_append]
      omega
    obtain ⟨h2, c2, e2, p2, n2, f2, fr2⟩ :=
      weaveStep_spec h l r m k c _ hlr hlm hrm (hM k (le_refl k)) (hp.permPool hperm0)
    have hL : slotItems (h2.mop l).y (k + 1) todo = slotItems (h.mop l).y (k + 1) todo := by
      apply slotItems_congr
      intro j h1 _
      rw [fr2.2.2.2.2.1 j]
      have : ¬ (k ≤ j ∧ j < k + 1) := by omega
      simp [this]
    have hR : slotItems (h2.mop r).y (k + 1) todo = slotItems (h.mop r).y (k + 1) todo := by
      apply slotItems_congr
      intro j h1 _
      rw [fr2.2.2.2.2.2.1 j]
      have : ¬ (k ≤ j ∧ j < k + 1) := by omega
      simp [this]
    have hM2 : ∀ j, k + 1 ≤ j → (h2.mop m).y j = 0 := by
      intro j hj
      rw [fr2.2.2.2.2.2.2.1 j (Or.inr hj)]
      exact hM j (by omega)
    have hperm1 : (item k ((h2.mop m).y k) ++ item (k + 1) c2
        ++ (slotItems (h.mop l).y (k + 1) todo ++ slotItems (h.mop r).y (k + 1) todo
          ++ rest)).Perm
        (item (k + 1) c2 ++ slotItems (h2.mop l).y (k + 1) todo
          ++ slotItems (h2.mop r).y (k + 1) todo ++ (item k ((h2.mop m).y k) ++ rest)) := by
      rw [hL, hR]
      refine List.perm_iff_count.mpr (fun x => ?_)
      simp only [List.count_append]
      omega
    obtain ⟨h3, c3, e3, p3, n3, f3, fr3⟩ :=
      ih (k + 1) h2 c2 (item k ((h2.mop m).y k) ++ rest) hM2 (p2.permPool hperm1)
    have hk3 : (h3.mop m).y k = (h2.mop m).y k := fr3.2.2.2.2.2.2.1 k (Or.inl (by omega))
    have hperm2 : (slotItems (h3.mop m).y (k + 1) todo ++ item (k + 1 + todo) c3
        ++ (item k ((h2.mop m).y k) ++ rest)).Perm
        (slotItems (h3.mop m).y k (todo + 1) ++ item (k + (todo + 1)) c3 ++ rest) := by
      have : k + (todo + 1) = k + 1 + todo := by omega
      rw [this]
      refine List.perm_iff_count.mpr (fun x => ?_)
      simp only [slotItems, hk3, List.count_append]
      omega
    have hnodes : (itemNodes h3.yarn (slotItems (h3.mop m).y k (todo + 1)
        ++ item (k + (todo + 1)) c3 ++ rest)).Perm
        (itemNodes h.yarn (item k c ++ slotItems (h.mop l).y k (todo + 1)
          ++ slotItems (h.mop r).y k (todo + 1) ++ rest)) :=
      (((((itemNodes_perm _ hperm2.symm).trans n3).trans (itemNodes_perm _ hperm1.symm)).trans
        n2).trans (itemNodes_perm _ hperm0.symm))
    refine ⟨h3, c3, ?_, p3.permPool hperm2, hnodes, ?_, ?_⟩
    · simp [weaveLoop, e2, e3, bind, Except.bind]
    · intro a ha
      have ha1 : a ∉ itemNodes h.yarn (curItems h l r k c ++ (slotItems (h.mop l).y (k + 1) todo
          ++ slotItems (h.mop r).y (k + 1) todo ++ rest)) :=
        fun hm => ha ((itemNodes_perm _ hperm0).mem_iff.mpr hm)
      have ha2 : a ∉ itemNodes h.yarn (curItems h l r k c) := by
        intro hm
        apply ha1
        rw [itemNodes_append]
        exact List.mem_append_left _ hm
      have ha3 : a ∉ itemNodes h2.yarn (item (k + 1) c2 ++ slotItems (h2.mop l).y (k + 1) todo
          ++ slotItems (h2.mop r).y (k + 1) todo ++ (item k ((h2.mop m).y k) ++ rest)) :=
        fun hm => ha1 (n2.mem_iff.mp ((itemNodes_perm _ hperm1).mem_iff.mpr hm))
      rw [f3 a ha3, f2 a ha2]
    · have := LoopFrame.compose (by omega) (by omega) fr2 fr3
      have e : k + (todo + 1) = k + 1 + todo := by omega
      rw [e]
      exact this

/-! ## `mopWring` -/

theorem mem_slotItems {y : Nat → Nat} {n : Nat} :
    ∀ {s : Nat} {it : Nat × Nat}, it ∈ slotItems y s n →
      s ≤ it.1 ∧ it.1 < s + n ∧ it.2 = y it.1 ∧ it.2 ≠ 0 := by
  induction n with
  | zero => intro s it hit; simp [slotItems] at hit
  | succ n ih =>
    intro s it hit
    simp only [slotItems, List.mem_append] at hit
    rcases hit with h1 | h1
    · by_cases hy : y s = 0
      · simp [item, hy] at h1
      · simp only [item, hy, if_false, List.mem_singleton] at h1
        subst h1
        exact ⟨le_refl _, by omega, rfl, hy⟩
    · have := ih h1
      exact ⟨by omega, by omega, this.2.2.1, this.2.2.2⟩

theorem slotItems_add (y : Nat → Nat) (n1 n2 : Nat) :
    ∀ s, slotItems y s (n1 + n2) = slotItems y s n1 ++ slotItems y (s + n1) n2 := by
  induction n1 with
  | zero => intro s; simp [slotItems]
  | succ n ih =>
    intro s
    have e : n + 1 + n2 = (n + n2) + 1 := by omega
    have e2 : s + 1 + n = s + (n + 1) := by omega
    rw [e, slotItems, slotItems, ih (s + 1), e2, List.append_assoc]

/-- The loop of `mopWring` over slots that hold yarns: it folds `yarnF` over
their cells, slot after slot. -/
theorem mopWringLoop_spec {β : Type} (fuel : Nat) (h : Heap) (m : Nat) (b : Bucket β) :
    ∀ (todo k : Nat) (s : β),
      (∀ it ∈ slotItems (h.mop m).y k todo, yarnShape h.yarn it.1 it.2) →
      k + todo ≤ SIZELOG2 → k + todo ≤ fuel →
      mopWringLoop fuel h m b todo k s
        = .ok ((itemNodes h.yarn (slotItems (h.mop m).y k todo)).foldl b.yarnF s) := by
  intro todo
  induction todo with
  | zero => intro k s _ _ _; rfl
  | succ todo ih =>
    intro k s hs hk hf
    have hk1 : ¬ SIZELOG2 ≤ k := by omega
    have hrest := ih (k + 1)
    by_cases hy : (h.mop m).y k = 0
    · have e := hrest s (fun it hit => hs it (by simp [slotItems, hit])) (by omega) (by omega)
      simp [mopWringLoop, hk1, hy, e, slotItems, item_zero, bind, Except.bind, pure, Except.pure]
    · have hsh : yarnShape h.yarn k ((h.mop m).y k) :=
        hs (k, (h.mop m).y k) (by simp [slotItems, item_ne hy])
      have e1 := yarnWring_yarn h b k fuel ((h.mop m).y k) s hsh (by omega)
      have e := hrest ((yarnNodes h.yarn k ((h.mop m).y k)).foldl b.yarnF s)
        (fun it hit => hs it (by simp [slotItems, hit])) (by omega) (by omega)
      simp [mopWringLoop, hk1, hy, e, e1, slotItems, item_ne hy, itemNodes_cons, bind,
        Except.bind]

/-- `mopWring` on a mop whose slots hold yarns: `yarnF` folded over the cells
of the mop, then `mopF` on the mop. -/
theorem mopWring_spec {β : Type} (fuel : Nat) (h : Heap) (m : Nat) (b : Bucket β) (s : β)
    (hm : m ≠ 0) (hk : (h.mop m).knot < SIZELOG2)
    (hs : ∀ it ∈ mopItems h m, yarnShape h.yarn it.1 it.2) (hf : (h.mop m).knot < fuel) :
    mopWring fuel h m b s = .ok (b.mopF ((mopNodes h m).foldl b.yarnF s) m) := by
  have e := mopWringLoop_spec fuel h m b ((h.mop m).knot + 1) 0 s hs (by omega) (by omega)
  simp [mopWring, hm, e, mopNodes, mopItems, bind, Except.bind, pure, Except.pure]

/-- `mopDelete` on a header with `knot == 0` and `y[0] == 0` frees the header
and nothing else. -/
theorem mopDelete_cleared (fuel : Nat) (h : Heap) (m : Nat) (hm : m ≠ 0)
    (hk : (h.mop m).knot = 0) (hy : (h.mop m).y 0 = 0) :
    mopDelete fuel h m = .ok { h with freed := h.freed ++ [m] } := by
  simp [mopDelete, mopWring, mopWringLoop, hm, hk, hy, SIZELOG2, bitBucket, bind, Except.bind,
    pure, Except.pure]

/-! ## Counting cells -/

theorem itemNodes_item_length (Y : Nat → Yarn) (k v : Nat) :
    (itemNodes Y (item k v)).length = if v = 0 then 0 else 2 ^ k := by
  by_cases hv : v = 0
  · simp [hv, item_zero, itemNodes_nil]
  · simp [hv, item_ne hv, itemNodes_cons, itemNodes_nil, yarnNodes_length]

/-- The slots `s .. s + n - 1` hold fewer than `2 ^ (s + n) - 2 ^ s + 1` cells. -/
theorem slotItems_length_le (Y : Nat → Yarn) (y : Nat → Nat) (n : Nat) :
    ∀ s, (itemNodes Y (slotItems y s n)).length + 2 ^ s ≤ 2 ^ (s + n) := by
  induction n with
  | zero => intro s; simp [slotItems, itemNodes_nil]
  | succ n ih =>
    intro s
    have h1 := ih (s + 1)
    have e : s + 1 + n = s + (n + 1) := by omega
    rw [e] at h1
    have h2 : 2 ^ (s + 1) = 2 * 2 ^ s := by rw [pow_succ]; omega
    rw [slotItems, itemNodes_append, List.length_append, itemNodes_item_length]
    split <;> omega

/-! ## `mopWeave` -/

theorem slotItems_extend (y : Nat → Nat) (knot K : Nat) (hK : knot ≤ K) (hK2 : K < SIZELOG2)
    (hz : ∀ k, k < SIZELOG2 → knot < k → y k = 0) :
    slotItems y 0 (K + 1) = slotItems y 0 (knot + 1) := by
  have e : K + 1 = (knot + 1) + (K - knot) := by omega
  rw [e, slotItems_add, slotItems_null y (K - knot) (0 + (knot + 1))
    (fun j h1 h2 => hz j (by omega) (by omega))]
  simp

/-- `mopWeave` unfolded: allocation, the knot test, the loop and the tail. -/
theorem mopWeave_unfold (fuel : Nat) (h : Heap) (l r : Nat) (hl : l ≠ 0) (hr : r ≠ 0)
    (K : Nat) (hK : K = if ((mopNew h).1.mop l).knot > ((mopNew h).1.mop r).knot
      then ((mopNew h).1.mop l).knot else ((mopNew h).1.mop r).knot) (hK2 : K < SIZELOG2)
    (h1 : Heap) (c1 : Nat)
    (e1 : weaveLoop l r (h.brk + 1) (K + 1) 0 (mopNew h).1 0 = .ok (h1, c1)) :
    mopWeave fuel h l r =
      (do
        let h2 ←
          (if c1 ≠ 0 then
            let h2 := h1.setKnot (h.brk + 1) (K + 1)
            if ¬ (h2.mop (h.brk + 1)).knot < SIZELOG2 then .error .assertion
            else pure (h2.setY (h.brk + 1) (h2.mop (h.brk + 1)).knot c1)
          else pure (h1.setKnot (h.brk + 1) K) : Except Fault Heap)
        let h3 := (h2.setKnot r 0).setKnot l 0
        let h4 ← mopDelete fuel h3 l
        let h5 ← mopDelete fuel h4 r
        pure (h5, h.brk + 1)) := by
  have hm : (mopNew h).2 = h.brk + 1 := rfl
  unfold mopWeave
  simp only [hl, hr, or_self, if_false, hm, ← hK, not_not.mpr hK2, e1]
  simp only [bind, Except.bind, pure, Except.pure]
  split_ifs <;> rfl

/-- The tail of `mopWeave`: both operand headers get `knot = 0` and are
deleted; with slot `0` of each null, only the two headers are freed. -/
theorem weaveTail_spec (fuel : Nat) (h2 : Heap) (l r m : Nat) (hl : l ≠ 0) (hr : r ≠ 0)
    (hlr : l ≠ r) (hyl : (h2.mop l).y 0 = 0) (hyr : (h2.mop r).y 0 = 0) :
    (do
      let h4 ← mopDelete fuel ((h2.setKnot r 0).setKnot l 0) l
      let h5 ← mopDelete fuel h4 r
      pure (h5, m) : Except Fault (Heap × Nat))
      = .ok ({ (h2.setKnot r 0).setKnot l 0 with freed := h2.freed ++ [l, r] }, m) := by
  have e1 := mopDelete_cleared fuel ((h2.setKnot r 0).setKnot l 0) l hl
    (by simp [Heap.setKnot]) (by simp [Heap.setKnot, hlr, hyl])
  have e2 := mopDelete_cleared fuel
    { (h2.setKnot r 0).setKnot l 0 with freed := ((h2.setKnot r 0).setKnot l 0).freed ++ [l] }
    r hr (by simp [Heap.setKnot, hlr.symm]) (by simp [Heap.setKnot, hlr.symm, hyr])
  simp only [e1, e2, bind, Except.bind, pure, Except.pure]
  simp [Heap.setKnot]

theorem two_pow_le_of_le {a b : Nat} (hab : a ≤ b) : 2 ^ a ≤ 2 ^ b :=
  Nat.pow_le_pow_right (by decide) hab

/-- The cells of a mop whose top slot is occupied number at least `2 ^ knot`. -/
theorem mopNodes_length_ge (h : Heap) (m : Nat) (hy : (h.mop m).y (h.mop m).knot ≠ 0) :
    2 ^ (h.mop m).knot ≤ (mopNodes h m).length := by
  simp only [mopNodes, mopItems]
  rw [slotItems_snoc, itemNodes_append, List.length_append, itemNodes_item_length]
  simp [hy]

/-- The specification of `mopWeave` on two different, well-formed, disjoint
mops: it returns when their cells number fewer than `2 ^ SIZELOG2`, and it
fails an assertion otherwise. -/
theorem mopWeave_spec (fuel : Nat) (h : Heap) (l r : Nat) (hlr : l ≠ r)
    (hlb : l ≤ h.brk) (hrb : r ≤ h.brk) (hl : WfMop h l) (hr : WfMop h r)
    (hd : (mopNodes h l ++ mopNodes h r).Nodup) :
    ((mopNodes h l).length + (mopNodes h r).length < 2 ^ SIZELOG2 →
        ∃ h1, mopWeave fuel h l r = .ok (h1, h.brk + 1) ∧ WeavePost h h1 l r (h.brk + 1))
    ∧ (2 ^ SIZELOG2 ≤ (mopNodes h l).length + (mopNodes h r).length →
        mopWeave fuel h l r = .error .assertion) := by
  obtain ⟨hl0, hlk, hlp, hlz, hltop⟩ := hl
  obtain ⟨hr0, hrk, hrp, hrz, hrtop⟩ := hr
  have hlm : l ≠ h.brk + 1 := by omega
  have hrm : r ≠ h.brk + 1 := by omega
  have ml : (mopNew h).1.mop l = h.mop l := by simp [mopNew, hlm]
  have mr : (mopNew h).1.mop r = h.mop r := by simp [mopNew, hrm]
  have mm : ∀ j, ((mopNew h).1.mop (h.brk + 1)).y j = 0 := by intro j; simp [mopNew]
  have mo : ∀ x, x ≠ h.brk + 1 → (mopNew h).1.mop x = h.mop x := by
    intro x hx; simp [mopNew, hx]
  have my : (mopNew h).1.yarn = h.yarn := rfl
  obtain ⟨K, hK⟩ : ∃ K, K = if ((mopNew h).1.mop l).knot > ((mopNew h).1.mop r).knot
      then ((mopNew h).1.mop l).knot else ((mopNew h).1.mop r).knot := ⟨_, rfl⟩
  have hKl : (h.mop l).knot ≤ K := by rw [hK, ml, mr]; split <;> omega
  have hKr : (h.mop r).knot ≤ K := by rw [hK, ml, mr]; split <;> omega
  have hKm : K = (h.mop l).knot ∨ K = (h.mop r).knot := by rw [hK, ml, mr]; split <;> simp
  have hK2 : K < SIZELOG2 := by rcases hKm with e | e <;> omega
  have iL : slotItems ((mopNew h).1.mop l).y 0 (K + 1) = mopItems h l := by
    rw [ml]; exact slotItems_extend _ _ K hKl hK2 hlz
  have iR : slotItems ((mopNew h).1.mop r).y 0 (K + 1) = mopItems h r := by
    rw [mr]; exact slotItems_extend _ _ K hKr hK2 hrz
  have hpool : PoolOk (mopNew h).1.yarn (item 0 0 ++ slotItems ((mopNew h).1.mop l).y 0 (K + 1)
      ++ slotItems ((mopNew h).1.mop r).y 0 (K + 1) ++ []) := by
    rw [iL, iR, item_zero, my, List.nil_append, List.append_nil]
    refine ⟨fun it hit => ?_, ?_⟩
    · rcases List.mem_append.mp hit with h1 | h1
      · exact hlp.1 it h1
      · exact hrp.1 it h1
    · rw [itemNodes_append]; exact hd
  obtain ⟨h1, c1, e1, p1, n1, f1, fr1⟩ := weaveLoop_spec l r (h.brk + 1) hlr hlm hrm (K + 1) 0
    (mopNew h).1 0 [] (fun j _ => mm j) hpool
  rw [iL, iR, item_zero, my, List.nil_append, List.append_nil, itemNodes_append] at n1 f1
  rw [List.append_nil, Nat.zero_add] at p1 n1
  rw [itemNodes_append] at n1
  obtain ⟨g1, g2, g3, g4, g5, g6, g7, g8, g9, g10⟩ := fr1
  have hlen := n1.length_eq
  rw [List.length_append, List.length_append, itemNodes_item_length] at hlen
  have hlt := slotItems_length_le h1.yarn (h1.mop (h.brk + 1)).y (K + 1) 0
  rw [Nat.zero_add, pow_zero] at hlt
  have hpK : 2 ^ (K + 1) ≤ 2 ^ SIZELOG2 := two_pow_le_of_le (by omega)
  have hyl1 : (h1.mop l).y 0 = 0 := by rw [g5 0]; simp
  have hyr1 : (h1.mop r).y 0 = 0 := by rw [g6 0]; simp
  rw [mopWeave_unfold fuel h l r hl0 hr0 K hK hK2 h1 c1 e1]
  have hmne : h.brk + 1 ≠ 0 := by omega
  have hgz : ∀ j, K + 1 ≤ j → (h1.mop (h.brk + 1)).y j = 0 := by
    intro j hj; rw [g7 j (Or.inr (by omega))]; exact mm j
  have hopl : ∀ j, j < SIZELOG2 → (h1.mop l).y j = 0 := by
    intro j hj
    rw [g5 j, ml]
    by_cases hjk : j < K + 1
    · simp [hjk]
    · rw [if_neg (by omega)]
      exact hlz j hj (by omega)
  have hopr : ∀ j, j < SIZELOG2 → (h1.mop r).y j = 0 := by
    intro j hj
    rw [g6 j, mr]
    by_cases hjk : j < K + 1
    · simp [hjk]
    · rw [if_neg (by omega)]
      exact hrz j hj (by omega)
  have hoth : ∀ x, x ≠ l → x ≠ r → x ≠ h.brk + 1 → h1.mop x = h.mop x := by
    intro x h1 h2 h3; rw [g1 x h1 h2 h3, mo x h3]
  have hyf : ∀ a, a ∉ mopNodes h l ++ mopNodes h r → h1.yarn a = h.yarn a := f1
  constructor
  · intro hcap
    by_cases hc : c1 = 0
    · subst hc
      simp only [ne_eq, not_true_eq_false, if_false, pure, Except.pure, bind, Except.bind]
      have ht := weaveTail_spec fuel (h1.setKnot (h.brk + 1) K) l r (h.brk + 1) hl0 hr0 hlr
        (by simpa [Heap.setKnot, hlm] using hyl1) (by simpa [Heap.setKnot, hrm] using hyr1)
      simp only [pure, Except.pure, bind, Except.bind] at ht
      refine ⟨_, ht, rfl, ?_, ?_, ?_, ?_, ?_, ?_, ?_, ?_, ?_, ?_⟩
      · simpa [Heap.setKnot] using g9
      · simpa [Heap.setKnot] using g8
      · simp [Heap.setKnot, g10, mopNew]
      · refine ⟨hmne, ?_, ?_, ?_, ?_⟩
        · simpa [Heap.setKnot, hlm.symm, hrm.symm] using hK2
        · have : PoolOk h1.yarn (slotItems (h1.mop (h.brk + 1)).y 0 (K + 1)) := by
            simpa [item_zero] using p1
          simpa [mopItems, Heap.setKnot, hlm.symm, hrm.symm] using this
        · intro k hk1 hk2
          have hk3 : K < k := by simpa [Heap.setKnot, hlm.symm, hrm.symm] using hk2
          simpa [Heap.setKnot, hlm.symm, hrm.symm] using hgz k (by omega)
        · have htop : K = 0 ∨ (h1.mop (h.brk + 1)).y K ≠ 0 := by
            by_contra hcon
            push_neg at hcon
            obtain ⟨hKn, hyK⟩ := hcon
            have hsn := slotItems_snoc (h1.mop (h.brk + 1)).y K 0
            rw [Nat.zero_add, hyK, item_zero, List.append_nil] at hsn
            have hlt2 := slotItems_length_le h1.yarn (h1.mop (h.brk + 1)).y K 0
            rw [Nat.zero_add, pow_zero, ← hsn] at hlt2
            simp only [if_true] at hlen
            rcases hKm with e | e
            · have hy : (h.mop l).y (h.mop l).knot ≠ 0 := by
                rcases hltop with h0 | h0
                · exact absurd (e.trans h0) hKn
                · exact h0
              have := mopNodes_length_ge h l hy
              rw [← e] at this
              simp only [mopNodes] at this
              omega
            · have hy : (h.mop r).y (h.mop r).knot ≠ 0 := by
                rcases hrtop with h0 | h0
                · exact absurd (e.trans h0) hKn
                · exact h0
              have := mopNodes_length_ge h r hy
              rw [← e] at this
              simp only [mopNodes] at this
              omega
          simpa [Heap.setKnot, hlm.symm, hrm.symm] using htop
      · have : (itemNodes h1.yarn (slotItems (h1.mop (h.brk + 1)).y 0 (K + 1))).Perm
            (itemNodes h.yarn (mopItems h l) ++ itemNodes h.yarn (mopItems h r)) := by
          simpa [item_zero, itemNodes_nil] using n1
        simpa [mopNodes, mopItems, Heap.setKnot, hlm.symm, hrm.symm] using this
      · intro x h1 h2 h3; simpa [Heap.setKnot, h1, h2, h3] using hoth x h1 h2 h3
      · intro a ha; simpa [Heap.setKnot] using hyf a ha
      · simp [Heap.setKnot]
      · simp [Heap.setKnot, hlr.symm]
      · intro j hj
        simpa [Heap.setKnot, hlr, hlr.symm, hlm, hrm] using ⟨hopl j hj, hopr j hj⟩
    · have hK1 : K + 1 < SIZELOG2 := by
        by_contra hcon
        have : 2 ^ SIZELOG2 ≤ 2 ^ (K + 1) := two_pow_le_of_le (by omega)
        simp only [hc, if_false] at hlen
        simp only [mopNodes] at hcap
        omega
      simp only [ne_eq, hc, not_false_eq_true, if_true, pure, Except.pure, bind, Except.bind]
      have hkn : ((h1.setKnot (h.brk + 1) (K + 1)).mop (h.brk + 1)).knot = K + 1 := by
        simp [Heap.setKnot]
      simp only [hkn, not_not.mpr hK1, if_false]
      have ht := weaveTail_spec fuel ((h1.setKnot (h.brk + 1) (K + 1)).setY (h.brk + 1) (K + 1) c1)
        l r (h.brk + 1) hl0 hr0 hlr
        (by simpa [Heap.setKnot, Heap.setY, hlm] using hyl1)
        (by simpa [Heap.setKnot, Heap.setY, hrm] using hyr1)
      simp only [pure, Except.pure, bind, Except.bind] at ht
      have hitems : slotItems (fun j => if j = K + 1 then c1 else (h1.mop (h.brk + 1)).y j) 0
          (K + 1 + 1) = slotItems (h1.mop (h.brk + 1)).y 0 (K + 1) ++ item (K + 1) c1 := by
        rw [slotItems_snoc, @slotItems_congr (h1.mop (h.brk + 1)).y _ (K + 1) 0 (fun j _ hj => by
          have : j ≠ K + 1 := by omega
          simp [this])]
        simp
      refine ⟨_, ht, rfl, ?_, ?_, ?_, ?_, ?_, ?_, ?_, ?_, ?_, ?_⟩
      · simpa [Heap.setKnot, Heap.setY] using g9
      · simpa [Heap.setKnot, Heap.setY] using g8
      · simp [Heap.setKnot, Heap.setY, g10, mopNew]
      · refine ⟨hmne, ?_, ?_, ?_, ?_⟩
        · simpa [Heap.setKnot, Heap.setY, hlm.symm, hrm.symm] using hK1
        · have : PoolOk h1.yarn (slotItems (fun j => if j = K + 1 then c1 else (h1.mop (h.brk + 1)).y j) 0 (K + 1 + 1)) := by
            rw [hitems]; exact p1
          simpa [mopItems, Heap.setKnot, Heap.setY, hlm.symm, hrm.symm] using this
        · intro k hk1 hk2
          have hk3 : K + 1 < k := by
            simpa [Heap.setKnot, Heap.setY, hlm.symm, hrm.symm] using hk2
          have hk4 : k ≠ K + 1 := by omega
          simpa [Heap.setKnot, Heap.setY, hlm.symm, hrm.symm, hk4] using hgz k (by omega)
        · right
          simpa [Heap.setKnot, Heap.setY, hlm.symm, hrm.symm] using hc
      · have : (itemNodes h1.yarn (slotItems (fun j => if j = K + 1 then c1 else (h1.mop (h.brk + 1)).y j) 0 (K + 1 + 1))).Perm
            (itemNodes h.yarn (mopItems h l) ++ itemNodes h.yarn (mopItems h r)) := by
          rw [hitems, itemNodes_append]; exact n1
        simpa [mopNodes, mopItems, Heap.setKnot, Heap.setY, hlm.symm, hrm.symm] using this
      · intro x h1 h2 h3; simpa [Heap.setKnot, Heap.setY, h1, h2, h3] using hoth x h1 h2 h3
      · intro a ha; simpa [Heap.setKnot, Heap.setY] using hyf a ha
      · simp [Heap.setKnot]
      · simp [Heap.setKnot, hlr.symm]
      · intro j hj
        simpa [Heap.setKnot, Heap.setY, hlr, hlr.symm, hlm, hrm] using ⟨hopl j hj, hopr j hj⟩
  · intro hcap
    simp only [mopNodes] at hcap
    have hc : c1 ≠ 0 := by
      intro hc
      simp only [hc, if_true] at hlen
      omega
    simp only [hc, if_false] at hlen
    have hK1 : ¬ K + 1 < SIZELOG2 := by
      intro hcon
      have h2 : 2 ^ (K + 1 + 1) ≤ 2 ^ SIZELOG2 := two_pow_le_of_le (by omega)
      rw [pow_succ 2 (K + 1)] at h2
      omega
    have hkn : ((h1.setKnot (h.brk + 1) (K + 1)).mop (h.brk + 1)).knot = K + 1 := by
      simp [Heap.setKnot]
    simp only [ne_eq, hc, not_false_eq_true, if_true, hkn, hK1, bind, Except.bind]

/-! ## Recorded call sequences -/

theorem foldl_trace_yarn (nodes : List Nat) :
    ∀ s : List Call, nodes.foldl traceBucket.yarnF s = s ++ nodes.map Call.yarn := by
  induction nodes with
  | nil => intro s; simp
  | cons a t ih =>
    intro s
    rw [List.foldl_cons, ih]
    simp [traceBucket]

theorem yarnCalls_append (s t : List Call) : yarnCalls (s ++ t) = yarnCalls s ++ yarnCalls t := by
  induction s with
  | nil => rfl
  | cons c s ih => cases c <;> simp [yarnCalls, ih]

theorem yarnCalls_map_yarn (nodes : List Nat) : yarnCalls (nodes.map Call.yarn) = nodes := by
  induction nodes with
  | nil => rfl
  | cons a t ih => simp [yarnCalls, ih]

/-- `mopWring` with the recording visitor on a mop whose slots hold yarns:
one `yarnF` call per cell, in wring order, then the one `mopF` call. -/
theorem mopWring_trace (fuel : Nat) (h : Heap) (m : Nat) (hm : m ≠ 0)
    (hk : (h.mop m).knot < SIZELOG2)
    (hs : ∀ it ∈ mopItems h m, yarnShape h.yarn it.1 it.2) (hf : (h.mop m).knot < fuel) :
    mopWring fuel h m traceBucket []
      = .ok ((mopNodes h m).map Call.yarn ++ [Call.mop m]) := by
  rw [mopWring_spec fuel h m traceBucket [] hm hk hs hf, foldl_trace_yarn]
  simp [traceBucket]

theorem yarnCalls_trace (nodes : List Nat) (m : Nat) :
    yarnCalls (nodes.map Call.yarn ++ [Call.mop m]) = nodes := by
  rw [yarnCalls_append, yarnCalls_map_yarn]
  simp [yarnCalls]

/-! ## Claims about `mopWeave` and `yarnWeave` -/

/-- C1, union correctness of merge.  For two different, well-formed mops
`l` and `r` that share no cell and hold at most `2 ^ 31 - 1` cells together,
`mopWring` returns on both and visits their cells `mopNodes`, `mopWeave`
returns a mop `m`, `mopWring` returns on `m`, and the yarns visited on `m` are
a permutation of those visited on `l` followed by those visited on `r`, none
of them visited twice. -/
theorem union_correctness (fuel : Nat) (h : Heap) (l r : Nat) (hf : SIZELOG2 ≤ fuel)
    (hlr : l ≠ r) (hlb : l ≤ h.brk) (hrb : r ≤ h.brk) (hl : WfMop h l) (hr : WfMop h r)
    (hd : (mopNodes h l ++ mopNodes h r).Nodup)
    (hcap : (mopNodes h l).length + (mopNodes h r).length ≤ 2 ^ 31 - 1) :
    ∃ tl tr h1 m t, mopWring fuel h l traceBucket [] = .ok tl
      ∧ mopWring fuel h r traceBucket [] = .ok tr
      ∧ mopWeave fuel h l r = .ok (h1, m)
      ∧ mopWring fuel h1 m traceBucket [] = .ok t
      ∧ yarnCalls tl = mopNodes h l ∧ yarnCalls tr = mopNodes h r
      ∧ (yarnCalls t).Perm (yarnCalls tl ++ yarnCalls tr)
      ∧ (yarnCalls t).Nodup := by
  have hcap2 : (mopNodes h l).length + (mopNodes h r).length < 2 ^ SIZELOG2 := by
    have : (2 : Nat) ^ SIZELOG2 = 2 ^ 31 := rfl
    omega
  obtain ⟨h1, e1, post⟩ := (mopWeave_spec fuel h l r hlr hlb hrb hl hr hd).1 hcap2
  obtain ⟨_, _, _, _, hwf, hperm, _⟩ := post
  have tl := mopWring_trace fuel h l hl.1 hl.2.1 hl.2.2.1.1 (by have := hl.2.1; omega)
  have tr := mopWring_trace fuel h r hr.1 hr.2.1 hr.2.2.1.1 (by have := hr.2.1; omega)
  have tm := mopWring_trace fuel h1 (h.brk + 1) hwf.1 hwf.2.1 hwf.2.2.1.1
    (by have := hwf.2.1; omega)
  refine ⟨_, _, h1, h.brk + 1, _, tl, tr, e1, tm, yarnCalls_trace _ _, yarnCalls_trace _ _,
    ?_, ?_⟩
  · simp only [yarnCalls_trace]; exact hperm
  · simp only [yarnCalls_trace]; exact hperm.nodup_iff.mpr hd

theorem union_correctness_witness :
    ∃ tl tr h1 m t, mopWring 31 exHeap 5 traceBucket [] = .ok tl
      ∧ mopWring 31 exHeap 6 traceBucket [] = .ok tr
      ∧ mopWeave 31 exHeap 5 6 = .ok (h1, m)
      ∧ mopWring 31 h1 m traceBucket [] = .ok t
      ∧ yarnCalls tl = mopNodes exHeap 5 ∧ yarnCalls tr = mopNodes exHeap 6
      ∧ (yarnCalls t).Perm (yarnCalls tl ++ yarnCalls tr)
      ∧ (yarnCalls t).Nodup :=
  union_correctness 31 exHeap 5 6 (by decide) (by decide) (by decide) (by decide)
    (by decide) (by decide) (by decide) (by decide)

/-- C6, the capacity limit.  For two different, well-formed mops that share
no cell, holding `a` and `b` elements (the numbers of `yarnF` calls of their
wrings), `mopWeave` returns if and only if `a + b ≤ 2 ^ 31 - 1`, and with
`a + b ≥ 2 ^ 31` it fails an assertion. -/
theorem capacity_limit (fuel : Nat) (h : Heap) (l r : Nat) (hf : SIZELOG2 ≤ fuel)
    (hlr : l ≠ r) (hlb : l ≤ h.brk) (hrb : r ≤ h.brk) (hl : WfMop h l) (hr : WfMop h r)
    (hd : (mopNodes h l ++ mopNodes h r).Nodup) :
    ∃ tl tr, mopWring fuel h l traceBucket [] = .ok tl
      ∧ mopWring fuel h r traceBucket [] = .ok tr
      ∧ ((∃ h1 m, mopWeave fuel h l r = .ok (h1, m))
          ↔ (yarnCalls tl).length + (yarnCalls tr).length ≤ 2 ^ 31 - 1)
      ∧ (2 ^ 31 ≤ (yarnCalls tl).length + (yarnCalls tr).length →
          mopWeave fuel h l r = .error .assertion) := by
  have hp : (2 : Nat) ^ SIZELOG2 = 2 ^ 31 := rfl
  have hspec := mopWeave_spec fuel h l r hlr hlb hrb hl hr hd
  rw [hp] at hspec
  have tl := mopWring_trace fuel h l hl.1 hl.2.1 hl.2.2.1.1 (by have := hl.2.1; omega)
  have tr := mopWring_trace fuel h r hr.1 hr.2.1 hr.2.2.1.1 (by have := hr.2.1; omega)
  refine ⟨_, _, tl, tr, ?_⟩
  rw [yarnCalls_trace, yarnCalls_trace]
  refine ⟨⟨?_, ?_⟩, hspec.2⟩
  · rintro ⟨h1, m, e⟩
    by_contra hcon
    rw [hspec.2 (by omega)] at e
    cases e
  · intro hcap
    obtain ⟨h1, e1, _⟩ := hspec.1 (by omega)
    exact ⟨h1, _, e1⟩

theorem capacity_limit_witness :
    ∃ tl tr, mopWring 31 exHeap 5 traceBucket [] = .ok tl
      ∧ mopWring 31 exHeap 6 traceBucket [] = .ok tr
      ∧ ((∃ h1 m, mopWeave 31 exHeap 5 6 = .ok (h1, m))
          ↔ (yarnCalls tl).length + (yarnCalls tr).length ≤ 2 ^ 31 - 1)
      ∧ (2 ^ 31 ≤ (yarnCalls tl).length + (yarnCalls tr).length →
          mopWeave 31 exHeap 5 6 = .error .assertion) :=
  capacity_limit 31 exHeap 5 6 (by decide) (by decide) (by decide) (by decide) (by decide)
    (by decide) (by decide)

/-- C7, the postcondition of `yarnWeave`.  On two well-formed yarns `a` and
`b` of the same knot `k` that share no cell, `yarnWeave` fails no assertion
and returns a well-formed yarn of knot `k + 1` with `2 ^ (k + 1)` cells, which
are the cells of `a` and of `b`; its root has `root == tree`, and `yarnWring`
visits exactly these cells. -/
theorem weave_postcondition (h : Heap) (k a b : Nat) (ha : WfYarn h.yarn k a)
    (hb : WfYarn h.yarn k b)
    (hnd : (yarnNodes h.yarn k a ++ yarnNodes h.yarn k b).Nodup) :
    (yarnNodes h.yarn k a).length = 2 ^ k ∧ (yarnNodes h.yarn k b).length = 2 ^ k
      ∧ ∃ h1 y, yarnWeave h a b = .ok (h1, y)
        ∧ WfYarn h1.yarn (k + 1) y
        ∧ (yarnNodes h1.yarn (k + 1) y).length = 2 ^ (k + 1)
        ∧ (yarnNodes h1.yarn (k + 1) y).Perm (yarnNodes h.yarn k a ++ yarnNodes h.yarn k b)
        ∧ (h1.yarn y).root = (h1.yarn y).tree
        ∧ ∀ fuel, k + 1 < fuel →
            yarnWring fuel h1 y traceBucket []
              = .ok ((yarnNodes h1.yarn (k + 1) y).map Call.yarn) := by
  obtain ⟨h1, e1, s1, n1, _⟩ := yarnWeave_spec h k a b ha.1 hb.1 hnd
  have hperm : (yarnNodes h1.yarn (k + 1) a).Perm
      (yarnNodes h.yarn k a ++ yarnNodes h.yarn k b) := by
    rw [n1]
    simp only [yarnNodes]
    refine List.perm_iff_count.mpr (fun x => ?_)
    simp only [List.count_append, List.count_cons, List.count_nil]
    omega
  refine ⟨yarnNodes_length _ _ _, yarnNodes_length _ _ _, h1, a, e1,
    ⟨s1, hperm.nodup_iff.mpr hnd⟩, yarnNodes_length _ _ _, hperm,
    yarnShape_root_eq_tree s1, fun fuel hf => ?_⟩
  rw [yarnWring_yarn h1 traceBucket (k + 1) fuel a [] s1 hf, foldl_trace_yarn]
  simp

theorem weave_postcondition_witness :
    (yarnNodes exHeap.yarn 0 1).length = 2 ^ 0 ∧ (yarnNodes exHeap.yarn 0 2).length = 2 ^ 0
      ∧ ∃ h1 y, yarnWeave exHeap 1 2 = .ok (h1, y)
        ∧ WfYarn h1.yarn (0 + 1) y
        ∧ (yarnNodes h1.yarn (0 + 1) y).length = 2 ^ (0 + 1)
        ∧ (yarnNodes h1.yarn (0 + 1) y).Perm
            (yarnNodes exHeap.yarn 0 1 ++ yarnNodes exHeap.yarn 0 2)
        ∧ (h1.yarn y).root = (h1.yarn y).tree
        ∧ ∀ fuel, 0 + 1 < fuel →
            yarnWring fuel h1 y traceBucket []
              = .ok ((yarnNodes h1.yarn (0 + 1) y).map Call.yarn) :=
  weave_postcondition exHeap 0 1 2 (by decide) (by decide) (by decide)

/-- C8, refuted as stated.  In `exHeap` the yarn rooted at `3` has knot `1`
and the yarn rooted at `1` has knot `0`, yet `yarnWeave` fails no assertion
on them and returns `3`; the yarn it returns has lost the cell `4`. -/
theorem mismatched_weave_counterexample :
    WfYarn exHeap.yarn 1 3 ∧ WfYarn exHeap.yarn 0 1
      ∧ ∃ h1, yarnWeave exHeap 3 1 = .ok (h1, 3)
        ∧ yarnWring 9 h1 3 traceBucket [] = .ok [Call.yarn 1, Call.yarn 3] :=
  ⟨by decide, by decide, _, rfl, by decide⟩

/-- C8 as amended.  The assertions of `yarnWeave` compare no knots: on
non-null arguments it fails an assertion exactly when one argument has
`root != tree`, so on two yarn roots, of equal or of different knot, it fails
no assertion and returns its first argument. -/
theorem weave_asserts_roots_only (h : Heap) (a b : Nat) (ha : a ≠ 0) (hb : b ≠ 0) :
    (yarnWeave h a b = .error .assertion
        ↔ ((h.yarn a).root ≠ (h.yarn a).tree ∨ (h.yarn b).root ≠ (h.yarn b).tree))
      ∧ ∀ ka kb, yarnShape h.yarn ka a → yarnShape h.yarn kb b →
          ∃ h1, yarnWeave h a b = .ok (h1, a) := by
  constructor
  · by_cases h1 : (h.yarn a).root = (h.yarn a).tree <;>
      by_cases h2 : (h.yarn b).root = (h.yarn b).tree <;>
      simp [yarnWeave, ha, hb, h1, h2]
  · intro ka kb sa sb
    exact ⟨_, yarnWeave_ok h a b ha hb (yarnShape_root_eq_tree sa) (yarnShape_root_eq_tree sb)⟩

theorem weave_asserts_roots_only_witness :
    (yarnWeave exHeap 3 1 = .error .assertion
        ↔ ((exHeap.yarn 3).root ≠ (exHeap.yarn 3).tree
            ∨ (exHeap.yarn 1).root ≠ (exHeap.yarn 1).tree))
      ∧ ∀ ka kb, yarnShape exHeap.yarn ka 3 → yarnShape exHeap.yarn kb 1 →
          ∃ h1, yarnWeave exHeap 3 1 = .ok (h1, 3) :=
  weave_asserts_roots_only exHeap 3 1 (by decide) (by decide)

/-! ## Visitor runs as replays of the recorded run -/

theorem replay_append {β : Type} (b : Bucket β) (s : β) (t1 t2 : List Call) :
    replay b s (t1 ++ t2) = replay b (replay b s t1) t2 := by
  simp [replay]

theorem replay_yarn {β : Type} (b : Bucket β) (s : β) (y : Nat) :
    replay b s [Call.yarn y] = b.yarnF s y := rfl

theorem replay_mop {β : Type} (b : Bucket β) (s : β) (m : Nat) :
    replay b s [Call.mop m] = b.mopF s m := rfl

theorem replay_nil {β : Type} (b : Bucket β) (s : β) : replay b s [] = s := rfl

/-- `yarnWring` with budget `f + 1`, as nested case distinctions. -/
theorem yarnWring_succ {β : Type} (f : Nat) (h : Heap) (y : Nat) (b : Bucket β) (s : β) :
    yarnWring (f + 1) h y b s =
      if y = 0 then .error .assertion
      else if (h.yarn y).tree = 0 then .ok (b.yarnF s y)
      else match yarnWring f h (h.yarn y).tree b s with
        | .error e => .error e
        | .ok s1 =>
          if (h.yarn y).root = (h.yarn y).tree then .ok (b.yarnF s1 y)
          else match yarnWring f h (h.yarn y).root b s1 with
            | .error e => .error e
            | .ok s2 => .ok (b.yarnF s2 y) := by
  by_cases hy : y = 0
  · simp [yarnWring, hy]
  · by_cases ht : (h.yarn y).tree = 0
    · simp [yarnWring, hy, ht, bind, Except.bind, pure, Except.pure]
    · simp only [yarnWring, hy, ht, if_false, ne_eq, not_false_eq_true, if_true, bind,
        Except.bind, pure, Except.pure]
      cases yarnWring f h (h.yarn y).tree b s with
      | error e => rfl
      | ok s1 =>
        by_cases hrt : (h.yarn y).root = (h.yarn y).tree
        · simp [hrt]
        · simp only [hrt, if_false, not_false_eq_true, if_true]
          cases yarnWring f h (h.yarn y).root b s1 <;> rfl

theorem replay_trace (t : List Call) : ∀ s : List Call, replay traceBucket s t = s ++ t := by
  induction t with
  | nil => intro s; simp [replay]
  | cons c t ih =>
    intro s
    have e : replay traceBucket s (c :: t) = replay traceBucket (replay traceBucket s [c]) t :=
      replay_append traceBucket s [c] t
    rw [e, ih]
    cases c <;> simp [replay, traceBucket]

/-- Any visitor run of `yarnWring` is the replay of the recorded run. -/
theorem yarnWring_replay (h : Heap) :
    ∀ (fuel : Nat) (β : Type) (b : Bucket β) (y : Nat) (s : β),
      yarnWring fuel h y b s
        = match yarnWring fuel h y traceBucket [] with
          | .error e => .error e
          | .ok t => .ok (replay b s t) := by
  intro fuel
  induction fuel with
  | zero => intro β b y s; rfl
  | succ f ih =>
    intro β b y s
    rw [yarnWring_succ, yarnWring_succ]
    by_cases hy : y = 0
    · simp [hy]
    · by_cases ht : (h.yarn y).tree = 0
      · simp [hy, ht, traceBucket, replay]
      · simp only [hy, ht, if_false]
        rw [ih β b (h.yarn y).tree s]
        cases hr1 : yarnWring f h (h.yarn y).tree traceBucket [] with
        | error e => rfl
        | ok t1 =>
          by_cases hrt : (h.yarn y).root = (h.yarn y).tree
          · simp only [hrt, if_true]
            show _ = Except.ok (replay b s (t1 ++ [Call.yarn y]))
            rw [replay_append, replay_yarn]
          · simp only [hrt, if_false]
            rw [ih β b (h.yarn y).root (replay b s t1),
              ih (List Call) traceBucket (h.yarn y).root t1]
            cases hr2 : yarnWring f h (h.yarn y).root traceBucket [] with
            | error e => rfl
            | ok t2 =>
              show _ = Except.ok (replay b s (replay traceBucket t1 t2 ++ [Call.yarn y]))
              rw [replay_trace, replay_append, replay_append, replay_yarn]

/-- The loop of `mopWring` when the wring of each occupied slot returns: any
visitor run is the replay of the slots' recorded runs, in index order. -/
theorem mopWringLoop_replay {β : Type} (fuel : Nat) (h : Heap) (m : Nat) (b : Bucket β)
    (ts : Nat → List Call) :
    ∀ (todo k : Nat) (s : β), k + todo ≤ SIZELOG2 →
      (∀ j, k ≤ j → j < k + todo → (h.mop m).y j ≠ 0 →
        yarnWring fuel h ((h.mop m).y j) traceBucket [] = .ok (ts j)) →
      mopWringLoop fuel h m b todo k s
        = .ok (replay b s (((List.range' k todo).filter
            (fun j => (h.mop m).y j ≠ 0)).flatMap ts)) := by
  intro todo
  induction todo with
  | zero => intro k s _ _; rfl
  | succ todo ih =>
    intro k s hk hts
    have hk1 : ¬ SIZELOG2 ≤ k := by omega
    have hrec := ih (k + 1)
    by_cases hy : (h.mop m).y k = 0
    · have e := hrec s (by omega) (fun j h1 h2 => hts j (by omega) (by omega))
      simp [mopWringLoop, hk1, hy, e, List.range'_succ, bind, Except.bind, pure, Except.pure]
    · have e1 := yarnWring_replay h fuel β b ((h.mop m).y k) s
      rw [hts k (le_refl k) (by omega) hy] at e1
      have e := hrec (replay b s (ts k)) (by omega) (fun j h1 h2 => hts j (by omega) (by omega))
      simp [mopWringLoop, hk1, hy, e, e1, List.range'_succ, replay_append, bind, Except.bind]

/-- C9, the traversal order of a forest.  When `m` is non-null, `knot`
indexes the slot array and the wring of each occupied slot `y[k]`, `k ≤ knot`,
returns with the call sequence `ts k`, the calls recorded for `mopWring` are
the sequences `ts k` of the occupied slots for `k = 0, 1, .., knot` in this
order, followed by the single call of `mopF` on `m`; and the run of any
visitor `b` makes exactly these calls in this order. -/
theorem traversal_order (fuel : Nat) (h : Heap) (m : Nat) (hm : m ≠ 0)
    (hk : (h.mop m).knot < SIZELOG2) (ts : Nat → List Call)
    (hts : ∀ k, k ≤ (h.mop m).knot → (h.mop m).y k ≠ 0 →
      yarnWring fuel h ((h.mop m).y k) traceBucket [] = .ok (ts k)) :
    mopWring fuel h m traceBucket []
        = .ok (((List.range ((h.mop m).knot + 1)).filter
            (fun k => (h.mop m).y k ≠ 0)).flatMap ts ++ [Call.mop m])
      ∧ ∀ (β : Type) (b : Bucket β) (s : β),
          mopWring fuel h m b s
            = .ok (replay b s (((List.range ((h.mop m).knot + 1)).filter
                (fun k => (h.mop m).y k ≠ 0)).flatMap ts ++ [Call.mop m])) := by
  have hgen : ∀ (β : Type) (b : Bucket β) (s : β),
      mopWring fuel h m b s
        = .ok (replay b s (((List.range ((h.mop m).knot + 1)).filter
            (fun k => (h.mop m).y k ≠ 0)).flatMap ts ++ [Call.mop m])) := by
    intro β b s
    have e := mopWringLoop_replay fuel h m b ts ((h.mop m).knot + 1) 0 s (by omega)
      (fun j _ h2 => hts j (by omega))
    rw [← List.range_eq_range'] at e
    simp only [mopWring, hm, if_false, e, bind, Except.bind, pure, Except.pure]
    rw [replay_append, replay_mop]
  refine ⟨?_, hgen⟩
  rw [hgen, replay_trace]
  simp

theorem traversal_order_witness :
    mopWring 31 exHeap 6 traceBucket []
        = .ok (((List.range ((exHeap.mop 6).knot + 1)).filter
            (fun k => (exHeap.mop 6).y k ≠ 0)).flatMap
              (fun k => if k = 0 then [Call.yarn 2] else [Call.yarn 4, Call.yarn 3])
            ++ [Call.mop 6])
      ∧ ∀ (β : Type) (b : Bucket β) (s : β),
          mopWring 31 exHeap 6 b s
            = .ok (replay b s (((List.range ((exHeap.mop 6).knot + 1)).filter
                (fun k => (exHeap.mop 6).y k ≠ 0)).flatMap
                  (fun k => if k = 0 then [Call.yarn 2] else [Call.yarn 4, Call.yarn 3])
                ++ [Call.mop 6])) :=
  traversal_order 31 exHeap 6 (by decide) (by decide)
    (fun k => if k = 0 then [Call.yarn 2] else [Call.yarn 4, Call.yarn 3]) (by decide)

/-! ## The order of visits -/

theorem VisitedBefore.mem_left {t : List Nat} {c q : Nat} (hb : VisitedBefore t c q) : c ∈ t := by
  obtain ⟨t1, t2, e, h1, _⟩ := hb
  rw [e]; exact List.mem_append_left _ h1

theorem VisitedBefore.wrap {t : List Nat} {c q : Nat} (hb : VisitedBefore t c q)
    (a b : List Nat) : VisitedBefore (a ++ t ++ b) c q := by
  obtain ⟨t1, t2, e, h1, h2⟩ := hb
  refine ⟨a ++ t1, t2 ++ b, by rw [e]; simp, List.mem_append_right _ h1,
    List.mem_append_left _ h2⟩

theorem VisitedBefore.chain {t : List Nat} {c b q : Nat} (hn : t.Nodup)
    (h1 : VisitedBefore t c b) (h2 : VisitedBefore t b q) : VisitedBefore t c q := by
  obtain ⟨u1, u2, eu, hc, hb⟩ := h1
  obtain ⟨v1, v2, ev, hb2, hq⟩ := h2
  have e : u1 ++ u2 = v1 ++ v2 := eu.symm.trans ev
  rcases List.append_eq_append_iff.mp e with ⟨a, e1, e2⟩ | ⟨a, e1, e2⟩
  · -- v1 = u1 ++ a, u2 = a ++ v2
    refine ⟨v1, v2, ev, ?_, hq⟩
    rw [e1]; exact List.mem_append_left _ hc
  · -- u1 = v1 ++ a, v2 = a ++ u2
    exfalso
    rw [ev] at hn
    exact List.disjoint_of_nodup_append hn hb2 (by rw [e2]; exact List.mem_append_right _ hb)

/-- Inside an inner node, every linked cell is visited before the cell that
links to it. -/
theorem inner_link_before (Y : Nat → Yarn) (j : Nat) :
    ∀ q, innerShape Y j q → ∀ x ∈ innerNodes Y j q, ∀ c, link Y x c →
      VisitedBefore (innerNodes Y j q) c x := by
  induction j with
  | zero =>
    intro q hs x hx c hl
    simp only [innerNodes, List.mem_singleton] at hx
    subst hx
    obtain ⟨hc, hl⟩ := hl
    rw [hs.2.1, hs.2.2] at hl
    exact absurd (hl.elim id id) hc
  | succ j ih =>
    intro q hs x hx c hl
    obtain ⟨_, _, _, hs1, hs2⟩ := hs
    simp only [innerNodes, List.mem_append, List.mem_singleton] at hx
    rcases hx with (hx | hx) | hx
    · have := (ih _ hs1 x hx c hl).wrap [] (innerNodes Y j (Y q).root ++ [q])
      simpa [innerNodes] using this
    · have := (ih _ hs2 x hx c hl).wrap (innerNodes Y j (Y q).tree) [q]
      simpa [innerNodes] using this
    · subst hx
      refine ⟨innerNodes Y j (Y x).tree ++ innerNodes Y j (Y x).root, [x], rfl, ?_,
        List.mem_singleton_self _⟩
      rcases hl.2 with e | e
      · rw [e]; exact List.mem_append_right _ (mem_innerNodes_self _ _ _)
      · rw [e]; exact List.mem_append_left _ (mem_innerNodes_self _ _ _)

/-- Inside a yarn, every linked cell is visited before the cell that links
to it. -/
theorem yarn_link_before (Y : Nat → Yarn) (k p : Nat) (hs : yarnShape Y k p) :
    ∀ x ∈ yarnNodes Y k p, ∀ c, link Y x c → VisitedBefore (yarnNodes Y k p) c x := by
  intro x hx c hl
  cases k with
  | zero =>
    simp only [yarnNodes, yarnSub, List.nil_append, List.mem_singleton] at hx
    subst hx
    obtain ⟨hc, hl⟩ := hl
    rw [hs.2.1, hs.2.2] at hl
    exact absurd (hl.elim id id) hc
  | succ k =>
    obtain ⟨_, hrt, hs1⟩ := hs
    simp only [yarnNodes, yarnSub, List.mem_append, List.mem_singleton] at hx
    rcases hx with hx | hx
    · have := (inner_link_before Y k _ hs1 x hx c hl).wrap [] [p]
      simpa [yarnNodes, yarnSub] using this
    · subst hx
      refine ⟨innerNodes Y k (Y x).tree, [x], rfl, ?_, List.mem_singleton_self _⟩
      rcases hl.2 with e | e
      · rw [e, hrt]; exact mem_innerNodes_self _ _ _
      · rw [e]; exact mem_innerNodes_self _ _ _

/-- Within a list of cells that is closed under links in visit order, every
cell reachable over links is visited earlier. -/
theorem reach_before (Y : Nat → Yarn) (t : List Nat) (hn : t.Nodup)
    (hstep : ∀ x ∈ t, ∀ c, link Y x c → VisitedBefore t c x) :
    ∀ q ∈ t, ∀ c, Relation.TransGen (link Y) q c → VisitedBefore t c q := by
  intro q hq c hr
  induction hr with
  | single hl => exact hstep q hq _ hl
  | tail _ hl ih => exact (hstep _ ih.mem_left _ hl).chain hn ih

/-- Every cell of an inner node is the node or reachable from it over links. -/
theorem inner_reach (Y : Nat → Yarn) (j : Nat) :
    ∀ q, innerShape Y j q → ∀ x ∈ innerNodes Y j q,
      x = q ∨ Relation.TransGen (link Y) q x := by
  induction j with
  | zero =>
    intro q _ x hx
    simp only [innerNodes, List.mem_singleton] at hx
    exact Or.inl hx
  | succ j ih =>
    intro q hs x hx
    obtain ⟨_, ht, _, hs1, hs2⟩ := hs
    simp only [innerNodes, List.mem_append, List.mem_singleton] at hx
    rcases hx with (hx | hx) | hx
    · right
      have hl : link Y q (Y q).tree := ⟨ht, Or.inr rfl⟩
      rcases ih _ hs1 x hx with e | e
      · rw [e]; exact Relation.TransGen.single hl
      · exact Relation.TransGen.head hl e
    · right
      have hl : link Y q (Y q).root := ⟨innerShape_ne_zero hs2, Or.inl rfl⟩
      rcases ih _ hs2 x hx with e | e
      · rw [e]; exact Relation.TransGen.single hl
      · exact Relation.TransGen.head hl e
    · exact Or.inl hx

theorem yarn_reach (Y : Nat → Yarn) (k p : Nat) (hs : yarnShape Y k p) :
    ∀ x ∈ yarnNodes Y k p, x = p ∨ Relation.TransGen (link Y) p x := by
  intro x hx
  cases k with
  | zero =>
    simp only [yarnNodes, yarnSub, List.nil_append, List.mem_singleton] at hx
    exact Or.inl hx
  | succ k =>
    obtain ⟨_, _, hs1⟩ := hs
    simp only [yarnNodes, yarnSub, List.mem_append, List.mem_singleton] at hx
    rcases hx with hx | hx
    · right
      have hl : link Y p (Y p).tree := ⟨innerShape_ne_zero hs1, Or.inr rfl⟩
      rcases inner_reach Y k _ hs1 x hx with e | e
      · rw [e]; exact Relation.TransGen.single hl
      · exact Relation.TransGen.head hl e
    · exact Or.inl hx

theorem items_link_before (Y : Nat → Yarn) (items : List (Nat × Nat))
    (hs : ∀ it ∈ items, yarnShape Y it.1 it.2) :
    ∀ x ∈ itemNodes Y items, ∀ c, link Y x c → VisitedBefore (itemNodes Y items) c x := by
  intro x hx c hl
  obtain ⟨it, hit, hxi⟩ := mem_itemNodes.mp hx
  obtain ⟨l1, l2, e⟩ := List.append_of_mem hit
  have := (yarn_link_before Y it.1 it.2 (hs it hit) x hxi c hl).wrap (itemNodes Y l1)
    (itemNodes Y l2)
  rw [e, itemNodes_append, itemNodes_cons, ← List.append_assoc]
  exact this

theorem foldl_bitBucket (nodes : List Nat) :
    ∀ s : List Nat, nodes.foldl bitBucket.yarnF s = s ++ nodes := by
  induction nodes with
  | nil => intro s; simp
  | cons a t ih =>
    intro s
    rw [List.foldl_cons, ih]
    simp [bitBucket]

/-- `mopDelete` on a mop whose slots hold yarns frees each cell of the mop in
wring order and then the header. -/
theorem mopDelete_spec (fuel : Nat) (h : Heap) (m : Nat) (hm : m ≠ 0)
    (hk : (h.mop m).knot < SIZELOG2)
    (hs : ∀ it ∈ mopItems h m, yarnShape h.yarn it.1 it.2) (hf : (h.mop m).knot < fuel) :
    mopDelete fuel h m = .ok { h with freed := h.freed ++ mopNodes h m ++ [m] } := by
  have e := mopWring_spec fuel h m bitBucket h.freed hm hk hs hf
  rw [foldl_bitBucket] at e
  simp only [mopDelete, e, bind, Except.bind, pure, Except.pure]
  rfl

/-- C10, postorder and exactly-once visitation.  On a well-formed yarn of
knot `k`, `yarnWring` returns and calls `yarnF` on a sequence `t` of `2 ^ k`
different cells; these are the root and the cells reachable from it over
non-null links, and a cell reachable from a cell `q` of the yarn is visited
before `q`.  On a well-formed mop, `mopDelete` returns and frees the cells of
the mop, each once and each after the cells reachable from it, and then the
header, which is the only `mopF` call and the last call. -/
theorem postorder_exactly_once (fuel : Nat) (h : Heap) :
    (∀ k y, WfYarn h.yarn k y → k < fuel →
      ∃ t, yarnWring fuel h y traceBucket [] = .ok (t.map Call.yarn)
        ∧ t.length = 2 ^ k ∧ t.Nodup
        ∧ (∀ q, q ∈ t ↔ (q = y ∨ Relation.TransGen (link h.yarn) y q))
        ∧ ∀ q ∈ t, ∀ c, Relation.TransGen (link h.yarn) q c → VisitedBefore t c q)
    ∧ (∀ m, WfMop h m → SIZELOG2 ≤ fuel →
      ∃ t, mopWring fuel h m traceBucket [] = .ok (t.map Call.yarn ++ [Call.mop m])
        ∧ mopDelete fuel h m = .ok { h with freed := h.freed ++ t ++ [m] }
        ∧ t.Nodup
        ∧ ∀ q ∈ t, ∀ c, Relation.TransGen (link h.yarn) q c → VisitedBefore t c q) := by
  constructor
  · intro k y hy hf
    have hb := reach_before h.yarn (yarnNodes h.yarn k y) hy.2 (yarn_link_before h.yarn k y hy.1)
    refine ⟨yarnNodes h.yarn k y, ?_, yarnNodes_length _ _ _, hy.2, fun q => ⟨?_, ?_⟩, hb⟩
    · rw [yarnWring_yarn h traceBucket k fuel y [] hy.1 hf, foldl_trace_yarn]
      simp
    · exact yarn_reach h.yarn k y hy.1 q
    · rintro (e | e)
      · rw [e]; exact mem_yarnNodes_self _ _ _
      · exact (hb y (mem_yarnNodes_self _ _ _) q e).mem_left
  · intro m hm hf
    obtain ⟨h0, hk, hp, _, _⟩ := hm
    have hfk : (h.mop m).knot < fuel := by omega
    exact ⟨mopNodes h m, mopWring_trace fuel h m h0 hk hp.1 hfk,
      mopDelete_spec fuel h m h0 hk hp.1 hfk, hp.2,
      reach_before h.yarn _ hp.2 (items_link_before h.yarn _ hp.1)⟩

theorem postorder_exactly_once_witness :
    (∃ t, yarnWring 31 exHeap 3 traceBucket [] = .ok (t.map Call.yarn)
        ∧ t.length = 2 ^ 1 ∧ t.Nodup
        ∧ (∀ q, q ∈ t ↔ (q = 3 ∨ Relation.TransGen (link exHeap.yarn) 3 q))
        ∧ ∀ q ∈ t, ∀ c, Relation.TransGen (link exHeap.yarn) q c → VisitedBefore t c q)
    ∧ (∃ t, mopWring 31 exHeap 6 traceBucket [] = .ok (t.map Call.yarn ++ [Call.mop 6])
        ∧ mopDelete 31 exHeap 6 = .ok { exHeap with freed := exHeap.freed ++ t ++ [6] }
        ∧ t.Nodup
        ∧ ∀ q ∈ t, ∀ c, Relation.TransGen (link exHeap.yarn) q c → VisitedBefore t c q) :=
  ⟨(postorder_exactly_once 31 exHeap).1 1 3 (by decide) (by decide),
    (postorder_exactly_once 31 exHeap).2 6 (by decide) (by decide)⟩

/-! ## Occupied slots and binary digits -/

/-- Bit `k` of the number of cells in the slots `0 .. n - 1` is set exactly
when `k < n` and slot `k` is occupied. -/
theorem slot_bits (Y : Nat → Yarn) (y : Nat → Nat) (n : Nat) :
    ∀ k, (itemNodes Y (slotItems y 0 n)).length.testBit k = (decide (k < n) && decide (y k ≠ 0)) := by
  induction n with
  | zero => intro k; simp [slotItems, itemNodes_nil]
  | succ n ih =>
    intro k
    have hlt := slotItems_length_le Y y n 0
    rw [Nat.zero_add, pow_zero] at hlt
    rw [slotItems_snoc, itemNodes_append, List.length_append, itemNodes_item_length, Nat.zero_add]
    by_cases hy : y n = 0
    · simp only [hy, if_true, Nat.add_zero, ih k]
      by_cases hk : k = n
      · subst hk; simp [hy]
      · have : (k < n + 1) ↔ (k < n) := by omega
        simp [this]
    · simp only [hy, if_false]
      rw [Nat.add_comm]
      rcases Nat.lt_trichotomy k n with hk | hk | hk
      · rw [Nat.testBit_two_pow_add_gt hk, ih k]
        have : k < n + 1 := by omega
        simp [hk, this]
      · subst hk
        rw [Nat.testBit_two_pow_add_eq, Nat.testBit_lt_two_pow (by omega)]
        simp [hy]
      · have h2 : 2 ^ (n + 1) ≤ 2 ^ k := two_pow_le_of_le (by omega)
        rw [pow_succ] at h2
        rw [Nat.testBit_lt_two_pow (by omega)]
        have : ¬ k < n + 1 := by omega
        simp [this]

/-- The occupied slots of a well-formed mop are the binary digits of the
number of its cells. -/
theorem wf_bits (h : Heap) (m : Nat) (hm : WfMop h m) :
    ∀ k, k < SIZELOG2 → ((h.mop m).y k ≠ 0 ↔ (mopNodes h m).length.testBit k = true) := by
  intro k hk
  obtain ⟨_, _, _, hz, _⟩ := hm
  simp only [mopNodes, mopItems, slot_bits]
  by_cases hkn : k < (h.mop m).knot + 1
  · simp [hkn]
  · have := hz k hk (by omega)
    simp [hkn, this]

/-! ## Frames for whole mops -/

theorem mopItems_congr {h h1 : Heap} {m : Nat} (hm : h1.mop m = h.mop m) :
    mopItems h1 m = mopItems h m := by
  simp [mopItems, hm]

theorem mopNodes_frame {h h1 : Heap} {m : Nat} (hm : h1.mop m = h.mop m)
    (hy : ∀ a ∈ mopNodes h m, h1.yarn a = h.yarn a) : mopNodes h1 m = mopNodes h m := by
  simp only [mopNodes, mopItems_congr hm]
  exact itemNodes_frame _ hy

theorem WfMop.frameMop {h h1 : Heap} {m : Nat} (hw : WfMop h m) (hm : h1.mop m = h.mop m)
    (hy : ∀ a ∈ mopNodes h m, h1.yarn a = h.yarn a) : WfMop h1 m := by
  obtain ⟨h0, hk, hp, hz, ht⟩ := hw
  refine ⟨h0, by rw [hm]; exact hk, ?_, by rw [hm]; exact hz, by rw [hm]; exact ht⟩
  rw [mopItems_congr hm]
  exact hp.framePool hy

theorem mopNodes_length_lt (h : Heap) (m : Nat) (hw : WfMop h m) :
    (mopNodes h m).length < 2 ^ SIZELOG2 := by
  have h1 := slotItems_length_le h.yarn (h.mop m).y ((h.mop m).knot + 1) 0
  rw [Nat.zero_add, pow_zero] at h1
  have h2 : 2 ^ ((h.mop m).knot + 1) ≤ 2 ^ SIZELOG2 := two_pow_le_of_le (by have := hw.2.1; omega)
  simp only [mopNodes, mopItems]
  omega

/-! ## The client invariant -/

theorem flatMap_congr_mem {α β : Type} (l : List α) (f g : α → List β)
    (hfg : ∀ a ∈ l, f a = g a) : l.flatMap f = l.flatMap g := by
  induction l with
  | nil => rfl
  | cons a t ih =>
    rw [List.flatMap_cons, List.flatMap_cons, hfg a (List.mem_cons_self _ _),
      ih (fun b hb => hfg b (List.mem_cons_of_mem _ hb))]

theorem Live.permMops {h : Heap} {ms ms1 ys : List Nat} (hl : Live h ms ys) (hp : ms.Perm ms1) :
    Live h ms1 ys := by
  obtain ⟨a1, a2, a3, a4, a5⟩ := hl
  have hp2 : (ys ++ ms.flatMap (mopNodes h)).Perm (ys ++ ms1.flatMap (mopNodes h)) :=
    (List.Perm.flatMap_right _ hp).append_left ys
  exact ⟨hp.nodup_iff.mp a1, fun m hm => a2 m (hp.mem_iff.mpr hm), a3, hp2.nodup_iff.mp a4,
    fun a ha => a5 a (hp2.mem_iff.mpr ha)⟩

theorem Live.mem_nodes_le {h : Heap} {ms ys : List Nat} (hl : Live h ms ys) {m a : Nat}
    (hm : m ∈ ms) (ha : a ∈ mopNodes h m) : a ≤ h.brk :=
  hl.2.2.2.2 a (List.mem_append_right _ (List.mem_flatMap.mpr ⟨m, hm, ha⟩))

/-- The client invariant survives any change of the heap that leaves the
headers and the cells of the client alone and does not lower the allocation
frontier. -/
theorem Live.frameLive {h : Heap} (h1 : Heap) {ms ys : List Nat} (hl : Live h ms ys)
    (hb : h.brk ≤ h1.brk)
    (hm : ∀ m ∈ ms, h1.mop m = h.mop m)
    (hy : ∀ a ∈ ys ++ ms.flatMap (mopNodes h), h1.yarn a = h.yarn a) :
    Live h1 ms ys ∧ ∀ m ∈ ms, mopNodes h1 m = mopNodes h m := by
  obtain ⟨a1, a2, a3, a4, a5⟩ := hl
  have hn : ∀ m ∈ ms, mopNodes h1 m = mopNodes h m := fun m hmm =>
    mopNodes_frame (hm m hmm) (fun a ha => hy a (List.mem_append_right _
      (List.mem_flatMap.mpr ⟨m, hmm, ha⟩)))
  have hfl : ms.flatMap (mopNodes h1) = ms.flatMap (mopNodes h) := flatMap_congr_mem _ _ _ hn
  refine ⟨⟨a1, fun m hmm => ⟨le_trans (a2 m hmm).1 hb, ?_⟩, fun y hyy => ?_, ?_, ?_⟩, hn⟩
  · exact (a2 m hmm).2.frameMop (hm m hmm) (fun a ha => hy a (List.mem_append_right _
      (List.mem_flatMap.mpr ⟨m, hmm, ha⟩)))
  · refine yarnShape_frame 0 y (fun a ha => ?_) (a3 y hyy)
    have : a = y := by simpa [yarnNodes, yarnSub] using ha
    subst this
    exact hy a (List.mem_append_left _ hyy)
  · rw [hfl]; exact a4
  · rw [hfl]; exact fun a ha => le_trans (a5 a ha) hb

theorem Live.drop_head {h : Heap} {m : Nat} {ms ys : List Nat} (hl : Live h (m :: ms) ys) :
    Live h ms ys := by
  obtain ⟨a1, a2, a3, a4, a5⟩ := hl
  have hsub : (ys ++ ms.flatMap (mopNodes h)).Sublist (ys ++ (m :: ms).flatMap (mopNodes h)) := by
    rw [List.flatMap_cons]
    exact (List.Sublist.refl ys).append (List.sublist_append_right _ _)
  exact ⟨(List.nodup_cons.mp a1).2, fun x hx => a2 x (List.mem_cons_of_mem _ hx), a3,
    a4.sublist hsub, fun a ha => a5 a (hsub.subset ha)⟩

/-- `mopWeave` on two mops a client holds: the client holds the result in
place of the operands and everything else it holds is unchanged. -/
theorem live_weave (fuel : Nat) (h : Heap) (l r : Nat) (others ys : List Nat)
    (hl : Live h (l :: r :: others) ys)
    (hcap : (mopNodes h l).length + (mopNodes h r).length < 2 ^ SIZELOG2) :
    ∃ h1, mopWeave fuel h l r = .ok (h1, h.brk + 1)
      ∧ Live h1 ((h.brk + 1) :: others) ys
      ∧ (mopNodes h1 (h.brk + 1)).Perm (mopNodes h l ++ mopNodes h r)
      ∧ (∀ o ∈ others, mopNodes h1 o = mopNodes h o)
      ∧ WeavePost h h1 l r (h.brk + 1) := by
  have hlo : Live h others ys := hl.drop_head.drop_head
  obtain ⟨a1, a2, a3, a4, a5⟩ := hl
  have hlr : l ≠ r := by
    intro e; subst e
    exact (List.nodup_cons.mp a1).1 (List.mem_cons_self _ _)
  have hlo1 : l ∉ others := fun hm =>
    (List.nodup_cons.mp a1).1 (List.mem_cons_of_mem _ hm)
  have hro1 : r ∉ others := (List.nodup_cons.mp (List.nodup_cons.mp a1).2).1
  have hwl := a2 l (List.mem_cons_self _ _)
  have hwr := a2 r (List.mem_cons_of_mem _ (List.mem_cons_self _ _))
  simp only [List.flatMap_cons] at a4 a5
  have hd : (mopNodes h l ++ mopNodes h r).Nodup := by
    have := (List.nodup_append.mp a4).2.1
    rw [← List.append_assoc] at this
    exact (List.nodup_append.mp this).1
  obtain ⟨h1, e1, post⟩ := (mopWeave_spec fuel h l r hlr hwl.1 hwr.1 hwl.2 hwr.2 hd).1 hcap
  have post2 := post
  obtain ⟨_, p2, p3, p4, p5, p6, p7, p8, _⟩ := post
  have hfr := hlo.frameLive (h1) (by omega)
    (fun o ho => p7 o (fun e => hlo1 (e ▸ ho)) (fun e => hro1 (e ▸ ho))
      (by have := (hlo.2.1 o ho).1; omega))
    (fun a ha => p8 a (by
      intro hm
      have hc1 : List.count a (ys ++ (mopNodes h l ++ (mopNodes h r
          ++ others.flatMap (mopNodes h)))) ≤ 1 := List.nodup_iff_count_le_one.mp a4 a
      have hc2 : 0 < List.count a (ys ++ others.flatMap (mopNodes h)) :=
        List.count_pos_iff.mpr ha
      have hc3 : 0 < List.count a (mopNodes h l ++ mopNodes h r) := List.count_pos_iff.mpr hm
      simp only [List.count_append] at hc1 hc2 hc3
      omega))
  obtain ⟨⟨b1, b2, b3, b4, b5⟩, hsame⟩ := hfr
  have hfl : others.flatMap (mopNodes h1) = others.flatMap (mopNodes h) :=
    flatMap_congr_mem _ _ _ hsame
  have hperm : (ys ++ ((h.brk + 1) :: others).flatMap (mopNodes h1)).Perm
      (ys ++ (mopNodes h l ++ (mopNodes h r ++ others.flatMap (mopNodes h)))) := by
    rw [List.flatMap_cons, hfl]
    refine List.Perm.append_left ys ?_
    rw [← List.append_assoc]
    exact p6.append_right _
  refine ⟨h1, e1, ⟨?_, ?_, b3, hperm.nodup_iff.mpr a4, ?_⟩, p6, hsame, post2⟩
  · refine List.nodup_cons.mpr ⟨fun hm => ?_, b1⟩
    have := (hlo.2.1 _ hm).1
    omega
  · intro m hm
    rcases List.mem_cons.mp hm with e | hm
    · subst e; exact ⟨by omega, p5⟩
    · exact b2 m hm
  · intro a ha
    have := a5 a (hperm.mem_iff.mp ha)
    omega

theorem wfMop_new (h : Heap) : WfMop (mopNew h).1 (h.brk + 1)
    ∧ mopNodes (mopNew h).1 (h.brk + 1) = [] := by
  have hk : ((mopNew h).1.mop (h.brk + 1)).knot = 0 := by simp [mopNew]
  have hy : ∀ j, ((mopNew h).1.mop (h.brk + 1)).y j = 0 := by intro j; simp [mopNew]
  have hi : mopItems (mopNew h).1 (h.brk + 1) = [] := by
    simp [mopItems, hk, slotItems, hy, item_zero]
  refine ⟨⟨by omega, by rw [hk]; decide, ?_, fun k _ _ => hy k, Or.inl hk⟩, ?_⟩
  · rw [hi]; exact ⟨fun _ hit => by simp at hit, by simp [itemNodes_nil]⟩
  · simp [mopNodes, hi, itemNodes_nil]

/-- `mopNew` for a client: it now also holds the new, empty mop. -/
theorem live_mopNew (h : Heap) (ms ys : List Nat) (hl : Live h ms ys) :
    Live (mopNew h).1 ((h.brk + 1) :: ms) ys
      ∧ ∀ m ∈ ms, mopNodes (mopNew h).1 m = mopNodes h m := by
  have hfr := hl.frameLive (mopNew h).1 (by simp [mopNew])
    (fun m hm => by
      have : m ≠ h.brk + 1 := by have := (hl.2.1 m hm).1; omega
      simp [mopNew, this])
    (fun a _ => rfl)
  obtain ⟨⟨b1, b2, b3, b4, b5⟩, hsame⟩ := hfr
  obtain ⟨hw, hn⟩ := wfMop_new h
  refine ⟨⟨?_, ?_, b3, ?_, ?_⟩, hsame⟩
  · refine List.nodup_cons.mpr ⟨fun hm => ?_, b1⟩
    have := (hl.2.1 _ hm).1
    omega
  · intro m hm
    rcases List.mem_cons.mp hm with e | hm
    · subst e; exact ⟨by simp [mopNew], hw⟩
    · exact b2 m hm
  · rw [List.flatMap_cons, hn, List.nil_append]; exact b4
  · rw [List.flatMap_cons, hn, List.nil_append]; exact b5

/-- `yarnNew` for a client: it now also holds the new leaf. -/
theorem live_yarnNew (h : Heap) (ms ys : List Nat) (hl : Live h ms ys) :
    Live (yarnNew h).1 ms ((h.brk + 1) :: ys)
      ∧ ∀ m ∈ ms, mopNodes (yarnNew h).1 m = mopNodes h m := by
  have hfr := hl.frameLive (yarnNew h).1 (by simp [yarnNew, Heap.setRoot])
    (fun m _ => rfl)
    (fun a ha => by
      have : a ≠ h.brk + 1 := by have := hl.2.2.2.2 a ha; omega
      simp [yarnNew, Heap.setRoot, this])
  obtain ⟨⟨b1, b2, b3, b4, b5⟩, hsame⟩ := hfr
  have hbrk : (yarnNew h).1.brk = h.brk + 1 := by simp [yarnNew, Heap.setRoot]
  refine ⟨⟨b1, b2, ?_, ?_, ?_⟩, hsame⟩
  · intro y hy
    rcases List.mem_cons.mp hy with e | hy
    · subst e
      refine ⟨by omega, ?_, ?_⟩ <;> simp [yarnNew, Heap.setRoot]
    · exact b3 y hy
  · rw [List.cons_append]
    refine List.nodup_cons.mpr ⟨fun hm => ?_, b4⟩
    have h1 := b5 _ hm
    have h2 : ∀ a ∈ ys ++ ms.flatMap (mopNodes h), a ≤ h.brk := hl.2.2.2.2
    rw [← flatMap_congr_mem _ _ _ hsame] at h2
    have := h2 _ hm
    omega
  · intro a ha
    rw [List.cons_append] at ha
    rcases List.mem_cons.mp ha with e | ha
    · subst e; omega
    · exact b5 a ha

/-- The store of a member `n`-value for a client: nothing it holds changes. -/
theorem live_setN (h : Heap) (ms ys : List Nat) (y : Nat) (v : Int) (hl : Live h ms ys) :
    Live (h.setN y v) ms ys ∧ ∀ m ∈ ms, mopNodes (h.setN y v) m = mopNodes h m :=
  hl.frameLive (h.setN y v) (le_refl _) (fun _ _ => rfl) (fun _ _ => rfl)

theorem Live.drop_loose {h : Heap} {y : Nat} {ms ys : List Nat} (hl : Live h ms (y :: ys)) :
    Live h ms ys := by
  obtain ⟨a1, a2, a3, a4, a5⟩ := hl
  rw [List.cons_append] at a4 a5
  exact ⟨a1, a2, fun x hx => a3 x (List.mem_cons_of_mem _ hx), (List.nodup_cons.mp a4).2,
    fun a ha => a5 a (List.mem_cons_of_mem _ ha)⟩

/-- `mopAbsorb` for a client, on a mop and a loose leaf it holds: it holds
the result in place of both. -/
theorem live_absorb (fuel : Nat) (h : Heap) (m y : Nat) (others ys : List Nat)
    (hl : Live h (m :: others) (y :: ys))
    (hcap : (mopNodes h m).length + 1 < 2 ^ SIZELOG2) :
    ∃ h2, mopAbsorb fuel h m y = .ok (h2, h.brk + 2)
      ∧ Live h2 ((h.brk + 2) :: others) ys
      ∧ (mopNodes h2 (h.brk + 2)).Perm (mopNodes h m ++ [y])
      ∧ (∀ o ∈ others, mopNodes h2 o = mopNodes h o)
      ∧ h2.n = h.n ∧ h2.brk = h.brk + 2 ∧ h2.freed = h.freed ++ [m, h.brk + 1] := by
  have hy0 : yarnShape h.yarn 0 y := hl.2.2.1 y (List.mem_cons_self _ _)
  have hyne : y ≠ 0 := yarnShape_ne_zero hy0
  have hl1 : Live h (m :: others) ys := hl.drop_loose
  obtain ⟨a1, a2, a3, a4, a5⟩ := hl
  set h0 := (mopNew h).1.setY (h.brk + 1) 0 y with hh0
  have hbrk0 : h0.brk = h.brk + 1 := by simp [hh0, mopNew, Heap.setY]
  have hfr := hl1.frameLive (h0) (by omega)
    (fun x hx => by
      have : x ≠ h.brk + 1 := by have := (hl1.2.1 x hx).1; omega
      simp [hh0, mopNew, Heap.setY, this])
    (fun a _ => rfl)
  obtain ⟨⟨b1, b2, b3, b4, b5⟩, hsame⟩ := hfr
  have hdk : (h0.mop (h.brk + 1)).knot = 0 := by simp [hh0, mopNew, Heap.setY]
  have hdy : ∀ j, (h0.mop (h.brk + 1)).y j = if j = 0 then y else 0 := by
    intro j; simp [hh0, mopNew, Heap.setY]
  have hdi : mopItems h0 (h.brk + 1) = [(0, y)] := by
    simp [mopItems, hdk, slotItems, hdy, item_ne hyne]
  have hdn : mopNodes h0 (h.brk + 1) = [y] := by
    simp [mopNodes, hdi, itemNodes_cons, itemNodes_nil, yarnNodes, yarnSub]
  have hdw : WfMop h0 (h.brk + 1) := by
    refine ⟨by omega, by rw [hdk]; decide, ?_, fun k _ hk => ?_, Or.inl hdk⟩
    · rw [hdi]
      refine ⟨fun it hit => ?_, ?_⟩
      · have : it = (0, y) := by simpa using hit
        subst this
        exact hy0
      · simp [itemNodes_cons, itemNodes_nil, yarnNodes, yarnSub]
    · rw [hdy k, hdk] at *
      have : k ≠ 0 := by omega
      simp [this]
  have hsm : mopNodes h0 m = mopNodes h m := hsame m (List.mem_cons_self _ _)
  have hso : others.flatMap (mopNodes h0) = others.flatMap (mopNodes h) :=
    flatMap_congr_mem _ _ _ (fun o ho => hsame o (List.mem_cons_of_mem _ ho))
  have hperm : (ys ++ (m :: (h.brk + 1) :: others).flatMap (mopNodes h0)).Perm
      ((y :: ys) ++ (m :: others).flatMap (mopNodes h)) := by
    simp only [List.flatMap_cons, hdn, hsm, hso]
    refine List.perm_iff_count.mpr (fun x => ?_)
    simp only [List.count_append, List.count_cons, List.count_nil]
    omega
  have hl0 : Live h0 (m :: (h.brk + 1) :: others) ys := by
    refine ⟨?_, ?_, b3, hperm.nodup_iff.mpr a4, fun a ha => ?_⟩
    · have hm1 : m ≠ h.brk + 1 := by have := (a2 m (List.mem_cons_self _ _)).1; omega
      have hd1 : h.brk + 1 ∉ others := fun hm => by
        have := (a2 _ (List.mem_cons_of_mem _ hm)).1
        omega
      have := List.nodup_cons.mp a1
      exact List.nodup_cons.mpr ⟨by simp [hm1, this.1], List.nodup_cons.mpr ⟨hd1, this.2⟩⟩
    · intro x hx
      rcases List.mem_cons.mp hx with e | hx
      · subst e; exact b2 x (List.mem_cons_self _ _)
      · rcases List.mem_cons.mp hx with e | hx
        · subst e; exact ⟨by omega, hdw⟩
        · exact b2 x (List.mem_cons_of_mem _ hx)
    · have := a5 a (hperm.mem_iff.mp ha)
      omega
  obtain ⟨h2, e2, l2, p2, s2, post⟩ := live_weave fuel h0 m (h.brk + 1) others ys hl0
    (by rw [hsm, hdn]; exact hcap)
  rw [hbrk0] at e2 l2 p2 post
  refine ⟨h2, e2, l2, ?_, fun o ho => ?_, ?_, ?_, ?_⟩
  · rw [hsm, hdn] at p2; exact p2
  · rw [s2 o ho]; exact hsame o (List.mem_cons_of_mem _ ho)
  · rw [post.2.2.1]; rfl
  · rw [post.2.1, hbrk0]
  · rw [post.2.2.2.1]; rfl

/-! ## `mopRedo` -/

/-- The specification of `mopRedo` on the first `count` entries `used` of its
array, all held by a client and holding fewer than `2 ^ SIZELOG2` cells
together: it returns a mop the client holds in their place, with the cells
of all of them. -/
theorem mopRedo_spec (fuel : Nat) :
    ∀ (count : Nat) (h : Heap) (used extra others ys : List Nat),
      used.length = count → Live h (used ++ others) ys →
      (used.flatMap (mopNodes h)).length < 2 ^ SIZELOG2 →
      ∃ h1 m, mopRedo fuel h (used ++ extra) count = .ok (h1, m)
        ∧ Live h1 (m :: others) ys
        ∧ (mopNodes h1 m).Perm (used.flatMap (mopNodes h))
        ∧ (∀ o ∈ others, mopNodes h1 o = mopNodes h o)
        ∧ h1.n = h.n ∧ h.brk ≤ h1.brk := by
  intro count
  induction count using Nat.strong_induction_on with
  | _ count ih =>
    intro h used extra others ys hlen hl hcap
    rw [mopRedo]
    by_cases hc0 : count = 0
    · subst hc0
      have : used = [] := List.length_eq_zero.mp hlen
      subst this
      obtain ⟨l1, s1⟩ := live_mopNew h others ys (by simpa using hl)
      refine ⟨(mopNew h).1, h.brk + 1, by simp [pure, Except.pure]; rfl, l1, ?_, s1, rfl, ?_⟩
      · rw [(wfMop_new h).2]; simp
      · simp [mopNew]
    · by_cases hc1 : count = 1
      · subst hc1
        obtain ⟨m0, rfl⟩ : ∃ m0, used = [m0] := List.length_eq_one.mp hlen
        refine ⟨h, m0, by simp [pure, Except.pure], by simpa using hl, by simp,
          fun _ _ => rfl, rfl, le_refl _⟩
      · by_cases hc2 : count = 2
        · subst hc2
          obtain ⟨m0, m1, rfl⟩ : ∃ m0 m1, used = [m0, m1] := List.length_eq_two.mp hlen
          have hl2 : Live h (m0 :: m1 :: others) ys := by simpa using hl
          obtain ⟨h1, e1, l1, p1, s1, post⟩ := live_weave fuel h m0 m1 others ys hl2
            (by simpa using hcap)
          refine ⟨h1, h.brk + 1, by simp [e1], l1, by simpa using p1, s1, post.2.2.1, ?_⟩
          rw [post.2.1]; omega
        · by_cases hodd : count % 2 ≠ 0
          · -- odd: the first entry is woven with the redo of the others
            obtain ⟨m0, rest, rfl⟩ : ∃ m0 rest, used = m0 :: rest := by
              cases used with
              | nil => simp at hlen; omega
              | cons a t => exact ⟨a, t, rfl⟩
            have hrl : rest.length = count - 1 := by simp at hlen; omega
            have hlr : Live h (rest ++ (m0 :: others)) ys :=
              hl.permMops (by simpa using (@List.perm_middle _ m0 rest others).symm)
            simp only [List.flatMap_cons, List.length_append] at hcap
            obtain ⟨h1, R, e1, l1, p1, s1, n1, b1⟩ := ih (count - 1) (by omega) h rest extra
              (m0 :: others) ys hrl hlr (by omega)
            have hm0 : mopNodes h1 m0 = mopNodes h m0 := s1 m0 (List.mem_cons_self _ _)
            have hl1 : Live h1 (m0 :: R :: others) ys := l1.permMops (List.Perm.swap _ _ _)
            obtain ⟨h2, e2, l2, p2, s2, post⟩ := live_weave fuel h1 m0 R others ys hl1
              (by rw [hm0, p1.length_eq]; omega)
            refine ⟨h2, h1.brk + 1, ?_, l2, ?_, fun o ho => ?_, ?_, ?_⟩
            · simp [hc0, hc1, hc2, hodd, e1, e2, bind, Except.bind]
            · rw [List.flatMap_cons, ← hm0]
              exact p2.trans (p1.append_left _)
            · rw [s2 o ho, s1 o (List.mem_cons_of_mem _ ho)]
            · rw [post.2.2.1, n1]
            · rw [post.2.1]; omega
          · -- even: the redo of each half, then one weave
            have hhalf : count / 2 + count / 2 = count := by omega
            obtain ⟨u1, u2, rfl, hu1, hu2⟩ : ∃ u1 u2, used = u1 ++ u2 ∧ u1.length = count / 2
                ∧ u2.length = count / 2 :=
              ⟨used.take (count / 2), used.drop (count / 2), (List.take_append_drop _ _).symm,
                by simp [hlen]; omega, by simp [hlen]; omega⟩
            simp only [List.flatMap_append, List.length_append] at hcap
            have hl0 : Live h (u1 ++ (u2 ++ others)) ys := by simpa using hl
            obtain ⟨h1, L, e1, l1, p1, s1, n1, b1⟩ := ih (count / 2) (by omega) h u1
              (u2 ++ extra) (u2 ++ others) ys hu1 hl0 (by omega)
            have hu2n : u2.flatMap (mopNodes h1) = u2.flatMap (mopNodes h) :=
              flatMap_congr_mem _ _ _ (fun o ho => s1 o (List.mem_append_left _ ho))
            have hl1 : Live h1 (u2 ++ (L :: others)) ys :=
              l1.permMops (by simpa using (@List.perm_middle _ L u2 others).symm)
            obtain ⟨h2, R, e2, l2, p2, s2, n2, b2⟩ := ih (count / 2) (by omega) h1 u2
              extra (L :: others) ys hu2 hl1 (by rw [hu2n]; omega)
            have hL : mopNodes h2 L = mopNodes h1 L := s2 L (List.mem_cons_self _ _)
            have hl2 : Live h2 (L :: R :: others) ys := l2.permMops (List.Perm.swap _ _ _)
            obtain ⟨h3, e3, l3, p3, s3, post⟩ := live_weave fuel h2 L R others ys hl2
              (by rw [hL, p1.length_eq, p2.length_eq, hu2n]; omega)
            have hdrop : (u1 ++ (u2 ++ extra)).drop (count / 2) = u2 ++ extra := by
              rw [← hu1, List.drop_left]
            refine ⟨h3, h2.brk + 1, ?_, l3, ?_, fun o ho => ?_, ?_, ?_⟩
            · simp [hc0, hc1, hc2, hodd, e1, hdrop, e2, e3, bind, Except.bind]
            · rw [List.flatMap_append, ← hu2n]
              exact p3.trans ((hL ▸ p1).append p2)
            · rw [s3 o ho, s2 o (List.mem_cons_of_mem _ ho),
                s1 o (List.mem_append_right _ ho)]
            · rw [post.2.2.1, n2, n1]
            · rw [post.2.1]; omega

/-! ## Building a mop of integers -/

/-- `intMopNew` for a client: it now also holds a mop with one new cell whose
member `n` is the given value. -/
theorem intMopNew_spec (fuel : Nat) (h : Heap) (ms ys : List Nat) (v : Int)
    (hl : Live h ms ys) :
    ∃ h2 m y, intMopNew fuel h v = .ok (h2, m) ∧ Live h2 (m :: ms) ys
      ∧ mopNodes h2 m = [y] ∧ h2.n y = v
      ∧ (∀ o ∈ ms, mopNodes h2 o = mopNodes h o)
      ∧ (∀ a, a ≤ h.brk → h2.n a = h.n a) ∧ h.brk ≤ h2.brk := by
  obtain ⟨lA, sA⟩ := live_mopNew h ms ys hl
  have hbA : (mopNew h).1.brk = h.brk + 1 := rfl
  obtain ⟨lB, sB⟩ := live_yarnNew (mopNew h).1 ((h.brk + 1) :: ms) ys lA
  rw [hbA] at lB
  have hbB : (yarnNew (mopNew h).1).1.brk = h.brk + 2 := rfl
  obtain ⟨lC, sC⟩ := live_setN (yarnNew (mopNew h).1).1 ((h.brk + 1) :: ms) ((h.brk + 1 + 1) :: ys)
    (h.brk + 1 + 1) v lB
  have hn0 : mopNodes ((yarnNew (mopNew h).1).1.setN (h.brk + 1 + 1) v) (h.brk + 1) = [] := by
    rw [sC _ (List.mem_cons_self _ _), sB _ (List.mem_cons_self _ _), (wfMop_new h).2]
  obtain ⟨h2, e2, l2, p2, s2, n2, b2, _⟩ := live_absorb fuel _ (h.brk + 1) (h.brk + 1 + 1) ms ys lC
    (by rw [hn0]; decide)
  rw [hn0, List.nil_append] at p2
  refine ⟨h2, _, h.brk + 1 + 1, e2, l2, List.perm_singleton.mp p2, ?_, fun o ho => ?_,
    fun a ha => ?_, ?_⟩
  · rw [n2]; simp [Heap.setN]
  · rw [s2 o ho, sC o (List.mem_cons_of_mem _ ho), sB o (List.mem_cons_of_mem _ ho), sA o ho]
  · rw [n2]
    have h1 : a ≠ h.brk + 1 + 1 := by omega
    simp [Heap.setN, yarnNew, mopNew, Heap.setRoot, h1]
  · rw [b2]
    show h.brk ≤ h.brk + 2 + 2
    omega

/-- The loop of `intMopRedo` that fills `pMop`: each pass appends a mop with
one new cell holding the next value of `nv`. -/
theorem intMopFill_spec (fuel : Nat) (nv : List Int) :
    ∀ (todo i : Nat) (h : Heap) (pMop : List Nat), i + todo ≤ nv.length →
      Live h pMop [] → pMop.length = i →
      (pMop.flatMap (mopNodes h)).map h.n = nv.take i →
      (∀ m ∈ pMop, (mopNodes h m).length = 1) →
      ∃ h1 pMop1, intMopFill fuel nv todo i h pMop = .ok (h1, pMop1)
        ∧ Live h1 pMop1 [] ∧ pMop1.length = i + todo
        ∧ (pMop1.flatMap (mopNodes h1)).map h1.n = nv.take (i + todo)
        ∧ (∀ m ∈ pMop1, (mopNodes h1 m).length = 1) := by
  intro todo
  induction todo with
  | zero =>
    intro i h pMop _ hl hlen hv h1
    exact ⟨h, pMop, rfl, hl, hlen, hv, h1⟩
  | succ todo ih =>
    intro i h pMop hi hl hlen hv hone
    have hilt : i < nv.length := by omega
    have hget : nv[i]? = some nv[i] := List.getElem?_eq_getElem hilt
    obtain ⟨h2, m, y, e2, l2, n2, v2, s2, f2, b2⟩ := intMopNew_spec fuel h pMop [] nv[i] hl
    have hfl : pMop.flatMap (mopNodes h2) = pMop.flatMap (mopNodes h) :=
      flatMap_congr_mem _ _ _ s2
    have hmap : (pMop.flatMap (mopNodes h)).map h2.n = (pMop.flatMap (mopNodes h)).map h.n := by
      apply List.map_congr_left
      intro a ha
      exact f2 a (hl.2.2.2.2 a (by simpa using ha))
    obtain ⟨h3, pMop3, e3, l3, len3, v3, o3⟩ := ih (i + 1) h2 (pMop ++ [m]) (by omega)
      (l2.permMops (List.perm_append_singleton m pMop).symm) (by simp [hlen])
      (by
        rw [List.flatMap_append, List.map_append, hfl, hmap, hv, List.take_succ, hget]
        simp [n2, v2])
      (by
        intro x hx
        rcases List.mem_append.mp hx with hx | hx
        · rw [s2 x hx]; exact hone x hx
        · have : x = m := by simpa using hx
          subst this
          rw [n2]; rfl)
    refine ⟨h3, pMop3, ?_, l3, by rw [len3]; omega, ?_, o3⟩
    · simp [intMopFill, hget, e2, e3, bind, Except.bind]
    · rw [v3]; congr 1; omega

/-- The specification of `intMopRedo` for `size` values, `size < 2 ^ SIZELOG2`:
it returns a well-formed mop of `size` cells whose members `n` are, up to
order, the first `size` values of `nv`. -/
theorem intMopRedo_spec (fuel : Nat) (h : Heap) (size : Nat) (nv : List Int)
    (hs : size ≤ nv.length) (hcap : size < 2 ^ SIZELOG2) :
    ∃ h2 m, intMopRedo fuel h size nv = .ok (h2, m) ∧ Live h2 [m] []
      ∧ ((mopNodes h2 m).map h2.n).Perm (nv.take size)
      ∧ (mopNodes h2 m).length = size := by
  have hl0 : Live h [] [] := ⟨List.nodup_nil, fun _ hm => by simp at hm,
    fun _ hy => by simp at hy, by simp, fun _ ha => by simp at ha⟩
  obtain ⟨h1, pMop, e1, l1, len1, v1, _⟩ := intMopFill_spec fuel nv size 0 h [] (by omega) hl0 rfl
    (by simp) (fun _ hm => by simp at hm)
  rw [Nat.zero_add] at len1 v1
  have hcnt : (pMop.flatMap (mopNodes h1)).length = size := by
    have := congrArg List.length v1
    simpa [List.length_take, hs] using this
  obtain ⟨h2, m, e2, l2, p2, _, n2, _⟩ := mopRedo_spec fuel size h1 pMop [] [] [] len1
    (by simpa using l1) (by rw [hcnt]; exact hcap)
  rw [List.append_nil] at e2
  refine ⟨h2, m, by simp [intMopRedo, e1, e2, bind, Except.bind], l2, ?_, ?_⟩
  · rw [n2, ← v1]
    exact p2.map _
  · rw [p2.length_eq, hcnt]

/-! ## The element visitor and the test in `main` -/

theorem foldl_intYarnF (h : Heap) (nodes : List Nat) :
    ∀ out : List Int, (∀ a ∈ nodes, 0 ≤ h.n a ∧ (h.n a).toNat < out.length) →
      nodes.foldl (intYarnF h) (.ok out)
        = .ok ((nodes.map h.n).foldl (fun o v => o.set v.toNat v) out) := by
  induction nodes with
  | nil => intro out _; rfl
  | cons a t ih =>
    intro out hb
    have ha := hb a (List.mem_cons_self _ _)
    have e : intYarnF h (.ok out) a = .ok (out.set (h.n a).toNat (h.n a)) := by
      simp [intYarnF, ha, bind, Except.bind, pure, Except.pure]
    rw [List.foldl_cons, e, ih _ (fun b hbm => by
      simpa using hb b (List.mem_cons_of_mem _ hbm))]
    rfl

theorem foldl_set_get (vs : List Int) (hpos : ∀ v ∈ vs, 0 ≤ v) :
    ∀ (out : List Int) (i : Nat),
      (vs.foldl (fun o v => o.set v.toNat v) out)[i]?
        = if (i : Int) ∈ vs ∧ i < out.length then some (i : Int) else out[i]? := by
  induction vs with
  | nil => intro out i; simp
  | cons v t ih =>
    intro out i
    have hv := hpos v (List.mem_cons_self _ _)
    rw [List.foldl_cons, ih (fun w hw => hpos w (List.mem_cons_of_mem _ hw))]
    rw [List.length_set, List.getElem?_set]
    have hvi : v.toNat = i ↔ v = (i : Int) := by omega
    by_cases h1 : (i : Int) ∈ t
    · by_cases h2 : i < out.length
      · simp [h1, h2]
      · have : out[i]? = none := List.getElem?_eq_none (by omega)
        simp only [h1, h2, this, and_false, if_false, List.mem_cons, or_true]
        by_cases h6 : v.toNat = i
        · have : ¬ v.toNat < out.length := by omega
          simp [h6, this]
          omega
        · simp [h6]
    · by_cases h3 : v = (i : Int)
      · have h4 : v.toNat = i := hvi.mpr h3
        by_cases h2 : i < out.length
        · simp [h1, h2, h3, h4]
        · have : out[i]? = none := List.getElem?_eq_none (by omega)
          simp [h1, h2, h4, this]
      · have h4 : ¬ v.toNat = i := fun e => h3 (hvi.mp e)
        have h5 : ¬ (i : Int) = v := fun e => h3 e.symm
        simp [h1, h3, h4, h5]

theorem range_zero (n : Nat) : range 0 n = (List.range n).map (fun (i : Nat) => (i : Int)) := by
  simp [range]

/-- Writing each value of a permutation of `0 .. n - 1` at its own index of
a zeroed array of extent `n` gives the array `0, 1, .., n - 1`. -/
theorem foldl_set_range (n : Nat) (vs : List Int) (hp : vs.Perm (range 0 n)) :
    vs.foldl (fun o v => o.set v.toNat v) (List.replicate n 0) = range 0 n := by
  have hmem : ∀ v, v ∈ vs ↔ ∃ i, i < n ∧ (i : Int) = v := by
    intro v
    rw [hp.mem_iff, range_zero]
    simp only [List.mem_map, List.mem_range]
  apply List.ext_getElem?
  intro i
  rw [foldl_set_get vs (fun v hv => by
    obtain ⟨j, _, e⟩ := (hmem v).mp hv
    omega)]
  rw [range_zero]
  by_cases hi : i < n
  · have : (i : Int) ∈ vs := (hmem _).mpr ⟨i, hi, rfl⟩
    rw [List.getElem?_map, List.getElem?_range hi]
    simp [this, hi]
  · have : ¬ (i : Int) ∈ vs := by
      intro hm
      obtain ⟨j, hj, e⟩ := (hmem _).mp hm
      omega
    rw [List.getElem?_eq_none (by simp; omega), List.getElem?_eq_none (by simp; omega)]
    simp [this]

theorem assertEqual_self (l : List Int) :
    ∀ todo i, i + todo ≤ l.length → assertEqual l l todo i = .ok () := by
  intro todo
  induction todo with
  | zero => intro i _; rfl
  | succ todo ih =>
    intro i hi
    have hget : l[i]? = some l[i] := List.getElem?_eq_getElem (by omega)
    simp [assertEqual, hget, ih (i + 1) (by omega)]

/-- C2, the round trip of build and traverse.  For every list `nv` of at
most `2 ^ 31 - 1` values, `intMopRedo` returns a mop; wringing it visits
every cell once, and the members `n` of the visited cells are a permutation
of `nv`.  When `nv` is `range(0, n)`, the element visitor fills a zeroed
array of extent `n` with `0, 1, .., n - 1`, and the test of `main` for the
argument `n` runs to its end: no assertion fails. -/
theorem round_trip (fuel : Nat) (h : Heap) (hf : SIZELOG2 ≤ fuel) (nv : List Int)
    (hn : nv.length ≤ 2 ^ 31 - 1) :
    ∃ h1 m t, intMopRedo fuel h nv.length nv = .ok (h1, m)
      ∧ mopWring fuel h1 m traceBucket [] = .ok t
      ∧ (yarnCalls t).Nodup ∧ ((yarnCalls t).map h1.n).Perm nv
      ∧ (nv = range 0 nv.length →
          mopWring fuel h1 m (intBucket h1) (.ok (List.replicate nv.length 0)) = .ok (.ok nv)
            ∧ ∃ h2, mainTest fuel h nv.length = .ok h2) := by
  have hcap : nv.length < 2 ^ SIZELOG2 := by
    have : (2 : Nat) ^ SIZELOG2 = 2 ^ 31 := rfl
    omega
  obtain ⟨h1, m, e1, l1, p1, c1⟩ := intMopRedo_spec fuel h nv.length nv (le_refl _) hcap
  rw [List.take_length] at p1
  have hw : WfMop h1 m := (l1.2.1 m (List.mem_cons_self _ _)).2
  have hfk : (h1.mop m).knot < fuel := by have := hw.2.1; omega
  have ht := mopWring_trace fuel h1 m hw.1 hw.2.1 hw.2.2.1.1 hfk
  refine ⟨h1, m, _, e1, ht, ?_, ?_, fun hr => ?_⟩
  · rw [yarnCalls_trace]; exact hw.2.2.1.2
  · rw [yarnCalls_trace]; exact p1
  · have hb : ∀ a ∈ mopNodes h1 m, 0 ≤ h1.n a
        ∧ (h1.n a).toNat < (List.replicate nv.length (0 : Int)).length := by
      intro a ha
      have hm : h1.n a ∈ range 0 nv.length := by
        rw [← hr]
        exact p1.mem_iff.mp (List.mem_map_of_mem _ ha)
      rw [range_zero] at hm
      obtain ⟨i, hi, e⟩ := List.mem_map.mp hm
      rw [List.mem_range] at hi
      rw [List.length_replicate, ← e]
      omega
    have hwr : mopWring fuel h1 m (intBucket h1) (.ok (List.replicate nv.length 0))
        = .ok (.ok nv) := by
      rw [mopWring_spec fuel h1 m (intBucket h1) _ hw.1 hw.2.1 hw.2.2.1.1 hfk]
      have e2 : (mopNodes h1 m).foldl (intBucket h1).yarnF (.ok (List.replicate nv.length 0))
          = .ok (((mopNodes h1 m).map h1.n).foldl (fun o v => o.set v.toNat v)
              (List.replicate nv.length 0)) := foldl_intYarnF h1 _ _ hb
      rw [e2, foldl_set_range nv.length _ (hr ▸ p1), ← hr]
      rfl
    refine ⟨hwr, ?_⟩
    have hsz : (((nv.length : Nat) : Int) - 0).toNat = nv.length := by simp
    have hd := mopDelete_spec fuel h1 m hw.1 hw.2.1 hw.2.2.1.1 hfk
    refine ⟨{ h1 with freed := h1.freed ++ mopNodes h1 m ++ [m] }, ?_⟩
    simp only [mainTest, hsz, ← hr, e1, hwr, hd, assertEqual_self nv nv.length 0 (by omega),
      bind, Except.bind, pure, Except.pure]

theorem round_trip_witness :
    ∃ h1 m t, intMopRedo 31 Heap.empty [0, 1, 2].length [0, 1, 2] = .ok (h1, m)
      ∧ mopWring 31 h1 m traceBucket [] = .ok t
      ∧ (yarnCalls t).Nodup ∧ ((yarnCalls t).map h1.n).Perm [0, 1, 2]
      ∧ ([0, 1, 2] = range 0 [0, 1, 2].length →
          mopWring 31 h1 m (intBucket h1) (.ok (List.replicate [0, 1, 2].length 0))
              = .ok (.ok [0, 1, 2])
            ∧ ∃ h2, mainTest 31 Heap.empty [0, 1, 2].length = .ok h2) :=
  round_trip 31 Heap.empty (by decide) [0, 1, 2] (by decide)

theorem flatMap_length_one (h : Heap) (l : List Nat)
    (hone : ∀ m ∈ l, (mopNodes h m).length = 1) : (l.flatMap (mopNodes h)).length = l.length := by
  induction l with
  | nil => rfl
  | cons a t ih =>
    rw [List.flatMap_cons, List.length_append, hone a (List.mem_cons_self _ _),
      ih (fun m hm => hone m (List.mem_cons_of_mem _ hm)), List.length_cons]
    omega

/-- C4, the cardinality law.  A client holds `a + b ≤ 2 ^ 31 - 1` mops of
one cell each, listed as `ls` and `rs`.  `mopRedo` returns on `ls` and then
on `rs`, `mopWeave` returns on the two results, and `mopWring` on the woven
mop calls `yarnF` exactly `a + b` times. -/
theorem cardinality_law (fuel : Nat) (h : Heap) (hf : SIZELOG2 ≤ fuel) (ls rs ys : List Nat)
    (hl : Live h (ls ++ rs) ys) (hone : ∀ m ∈ ls ++ rs, (mopNodes h m).length = 1)
    (hcap : ls.length + rs.length ≤ 2 ^ 31 - 1) :
    ∃ h1 ma h2 mb h3 m t, mopRedo fuel h ls ls.length = .ok (h1, ma)
      ∧ mopRedo fuel h1 rs rs.length = .ok (h2, mb)
      ∧ mopWeave fuel h2 ma mb = .ok (h3, m)
      ∧ mopWring fuel h3 m traceBucket [] = .ok t
      ∧ (yarnCalls t).length = ls.length + rs.length := by
  have hp : (2 : Nat) ^ SIZELOG2 = 2 ^ 31 := rfl
  have ca : (ls.flatMap (mopNodes h)).length = ls.length :=
    flatMap_length_one h ls (fun m hm => hone m (List.mem_append_left _ hm))
  have cb : (rs.flatMap (mopNodes h)).length = rs.length :=
    flatMap_length_one h rs (fun m hm => hone m (List.mem_append_right _ hm))
  obtain ⟨h1, ma, e1, l1, p1, s1, _, _⟩ := mopRedo_spec fuel ls.length h ls [] rs ys rfl hl
    (by rw [ca, hp]; omega)
  rw [List.append_nil] at e1
  have cb1 : rs.flatMap (mopNodes h1) = rs.flatMap (mopNodes h) :=
    flatMap_congr_mem _ _ _ s1
  obtain ⟨h2, mb, e2, l2, p2, s2, _, _⟩ := mopRedo_spec fuel rs.length h1 rs [] [ma] ys rfl
    (l1.permMops (List.perm_append_singleton ma rs).symm) (by rw [cb1, cb, hp]; omega)
  rw [List.append_nil] at e2
  have hma : mopNodes h2 ma = mopNodes h1 ma := s2 ma (List.mem_singleton_self _)
  obtain ⟨h3, e3, l3, p3, _, _⟩ := live_weave fuel h2 ma mb [] ys (l2.permMops (List.Perm.swap _ _ _))
    (by rw [hma, p1.length_eq, p2.length_eq, cb1, ca, cb, hp]; omega)
  have hw : WfMop h3 (h2.brk + 1) := (l3.2.1 _ (List.mem_cons_self _ _)).2
  have ht := mopWring_trace fuel h3 (h2.brk + 1) hw.1 hw.2.1 hw.2.2.1.1
    (by have := hw.2.1; omega)
  refine ⟨h1, ma, h2, mb, h3, _, _, e1, e2, e3, ht, ?_⟩
  rw [yarnCalls_trace, p3.length_eq, List.length_append, hma, p1.length_eq, p2.length_eq, cb1,
    ca, cb]

theorem cardinality_law_witness :
    ∃ h1 ma h2 mb h3 m t, mopRedo 31 exHeap [5] [5].length = .ok (h1, ma)
      ∧ mopRedo 31 h1 [7] [7].length = .ok (h2, mb)
      ∧ mopWeave 31 h2 ma mb = .ok (h3, m)
      ∧ mopWring 31 h3 m traceBucket [] = .ok t
      ∧ (yarnCalls t).length = [5].length + [7].length :=
  cardinality_law 31 exHeap (by decide) [5] [7] [] (by decide) (by decide) (by decide)

/-- C5, absorb as increment.  For a well-formed mop `m` of fewer than
`2 ^ 31 - 1` cells, all allocated, and the fresh leaf `y` that `yarnNew`
returns, `mopAbsorb` returns a mop; wringing it visits the cells of `m` and
`y`, each once, and its occupied slots are the binary digits of the number of
cells of `m` plus one. -/
theorem absorb_increment (fuel : Nat) (h : Heap) (m : Nat) (hf : SIZELOG2 ≤ fuel)
    (hm : WfMop h m) (hmb : m ≤ h.brk) (hnb : ∀ a ∈ mopNodes h m, a ≤ h.brk)
    (hcap : (mopNodes h m).length < 2 ^ 31 - 1) :
    ∃ tm h2 m2 t, mopWring fuel h m traceBucket [] = .ok tm
      ∧ mopAbsorb fuel (yarnNew h).1 m (yarnNew h).2 = .ok (h2, m2)
      ∧ mopWring fuel h2 m2 traceBucket [] = .ok t
      ∧ (yarnCalls t).Perm (yarnCalls tm ++ [(yarnNew h).2])
      ∧ (yarnCalls t).Nodup
      ∧ ∀ k, k < SIZELOG2 →
          ((h2.mop m2).y k ≠ 0 ↔ ((yarnCalls tm).length + 1).testBit k = true) := by
  have hp : (2 : Nat) ^ SIZELOG2 = 2 ^ 31 := rfl
  have hl : Live h [m] [] := by
    refine ⟨List.nodup_singleton m, fun x hx => ?_, fun _ hy => by simp at hy, ?_, ?_⟩
    · have : x = m := by simpa using hx
      subst this; exact ⟨hmb, hm⟩
    · simpa using hm.2.2.1.2
    · simpa using hnb
  obtain ⟨l1, s1⟩ := live_yarnNew h [m] [] hl
  have hy : (yarnNew h).2 = h.brk + 1 := rfl
  have hsm : mopNodes (yarnNew h).1 m = mopNodes h m := s1 m (List.mem_singleton_self _)
  obtain ⟨h2, e2, l2, p2, _⟩ := live_absorb fuel (yarnNew h).1 m (h.brk + 1) [] [] l1
    (by rw [hsm, hp]; omega)
  have hw : WfMop h2 ((yarnNew h).1.brk + 2) := (l2.2.1 _ (List.mem_cons_self _ _)).2
  have ht := mopWring_trace fuel h2 _ hw.1 hw.2.1 hw.2.2.1.1 (by have := hw.2.1; omega)
  have htm := mopWring_trace fuel h m hm.1 hm.2.1 hm.2.2.1.1 (by have := hm.2.1; omega)
  rw [hsm] at p2
  refine ⟨_, h2, _, _, htm, e2, ht, ?_, ?_, fun k hk => ?_⟩
  · rw [yarnCalls_trace, yarnCalls_trace]; exact p2
  · rw [yarnCalls_trace]; exact hw.2.2.1.2
  · rw [yarnCalls_trace, wf_bits h2 _ hw k hk, p2.length_eq]
    simp

theorem absorb_increment_witness :
    ∃ tm h2 m2 t, mopWring 31 exHeap 6 traceBucket [] = .ok tm
      ∧ mopAbsorb 31 (yarnNew exHeap).1 6 (yarnNew exHeap).2 = .ok (h2, m2)
      ∧ mopWring 31 h2 m2 traceBucket [] = .ok t
      ∧ (yarnCalls t).Perm (yarnCalls tm ++ [(yarnNew exHeap).2])
      ∧ (yarnCalls t).Nodup
      ∧ ∀ k, k < SIZELOG2 →
          ((h2.mop m2).y k ≠ 0 ↔ ((yarnCalls tm).length + 1).testBit k = true) :=
  absorb_increment 31 exHeap 6 (by decide) (by decide) (by decide) (by decide) (by decide)

/-! ## Calls that returned -/

theorem Live.perm_loose {h : Heap} {ms ys ys1 : List Nat} (hl : Live h ms ys)
    (hp : ys.Perm ys1) : Live h ms ys1 := by
  obtain ⟨a1, a2, a3, a4, a5⟩ := hl
  have hp2 : (ys ++ ms.flatMap (mopNodes h)).Perm (ys1 ++ ms.flatMap (mopNodes h)) :=
    hp.append_right _
  exact ⟨a1, a2, fun y hy => a3 y (hp.mem_iff.mpr hy), hp2.nodup_iff.mp a4,
    fun a ha => a5 a (hp2.mem_iff.mpr ha)⟩

/-- A `mopWeave` on two held mops that returned leaves the client invariant
in place. -/
theorem live_weave_of_ok (fuel : Nat) (h h1 : Heap) (l r m1 : Nat) (others ys : List Nat)
    (hl : Live h (l :: r :: others) ys) (he : mopWeave fuel h l r = .ok (h1, m1)) :
    Live h1 (m1 :: others) ys := by
  by_cases hcap : (mopNodes h l).length + (mopNodes h r).length < 2 ^ SIZELOG2
  · obtain ⟨h2, e2, l2, _⟩ := live_weave fuel h l r others ys hl hcap
    rw [e2] at he
    cases he
    exact l2
  · exfalso
    have hlr : l ≠ r := by
      intro e; subst e
      exact (List.nodup_cons.mp hl.1).1 (List.mem_cons_self _ _)
    have hwl := hl.2.1 l (List.mem_cons_self _ _)
    have hwr := hl.2.1 r (List.mem_cons_of_mem _ (List.mem_cons_self _ _))
    have hd : (mopNodes h l ++ mopNodes h r).Nodup := by
      have a4 := hl.2.2.2.1
      simp only [List.flatMap_cons] at a4
      have := (List.nodup_append.mp a4).2.1
      rw [← List.append_assoc] at this
      exact (List.nodup_append.mp this).1
    rw [(mopWeave_spec fuel h l r hlr hwl.1 hwr.1 hwl.2 hwr.2 hd).2 (by omega)] at he
    cases he

/-- The first half of `mopAbsorb`: after the new mop `d` got `d->y[0] = y`,
the client holds `d` in place of the loose leaf `y`. -/
theorem absorb_setup (h : Heap) (m y : Nat) (others ys : List Nat)
    (hl : Live h (m :: others) (y :: ys)) :
    Live ((mopNew h).1.setY (h.brk + 1) 0 y) (m :: (h.brk + 1) :: others) ys := by
  have hy0 : yarnShape h.yarn 0 y := hl.2.2.1 y (List.mem_cons_self _ _)
  have hyne : y ≠ 0 := yarnShape_ne_zero hy0
  have hl1 : Live h (m :: others) ys := hl.drop_loose
  obtain ⟨a1, a2, a3, a4, a5⟩ := hl
  set h0 := (mopNew h).1.setY (h.brk + 1) 0 y with hh0
  have hbrk0 : h0.brk = h.brk + 1 := by simp [hh0, mopNew, Heap.setY]
  have hfr := hl1.frameLive h0 (by omega)
    (fun x hx => by
      have : x ≠ h.brk + 1 := by have := (hl1.2.1 x hx).1; omega
      simp [hh0, mopNew, Heap.setY, this])
    (fun a _ => rfl)
  obtain ⟨⟨b1, b2, b3, b4, b5⟩, hsame⟩ := hfr
  have hdk : (h0.mop (h.brk + 1)).knot = 0 := by simp [hh0, mopNew, Heap.setY]
  have hdy : ∀ j, (h0.mop (h.brk + 1)).y j = if j = 0 then y else 0 := by
    intro j; simp [hh0, mopNew, Heap.setY]
  have hdi : mopItems h0 (h.brk + 1) = [(0, y)] := by
    simp [mopItems, hdk, slotItems, hdy, item_ne hyne]
  have hdn : mopNodes h0 (h.brk + 1) = [y] := by
    simp [mopNodes, hdi, itemNodes_cons, itemNodes_nil, yarnNodes, yarnSub]
  have hdw : WfMop h0 (h.brk + 1) := by
    refine ⟨by omega, by rw [hdk]; decide, ?_, fun k _ hk => ?_, Or.inl hdk⟩
    · rw [hdi]
      refine ⟨fun it hit => ?_, ?_⟩
      · have : it = (0, y) := by simpa using hit
        subst this
        exact hy0
      · simp [itemNodes_cons, itemNodes_nil, yarnNodes, yarnSub]
    · rw [hdy k, hdk] at *
      have : k ≠ 0 := by omega
      simp [this]
  have hsm : mopNodes h0 m = mopNodes h m := hsame m (List.mem_cons_self _ _)
  have hso : others.flatMap (mopNodes h0) = others.flatMap (mopNodes h) :=
    flatMap_congr_mem _ _ _ (fun o ho => hsame o (List.mem_cons_of_mem _ ho))
  have hperm : (ys ++ (m :: (h.brk + 1) :: others).flatMap (mopNodes h0)).Perm
      ((y :: ys) ++ (m :: others).flatMap (mopNodes h)) := by
    simp only [List.flatMap_cons, hdn, hsm, hso]
    refine List.perm_iff_count.mpr (fun x => ?_)
    simp only [List.count_append, List.count_cons, List.count_nil]
    omega
  refine ⟨?_, ?_, b3, hperm.nodup_iff.mpr a4, fun a ha => ?_⟩
  · have hm1 : m ≠ h.brk + 1 := by have := (a2 m (List.mem_cons_self _ _)).1; omega
    have hd1 : h.brk + 1 ∉ others := fun hm => by
      have := (a2 _ (List.mem_cons_of_mem _ hm)).1
      omega
    have := List.nodup_cons.mp a1
    exact List.nodup_cons.mpr ⟨by simp [hm1, this.1], List.nodup_cons.mpr ⟨hd1, this.2⟩⟩
  · intro x hx
    rcases List.mem_cons.mp hx with e | hx
    · subst e; exact b2 x (List.mem_cons_self _ _)
    · rcases List.mem_cons.mp hx with e | hx
      · subst e; exact ⟨by omega, hdw⟩
      · exact b2 x (List.mem_cons_of_mem _ hx)
  · have := a5 a (hperm.mem_iff.mp ha)
    omega

/-- A `mopAbsorb` on a held mop and a held loose leaf that returned leaves the
client invariant in place. -/
theorem live_absorb_of_ok (fuel : Nat) (h h1 : Heap) (m y m1 : Nat) (others ys : List Nat)
    (hl : Live h (m :: others) (y :: ys)) (he : mopAbsorb fuel h m y = .ok (h1, m1)) :
    Live h1 (m1 :: others) ys :=
  live_weave_of_ok fuel _ h1 m (h.brk + 1) m1 others ys (absorb_setup h m y others ys hl) he

/-- A `mopRedo` on held mops that returned leaves the client invariant in
place. -/
theorem live_redo_of_ok (fuel : Nat) :
    ∀ (count : Nat) (h h1 : Heap) (m1 : Nat) (used extra others ys : List Nat),
      used.length = count → Live h (used ++ others) ys →
      mopRedo fuel h (used ++ extra) count = .ok (h1, m1) → Live h1 (m1 :: others) ys := by
  intro count
  induction count using Nat.strong_induction_on with
  | _ count ih =>
    intro h h1 m1 used extra others ys hlen hl he
    rw [mopRedo] at he
    by_cases hc0 : count = 0
    · subst hc0
      have : used = [] := List.length_eq_zero.mp hlen
      subst this
      simp only [if_true, pure, Except.pure] at he
      cases he
      exact (live_mopNew h others ys (by simpa using hl)).1
    · by_cases hc1 : count = 1
      · subst hc1
        obtain ⟨m0, rfl⟩ : ∃ m0, used = [m0] := List.length_eq_one.mp hlen
        simp [pure, Except.pure] at he
        obtain ⟨rfl, rfl⟩ := he
        simpa using hl
      · by_cases hc2 : count = 2
        · subst hc2
          obtain ⟨m0, m2, rfl⟩ : ∃ m0 m2, used = [m0, m2] := List.length_eq_two.mp hlen
          simp at he
          exact live_weave_of_ok fuel h h1 m0 m2 m1 others ys (by simpa using hl) he
        · by_cases hodd : count % 2 ≠ 0
          · obtain ⟨m0, rest, rfl⟩ : ∃ m0 rest, used = m0 :: rest := by
              cases used with
              | nil => simp at hlen; omega
              | cons a t => exact ⟨a, t, rfl⟩
            have hrl : rest.length = count - 1 := by simp at hlen; omega
            have hlr : Live h (rest ++ (m0 :: others)) ys :=
              hl.permMops (by simpa using (@List.perm_middle _ m0 rest others).symm)
            simp only [hc0, hc1, hc2, hodd, if_false, if_true, ne_eq, not_false_eq_true,
              List.cons_append, List.getElem?_cons_zero, List.drop_succ_cons, List.drop_zero,
              bind, Except.bind] at he
            cases hsub : mopRedo fuel h (rest ++ extra) (count - 1) with
            | error e => rw [hsub] at he; cases he
            | ok p =>
              rw [hsub] at he
              have l1 := ih (count - 1) (by omega) h p.1 p.2 rest extra (m0 :: others) ys hrl hlr
                hsub
              exact live_weave_of_ok fuel p.1 h1 m0 p.2 m1 others ys
                (l1.permMops (List.Perm.swap _ _ _)) he
          · have hhalf : count / 2 + count / 2 = count := by omega
            obtain ⟨u1, u2, rfl, hu1, hu2⟩ : ∃ u1 u2, used = u1 ++ u2 ∧ u1.length = count / 2
                ∧ u2.length = count / 2 :=
              ⟨used.take (count / 2), used.drop (count / 2), (List.take_append_drop _ _).symm,
                by simp [hlen]; omega, by simp [hlen]; omega⟩
            have hl0 : Live h (u1 ++ (u2 ++ others)) ys := by simpa using hl
            have hdrop : (u1 ++ (u2 ++ extra)).drop (count / 2) = u2 ++ extra := by
              rw [← hu1, List.drop_left]
            simp only [hc0, hc1, hc2, hodd, if_false, List.append_assoc, hdrop, bind,
              Except.bind] at he
            cases hsub1 : mopRedo fuel h (u1 ++ (u2 ++ extra)) (count / 2) with
            | error e => rw [hsub1] at he; cases he
            | ok p =>
              rw [hsub1] at he
              dsimp only at he
              have l1 := ih (count / 2) (by omega) h p.1 p.2 u1 (u2 ++ extra) (u2 ++ others) ys
                hu1 hl0 hsub1
              have l1b : Live p.1 (u2 ++ (p.2 :: others)) ys :=
                l1.permMops (by simpa using (@List.perm_middle _ p.2 u2 others).symm)
              cases hsub2 : mopRedo fuel p.1 (u2 ++ extra) (count / 2) with
              | error e => rw [hsub2] at he; cases he
              | ok q =>
                rw [hsub2] at he
                have l2 := ih (count / 2) (by omega) p.1 q.1 q.2 u2 extra (p.2 :: others) ys
                  hu2 l1b hsub2
                exact live_weave_of_ok fuel q.1 h1 p.2 q.2 m1 others ys
                  (l2.permMops (List.Perm.swap _ _ _)) he

theorem perm_filter_not_mem (ms mops : List Nat) (hms : ms.Nodup) (hmops : mops.Nodup)
    (hsub : ∀ m ∈ mops, m ∈ ms) : ms.Perm (mops ++ ms.filter (fun m => m ∉ mops)) := by
  have h1 : (ms.filter (fun m => m ∈ mops)).Perm mops := by
    refine (List.perm_ext_iff_of_nodup (hms.filter _) hmops).mpr (fun a => ?_)
    simp only [List.mem_filter, decide_eq_true_eq]
    exact ⟨fun ha => ha.2, fun ha => ⟨hsub a ha, ha⟩⟩
  have h2 := List.filter_append_perm (fun m => decide (m ∈ mops)) ms
  refine h2.symm.trans (h1.append ?_)
  have : (fun x => !decide (x ∈ mops)) = (fun m => decide (m ∉ mops)) := by
    funext x; simp
  rw [this]

/-- Every state a client can reach satisfies the client invariant. -/
theorem reach_live {h : Heap} {ms ys : List Nat} (hr : Reach h ms ys) : Live h ms ys := by
  induction hr with
  | start h =>
    exact ⟨List.nodup_nil, fun _ hm => by simp at hm, fun _ hy => by simp at hy, by simp,
      fun _ ha => by simp at ha⟩
  | mopNew _ ih => exact (live_mopNew _ _ _ ih).1
  | yarnNew _ ih => exact (live_yarnNew _ _ _ ih).1
  | setN y v _ ih => exact (live_setN _ _ _ y v ih).1
  | mopAbsorb fuel _ hm hy he ih =>
    exact live_absorb_of_ok fuel _ _ _ _ _ _ _
      ((ih.permMops (List.perm_cons_erase hm)).perm_loose (List.perm_cons_erase hy)) he
  | mopWeave fuel _ hl hr hlr he ih =>
    have hr2 := (List.mem_erase_of_ne (Ne.symm hlr)).mpr hr
    exact live_weave_of_ok fuel _ _ _ _ _ _ _
      (ih.permMops ((List.perm_cons_erase hl).trans ((List.perm_cons_erase hr2).cons _))) he
  | mopRedo fuel mops _ hnd hsub he ih =>
    refine live_redo_of_ok fuel mops.length _ _ _ mops [] _ _ rfl
      (ih.permMops (perm_filter_not_mem _ mops ih.1 hnd hsub)) ?_
    rw [List.append_nil]
    exact he

/-- C3, the binary-representation invariant.  In every state a client can
reach, each mop `m` it holds can be wrung, and for every `k` in `0 .. 30` the
slot `y[k]` of `m` is occupied if and only if bit `k` of the number of
`yarnF` calls of that wring, the number of elements of `m`, is set. -/
theorem binary_representation (h : Heap) (ms ys : List Nat) (hr : Reach h ms ys) (m : Nat)
    (hm : m ∈ ms) (fuel : Nat) (hf : SIZELOG2 ≤ fuel) :
    ∃ t, mopWring fuel h m traceBucket [] = .ok t
      ∧ ∀ k, k < SIZELOG2 →
          ((h.mop m).y k ≠ 0 ↔ (yarnCalls t).length.testBit k = true) := by
  have hw : WfMop h m := ((reach_live hr).2.1 m hm).2
  refine ⟨_, mopWring_trace fuel h m hw.1 hw.2.1 hw.2.2.1.1 (by have := hw.2.1; omega),
    fun k hk => ?_⟩
  rw [yarnCalls_trace]
  exact wf_bits h m hw k hk

theorem binary_representation_witness :
    ∃ t, mopWring 31 exAbsorbed.1 exAbsorbed.2 traceBucket [] = .ok t
      ∧ ∀ k, k < SIZELOG2 →
          ((exAbsorbed.1.mop exAbsorbed.2).y k ≠ 0 ↔ (yarnCalls t).length.testBit k = true) :=
  binary_representation exAbsorbed.1 [exAbsorbed.2] []
    (@Reach.mopAbsorb (yarnNew (mopNew Heap.empty).1).1 exAbsorbed.1 [1] [2] 1 2 exAbsorbed.2 0
      (Reach.yarnNew (Reach.mopNew (Reach.start Heap.empty))) (by decide) (by decide) rfl)
    exAbsorbed.2 (List.mem_singleton_self _) 31 (by decide)

/-! ## Claims about the wring order of a woven yarn and the base cases of `mopRedo` -/

/-- C20, the traversal order of a woven yarn.  For two well-formed yarns `l`
and `r` of the same knot that share no cell, the wring of each visits some
cells `sl`, `sr` and then its root; `yarnWeave` returns, and the wring of the
woven yarn visits `sr`, then `sl`, then `r`, then `l`. -/
theorem woven_traversal_order (fuel : Nat) (h : Heap) (k l r : Nat)
    (hl : WfYarn h.yarn k l) (hr : WfYarn h.yarn k r)
    (hnd : (yarnNodes h.yarn k l ++ yarnNodes h.yarn k r).Nodup) (hf : k + 1 < fuel) :
    ∃ sl sr h1 y, yarnWring fuel h l traceBucket [] = .ok ((sl ++ [l]).map Call.yarn)
      ∧ yarnWring fuel h r traceBucket [] = .ok ((sr ++ [r]).map Call.yarn)
      ∧ yarnWeave h l r = .ok (h1, y)
      ∧ yarnWring fuel h1 y traceBucket [] = .ok ((sr ++ sl ++ [r, l]).map Call.yarn) := by
  obtain ⟨h1, e1, s1, n1, _⟩ := yarnWeave_spec h k l r hl.1 hr.1 hnd
  refine ⟨yarnSub h.yarn k l, yarnSub h.yarn k r, h1, l, ?_, ?_, e1, ?_⟩
  · rw [yarnWring_yarn h traceBucket k fuel l [] hl.1 (by omega), foldl_trace_yarn]
    simp [yarnNodes]
  · rw [yarnWring_yarn h traceBucket k fuel r [] hr.1 (by omega), foldl_trace_yarn]
    simp [yarnNodes]
  · rw [yarnWring_yarn h1 traceBucket (k + 1) fuel l [] s1 hf, foldl_trace_yarn, n1]
    simp

theorem woven_traversal_order_witness :
    ∃ sl sr h1 y, yarnWring 31 exHeap 2 traceBucket [] = .ok ((sl ++ [2]).map Call.yarn)
      ∧ yarnWring 31 exHeap 1 traceBucket [] = .ok ((sr ++ [1]).map Call.yarn)
      ∧ yarnWeave exHeap 2 1 = .ok (h1, y)
      ∧ yarnWring 31 h1 y traceBucket [] = .ok ((sr ++ sl ++ [1, 2]).map Call.yarn) :=
  woven_traversal_order 31 exHeap 0 2 1 (by decide) (by decide) (by decide) (by decide)

/-- C13, the base cases of the batch builder.  With `count == 0`, `mopRedo`
returns what `mopNew` returns, whatever the array holds: a new header with
every slot null, whose wring makes no `yarnF` call, and no other header is
written.  With `count == 1` it returns `mops[0]` and the heap as it was. -/
theorem redo_base_cases (fuel : Nat) (h : Heap) :
    (∀ mops, mopRedo fuel h mops 0 = .ok (mopNew h)
        ∧ (∀ k, ((mopNew h).1.mop (mopNew h).2).y k = 0)
        ∧ ((mopNew h).1.mop (mopNew h).2).knot = 0
        ∧ mopWring fuel (mopNew h).1 (mopNew h).2 traceBucket [] = .ok [Call.mop (mopNew h).2]
        ∧ (∀ m, m ≠ (mopNew h).2 → (mopNew h).1.mop m = h.mop m)
        ∧ (mopNew h).1.yarn = h.yarn ∧ (mopNew h).1.freed = h.freed)
      ∧ ∀ m0 rest, mopRedo fuel h (m0 :: rest) 1 = .ok (h, m0) := by
  refine ⟨fun mops => ⟨?_, fun k => ?_, ?_, ?_, fun m hm => ?_, rfl, rfl⟩, fun m0 rest => ?_⟩
  · rw [mopRedo]; rfl
  · simp [mopNew]
  · simp [mopNew]
  · have hm : (mopNew h).2 ≠ 0 := by simp [mopNew]
    simp [mopWring, mopWringLoop, mopNew, SIZELOG2, traceBucket, bind, Except.bind, pure,
      Except.pure]
  · have hm2 : m ≠ h.brk + 1 := hm
    simp [mopNew, hm2]
  · rw [mopRedo]; simp [pure, Except.pure]

/-! ## The loop body of `mopWeave` on any heap -/

/-- The switch of `mopWeave` as a decision on which of the slot of `left`,
the carry and the slot of `right` are null. -/
theorem weaveSwitch_eq (h : Heap) (l r m k c : Nat) :
    weaveSwitch h l r m k c =
      if (h.mop l).y k = 0 then
        if c = 0 then
          if (h.mop r).y k = 0 then .ok (h, c)
          else .ok (h.setY m k ((h.mop r).y k), c)
        else
          if (h.mop r).y k = 0 then .ok (h.setY m k c, 0)
          else yarnWeave (h.setY m k 0) c (((h.setY m k 0).mop r).y k)
      else
        if c = 0 then
          if (h.mop r).y k = 0 then .ok (h.setY m k ((h.mop l).y k), c)
          else yarnWeave (h.setY m k 0) (((h.setY m k 0).mop l).y k)
            (((h.setY m k 0).mop r).y k)
        else
          if (h.mop r).y k = 0 then yarnWeave (h.setY m k 0) (((h.setY m k 0).mop l).y k) c
          else yarnWeave (h.setY m k c) (((h.setY m k c).mop l).y k)
            (((h.setY m k c).mop r).y k) := by
  by_cases hL : (h.mop l).y k = 0 <;> by_cases hC : c = 0 <;> by_cases hR : (h.mop r).y k = 0 <;>
    simp [weaveSwitch, weaveKind, hL, hC, hR, pure, Except.pure]

/-- What a `yarnWeave` that returned has done: it returns its first argument,
both arguments are non-null, and it wrote yarn cells only. -/
theorem yarnWeave_inv (h h1 : Heap) (a b c : Nat) (he : yarnWeave h a b = .ok (h1, c)) :
    c = a ∧ a ≠ 0 ∧ b ≠ 0 ∧ h1.mop = h.mop ∧ h1.n = h.n ∧ h1.brk = h.brk
      ∧ h1.freed = h.freed := by
  unfold yarnWeave at he
  split_ifs at he with h1 h2 h3
  simp only [Except.ok.injEq, Prod.mk.injEq] at he
  obtain ⟨rfl, rfl⟩ := he
  push_neg at h1
  exact ⟨rfl, h1.1, h1.2, rfl, rfl, rfl, rfl⟩

/-- `yarnWeave` reads and writes yarn cells only: the mop headers of the heap
do not matter to it. -/
theorem yarnWeave_setY (h : Heap) (m k v a b : Nat) :
    yarnWeave (h.setY m k v) a b
      = match yarnWeave h a b with
        | .error e => .error e
        | .ok (hw, c) => .ok (hw.setY m k v, c) := by
  unfold yarnWeave
  have hy : (h.setY m k v).yarn = h.yarn := rfl
  simp only [hy]
  split_ifs <;> rfl

/-- A `yarnWeave` on a heap with one more header store, read back on the heap
without it. -/
theorem yarnWeave_setY_ok (h h2 : Heap) (m k v a b c2 : Nat)
    (he : yarnWeave (h.setY m k v) a b = .ok (h2, c2)) :
    h2.mop = (h.setY m k v).mop ∧ h2.n = h.n ∧ h2.brk = h.brk ∧ h2.freed = h.freed
      ∧ ∃ hw, yarnWeave h a b = .ok (hw, c2) ∧ h2.yarn = hw.yarn := by
  have hi := yarnWeave_inv _ _ _ _ _ he
  rw [yarnWeave_setY] at he
  cases hw : yarnWeave h a b with
  | error e => rw [hw] at he; cases he
  | ok p =>
    rw [hw] at he
    simp only [Except.ok.injEq, Prod.mk.injEq] at he
    obtain ⟨rfl, rfl⟩ := he
    exact ⟨hi.2.2.2.1, hi.2.2.2.2.1, hi.2.2.2.2.2.1, hi.2.2.2.2.2.2, p.1, rfl, rfl⟩

/-- The switch of `mopWeave` when it returned, on any heap. -/
theorem weaveSwitch_inv (h h2 : Heap) (l r m k c c2 : Nat) (hlm : l ≠ m) (hrm : r ≠ m)
    (he : weaveSwitch h l r m k c = .ok (h2, c2)) :
    ∃ out, h2.mop = (h.setY m k out).mop ∧ h2.n = h.n ∧ h2.brk = h.brk
      ∧ h2.freed = h.freed ∧ StepOutcome h l r k c ((h.mop m).y k) out c2 h2.yarn := by
  have hyl : ∀ v, ((h.setY m k v).mop l).y k = (h.mop l).y k := by
    intro v; simp [Heap.setY, hlm]
  have hyr : ∀ v, ((h.setY m k v).mop r).y k = (h.mop r).y k := by
    intro v; simp [Heap.setY, hrm]
  rw [weaveSwitch_eq] at he
  simp only [hyl, hyr] at he
  by_cases hL : (h.mop l).y k = 0 <;> by_cases hC : c = 0 <;> by_cases hR : (h.mop r).y k = 0 <;>
    simp only [hL, hC, hR, if_true, if_false] at he
  · simp only [Except.ok.injEq, Prod.mk.injEq] at he
    obtain ⟨e1, e2⟩ := he
    subst e1
    have res : (h.mop m).y k = (h.mop m).y k ∧ c2 = 0 ∧ h.yarn = h.yarn := ⟨rfl, (hC ▸ e2.symm), rfl⟩
    refine ⟨(h.mop m).y k, (setY_mop_self h m k).symm, rfl, rfl, rfl, ?_⟩
    unfold StepOutcome
    refine ⟨fun a b d => ?_, fun a b d => ?_, fun a b d => ?_, fun a b d => ?_,
      fun a b d => ?_, fun a b d => ?_, fun a b d => ?_, fun a b d => ?_⟩ <;>
    first
      | exact absurd hL a | exact absurd a hL | exact absurd hC b | exact absurd b hC
      | exact absurd hR d | exact absurd d hR | exact res
  · simp only [Except.ok.injEq, Prod.mk.injEq] at he
    obtain ⟨e1, e2⟩ := he
    subst e1
    have res : (h.mop r).y k = (h.mop r).y k ∧ c2 = 0 ∧ h.yarn = h.yarn := ⟨rfl, (hC ▸ e2.symm), rfl⟩
    refine ⟨(h.mop r).y k, rfl, rfl, rfl, rfl, ?_⟩
    unfold StepOutcome
    refine ⟨fun a b d => ?_, fun a b d => ?_, fun a b d => ?_, fun a b d => ?_,
      fun a b d => ?_, fun a b d => ?_, fun a b d => ?_, fun a b d => ?_⟩ <;>
    first
      | exact absurd hL a | exact absurd a hL | exact absurd hC b | exact absurd b hC
      | exact absurd hR d | exact absurd d hR | exact res
  · simp only [Except.ok.injEq, Prod.mk.injEq] at he
    obtain ⟨e1, e2⟩ := he
    subst e1
    have res : c = c ∧ c2 = 0 ∧ h.yarn = h.yarn := ⟨rfl, e2.symm, rfl⟩
    refine ⟨c, rfl, rfl, rfl, rfl, ?_⟩
    unfold StepOutcome
    refine ⟨fun a b d => ?_, fun a b d => ?_, fun a b d => ?_, fun a b d => ?_,
      fun a b d => ?_, fun a b d => ?_, fun a b d => ?_, fun a b d => ?_⟩ <;>
    first
      | exact absurd hL a | exact absurd a hL | exact absurd hC b | exact absurd b hC
      | exact absurd hR d | exact absurd d hR | exact res
  · obtain ⟨m1, m2, m3, m4, hw, e1, e2⟩ := yarnWeave_setY_ok _ _ _ _ _ _ _ _ he
    have res : 0 = 0 ∧ ∃ hw, yarnWeave h c ((h.mop r).y k) = .ok (hw, c2) ∧ h2.yarn = hw.yarn :=
      ⟨rfl, hw, e1, e2⟩
    refine ⟨0, m1, m2, m3, m4, ?_⟩
    unfold StepOutcome
    refine ⟨fun a b d => ?_, fun a b d => ?_, fun a b d => ?_, fun a b d => ?_,
      fun a b d => ?_, fun a b d => ?_, fun a b d => ?_, fun a b d => ?_⟩ <;>
    first
      | exact absurd hL a | exact absurd a hL | exact absurd hC b | exact absurd b hC
      | exact absurd hR d | exact absurd d hR | exact res
  · simp only [Except.ok.injEq, Prod.mk.injEq] at he
    obtain ⟨e1, e2⟩ := he
    subst e1
    have res : (h.mop l).y k = (h.mop l).y k ∧ c2 = 0 ∧ h.yarn = h.yarn := ⟨rfl, (hC ▸ e2.symm), rfl⟩
    refine ⟨(h.mop l).y k, rfl, rfl, rfl, rfl, ?_⟩
    unfold StepOutcome
    refine ⟨fun a b d => ?_, fun a b d => ?_, fun a b d => ?_, fun a b d => ?_,
      fun a b d => ?_, fun a b d => ?_, fun a b d => ?_, fun a b d => ?_⟩ <;>
    first
      | exact absurd hL a | exact absurd a hL | exact absurd hC b | exact absurd b hC
      | exact absurd hR d | exact absurd d hR | exact res
  · obtain ⟨m1, m2, m3, m4, hw, e1, e2⟩ := yarnWeave_setY_ok _ _ _ _ _ _ _ _ he
    have res : 0 = 0 ∧ ∃ hw, yarnWeave h ((h.mop l).y k) ((h.mop r).y k) = .ok (hw, c2) ∧ h2.yarn = hw.yarn :=
      ⟨rfl, hw, e1, e2⟩
    refine ⟨0, m1, m2, m3, m4, ?_⟩
    unfold StepOutcome
    refine ⟨fun a b d => ?_, fun a b d => ?_, fun a b d => ?_, fun a b d => ?_,
      fun a b d => ?_, fun a b d => ?_, fun a b d => ?_, fun a b d => ?_⟩ <;>
    first
      | exact absurd hL a | exact absurd a hL | exact absurd hC b | exact absurd b hC
      | exact absurd hR d | exact absurd d hR | exact res
  · obtain ⟨m1, m2, m3, m4, hw, e1, e2⟩ := yarnWeave_setY_ok _ _ _ _ _ _ _ _ he
    have res : 0 = 0 ∧ ∃ hw, yarnWeave h ((h.mop l).y k) c = .ok (hw, c2) ∧ h2.yarn = hw.yarn :=
      ⟨rfl, hw, e1, e2⟩
    refine ⟨0, m1, m2, m3, m4, ?_⟩
    unfold StepOutcome
    refine ⟨fun a b d => ?_, fun a b d => ?_, fun a b d => ?_, fun a b d => ?_,
      fun a b d => ?_, fun a b d => ?_, fun a b d => ?_, fun a b d => ?_⟩ <;>
    first
      | exact absurd hL a | exact absurd a hL | exact absurd hC b | exact absurd b hC
      | exact absurd hR d | exact absurd d hR | exact res
  · obtain ⟨m1, m2, m3, m4, hw, e1, e2⟩ := yarnWeave_setY_ok _ _ _ _ _ _ _ _ he
    have res : c = c ∧ ∃ hw, yarnWeave h ((h.mop l).y k) ((h.mop r).y k) = .ok (hw, c2) ∧ h2.yarn = hw.yarn :=
      ⟨rfl, hw, e1, e2⟩
    refine ⟨c, m1, m2, m3, m4, ?_⟩
    unfold StepOutcome
    refine ⟨fun a b d => ?_, fun a b d => ?_, fun a b d => ?_, fun a b d => ?_,
      fun a b d => ?_, fun a b d => ?_, fun a b d => ?_, fun a b d => ?_⟩ <;>
    first
      | exact absurd hL a | exact absurd a hL | exact absurd hC b | exact absurd b hC
      | exact absurd hR d | exact absurd d hR | exact res

/-- One pass through the loop body of `mopWeave` that returned, on any heap:
what it wrote and what it decided. -/
theorem weaveStep_inv (h h1 : Heap) (l r m k c c1 : Nat) (hlr : l ≠ r) (hlm : l ≠ m)
    (hrm : r ≠ m) (he : weaveStep h l r m k c = .ok (h1, c1)) :
    LoopFrame h h1 l r m k (k + 1)
      ∧ StepOutcome h l r k c ((h.mop m).y k) ((h1.mop m).y k) c1 h1.yarn := by
  unfold weaveStep at he
  cases hsw : weaveSwitch h l r m k c with
  | error e => rw [hsw] at he; cases he
  | ok p =>
    rw [hsw] at he
    simp only [bind, Except.bind, pure, Except.pure, Except.ok.injEq, Prod.mk.injEq] at he
    obtain ⟨e1, e2⟩ := he
    subst e1 e2
    obtain ⟨out, m1, r1, r2, r3, so⟩ := weaveSwitch_inv h p.1 l r m k c p.2 hlm hrm hsw
    have hout : ((((p.1.setY r k 0).setY l k 0).mop m).y k) = out := by
      simp [Heap.setY, m1, hlm.symm, hrm.symm]
    refine ⟨⟨fun x hxl hxr hxm => ?_, ?_, ?_, ?_, fun j => ?_, fun j => ?_, fun j hj => ?_,
      r1, r2, r3⟩, ?_⟩
    · simp [Heap.setY, m1, hxl, hxr, hxm]
    · simp [Heap.setY, m1, hlm, hlr]
    · simp [Heap.setY, m1, hrm, hlr.symm]
    · simp [Heap.setY, m1, hlm.symm, hrm.symm]
    · have : (k ≤ j ∧ j < k + 1) ↔ j = k := by omega
      simp only [this]
      by_cases hj : j = k <;> simp [Heap.setY, m1, hlm, hlr, hj]
    · have : (k ≤ j ∧ j < k + 1) ↔ j = k := by omega
      simp only [this]
      by_cases hj : j = k <;> simp [Heap.setY, m1, hrm, hlr.symm, hj]
    · have : j ≠ k := by omega
      simp [Heap.setY, m1, hlm.symm, hrm.symm, this]
    · rw [hout]; exact so

/-- The loop of `mopWeave` when it returned, on any heap: it nulled the
slots it passed in both operands and wrote nothing but those slots, the same
slots of the result, and yarn cells. -/
theorem weaveLoop_inv (l r m : Nat) (hlr : l ≠ r) (hlm : l ≠ m) (hrm : r ≠ m) :
    ∀ (todo k : Nat) (h h1 : Heap) (c c1 : Nat),
      weaveLoop l r m todo k h c = .ok (h1, c1) → LoopFrame h h1 l r m k (k + todo) := by
  intro todo
  induction todo with
  | zero =>
    intro k h h1 c c1 he
    simp only [weaveLoop, pure, Except.pure, Except.ok.injEq, Prod.mk.injEq] at he
    obtain ⟨rfl, rfl⟩ := he
    exact LoopFrame.refl h l r m k
  | succ todo ih =>
    intro k h h1 c c1 he
    simp only [weaveLoop, bind, Except.bind] at he
    cases hst : weaveStep h l r m k c with
    | error e => rw [hst] at he; cases he
    | ok p =>
      rw [hst] at he
      have f1 := (weaveStep_inv h p.1 l r m k c p.2 hlr hlm hrm hst).1
      have f2 := ih (k + 1) p.1 h1 p.2 c1 he
      have e : k + (todo + 1) = k + 1 + todo := by omega
      rw [e]
      exact LoopFrame.compose (by omega) (by omega) f1 f2

/-- A `mopWeave` that returned, on any heap with two different allocated
operands: the loop returned, the final carry fitted, and the heap returned is
the heap after the loop with the knot and the carry stored in the result,
both operand knots zeroed and both operand headers freed. -/
theorem mopWeave_inv (fuel : Nat) (h h1 : Heap) (l r m : Nat) (hlr : l ≠ r)
    (hlb : l ≤ h.brk) (hrb : r ≤ h.brk) (he : mopWeave fuel h l r = .ok (h1, m)) :
    m = h.brk + 1 ∧ l ≠ 0 ∧ r ≠ 0
      ∧ ∃ K hL cL, K = (if (h.mop l).knot > (h.mop r).knot then (h.mop l).knot
            else (h.mop r).knot)
        ∧ K < SIZELOG2
        ∧ weaveLoop l r (h.brk + 1) (K + 1) 0 (mopNew h).1 0 = .ok (hL, cL)
        ∧ (cL ≠ 0 → K + 1 < SIZELOG2)
        ∧ h1 = { (((if cL ≠ 0 then (hL.setKnot (h.brk + 1) (K + 1)).setY (h.brk + 1) (K + 1) cL
              else hL.setKnot (h.brk + 1) K).setKnot r 0).setKnot l 0) with
            freed := hL.freed ++ [l, r] } := by
  have hlm : l ≠ h.brk + 1 := by omega
  have hrm : r ≠ h.brk + 1 := by omega
  have ml : (mopNew h).1.mop l = h.mop l := by simp [mopNew, hlm]
  have mr : (mopNew h).1.mop r = h.mop r := by simp [mopNew, hrm]
  by_cases h0 : l = 0 ∨ r = 0
  · simp [mopWeave, h0] at he
  push_neg at h0
  obtain ⟨K, hK⟩ : ∃ K, K = if ((mopNew h).1.mop l).knot > ((mopNew h).1.mop r).knot
      then ((mopNew h).1.mop l).knot else ((mopNew h).1.mop r).knot := ⟨_, rfl⟩
  by_cases hK2 : K < SIZELOG2
  swap
  · have hm : (mopNew h).2 = h.brk + 1 := rfl
    unfold mopWeave at he
    simp only [h0.1, h0.2, or_self, if_false, hm, ← hK, hK2, not_false_eq_true, if_true] at he
    cases he
  cases hloop : weaveLoop l r (h.brk + 1) (K + 1) 0 (mopNew h).1 0 with
  | error e =>
    have hm : (mopNew h).2 = h.brk + 1 := rfl
    unfold mopWeave at he
    simp only [h0.1, h0.2, or_self, if_false, hm, ← hK, not_not.mpr hK2, hloop, bind,
      Except.bind] at he
    cases he
  | ok p =>
    obtain ⟨hL, cL⟩ := p
    rw [mopWeave_unfold fuel h l r h0.1 h0.2 K hK hK2 hL cL hloop] at he
    have fr := weaveLoop_inv l r (h.brk + 1) hlr hlm hrm (K + 1) 0 _ _ _ _ hloop
    obtain ⟨g1, g2, g3, g4, g5, g6, g7, g8, g9, g10⟩ := fr
    have hyl1 : (hL.mop l).y 0 = 0 := by rw [g5 0]; simp
    have hyr1 : (hL.mop r).y 0 = 0 := by rw [g6 0]; simp
    rw [ml, mr] at hK
    by_cases hc : cL = 0
    · subst hc
      simp only [ne_eq, not_true_eq_false, if_false, pure, Except.pure, bind, Except.bind]
        at he
      have ht := weaveTail_spec fuel (hL.setKnot (h.brk + 1) K) l r (h.brk + 1) h0.1 h0.2 hlr
        (by simpa [Heap.setKnot, hlm] using hyl1) (by simpa [Heap.setKnot, hrm] using hyr1)
      simp only [pure, Except.pure, bind, Except.bind] at ht
      rw [ht] at he
      simp only [Except.ok.injEq, Prod.mk.injEq] at he
      obtain ⟨e1, e2⟩ := he
      refine ⟨e2.symm, h0.1, h0.2, K, hL, 0, hK, hK2, hloop, fun hne => absurd rfl hne, ?_⟩
      rw [← e1]
      simp [Heap.setKnot]
    · have hkn : ((hL.setKnot (h.brk + 1) (K + 1)).mop (h.brk + 1)).knot = K + 1 := by
        simp [Heap.setKnot]
      by_cases hK1 : K + 1 < SIZELOG2
      · simp only [ne_eq, hc, not_false_eq_true, if_true, hkn, not_not.mpr hK1, if_false,
          pure, Except.pure, bind, Except.bind] at he
        have ht := weaveTail_spec fuel
          ((hL.setKnot (h.brk + 1) (K + 1)).setY (h.brk + 1) (K + 1) cL)
          l r (h.brk + 1) h0.1 h0.2 hlr
          (by simpa [Heap.setKnot, Heap.setY, hlm] using hyl1)
          (by simpa [Heap.setKnot, Heap.setY, hrm] using hyr1)
        simp only [pure, Except.pure, bind, Except.bind] at ht
        rw [ht] at he
        simp only [Except.ok.injEq, Prod.mk.injEq] at he
        obtain ⟨e1, e2⟩ := he
        refine ⟨e2.symm, h0.1, h0.2, K, hL, cL, hK, hK2, hloop, fun _ => hK1, ?_⟩
        rw [← e1]
        simp [Heap.setKnot, Heap.setY, hc]
      · simp only [ne_eq, hc, not_false_eq_true, if_true, hkn, hK1, bind, Except.bind] at he
        cases he

/-- C11, the operands are consumed.  In every call of `mopWeave` on two
different allocated operands that returned, both operands have `knot == 0`
and null slots `0 .. max(left.knot, right.knot)` when they are deleted, so
the wring of each makes no `yarnF` call and only the `mopF` call: the two
calls of `mopDelete` free the header of `left` and then the header of `right`
and nothing else. -/
theorem operands_consumed (fuel : Nat) (h h1 : Heap) (l r m : Nat) (hlr : l ≠ r)
    (hlb : l ≤ h.brk) (hrb : r ≤ h.brk) (he : mopWeave fuel h l r = .ok (h1, m)) :
    (h1.mop l).knot = 0 ∧ (h1.mop r).knot = 0
      ∧ (∀ k, k ≤ max (h.mop l).knot (h.mop r).knot →
          (h1.mop l).y k = 0 ∧ (h1.mop r).y k = 0)
      ∧ mopWring fuel h1 l traceBucket [] = .ok [Call.mop l]
      ∧ mopWring fuel h1 r traceBucket [] = .ok [Call.mop r]
      ∧ mopDelete fuel { h1 with freed := h.freed } l = .ok { h1 with freed := h.freed ++ [l] }
      ∧ mopDelete fuel { h1 with freed := h.freed ++ [l] } r = .ok h1
      ∧ h1.freed = h.freed ++ [l, r] := by
  have hlm : l ≠ h.brk + 1 := by omega
  have hrm : r ≠ h.brk + 1 := by omega
  obtain ⟨_, hl0, hr0, K, hL, cL, hK, hK2, hloop, _, e1⟩ :=
    mopWeave_inv fuel h h1 l r m hlr hlb hrb he
  obtain ⟨g1, g2, g3, g4, g5, g6, g7, g8, g9, g10⟩ :=
    weaveLoop_inv l r (h.brk + 1) hlr hlm hrm (K + 1) 0 _ _ _ _ hloop
  have kl : (h1.mop l).knot = 0 := by rw [e1]; simp [Heap.setKnot]
  have kr : (h1.mop r).knot = 0 := by rw [e1]; simp [Heap.setKnot, hlr.symm]
  have yl : ∀ j, (h1.mop l).y j = (hL.mop l).y j := by
    intro j; rw [e1]; split <;> simp [Heap.setKnot, Heap.setY, hlr, hlm]
  have yr : ∀ j, (h1.mop r).y j = (hL.mop r).y j := by
    intro j; rw [e1]; split <;> simp [Heap.setKnot, Heap.setY, hlr.symm, hrm]
  have zl : ∀ k, k ≤ K → (h1.mop l).y k = 0 := by
    intro k hk; rw [yl, g5 k]; simp; omega
  have zr : ∀ k, k ≤ K → (h1.mop r).y k = 0 := by
    intro k hk; rw [yr, g6 k]; simp; omega
  have hfr : h1.freed = h.freed ++ [l, r] := by
    rw [e1]; simp only; rw [g10]; rfl
  have hmax : max (h.mop l).knot (h.mop r).knot = K := by
    rw [hK]; split <;> omega
  refine ⟨kl, kr, fun k hk => ⟨zl k (by omega), zr k (by omega)⟩, ?_, ?_, ?_, ?_, hfr⟩
  · simp [mopWring, mopWringLoop, hl0, kl, zl 0 (by omega), SIZELOG2, traceBucket, bind,
      Except.bind, pure, Except.pure]
  · simp [mopWring, mopWringLoop, hr0, kr, zr 0 (by omega), SIZELOG2, traceBucket, bind,
      Except.bind, pure, Except.pure]
  · exact mopDelete_cleared fuel { h1 with freed := h.freed } l hl0 kl (zl 0 (by omega))
  · rw [mopDelete_cleared fuel { h1 with freed := h.freed ++ [l] } r hr0 kr (zr 0 (by omega))]
    congr 1
    cases h1
    simp only [Heap.mk.injEq, true_and] at hfr ⊢
    rw [hfr]; simp

theorem operands_consumed_witness :
    (exWoven.1.mop 5).knot = 0 ∧ (exWoven.1.mop 6).knot = 0
      ∧ (∀ k, k ≤ max (exHeap.mop 5).knot (exHeap.mop 6).knot →
          (exWoven.1.mop 5).y k = 0 ∧ (exWoven.1.mop 6).y k = 0)
      ∧ mopWring 0 exWoven.1 5 traceBucket [] = .ok [Call.mop 5]
      ∧ mopWring 0 exWoven.1 6 traceBucket [] = .ok [Call.mop 6]
      ∧ mopDelete 0 { exWoven.1 with freed := exHeap.freed } 5
          = .ok { exWoven.1 with freed := exHeap.freed ++ [5] }
      ∧ mopDelete 0 { exWoven.1 with freed := exHeap.freed ++ [5] } 6 = .ok exWoven.1
      ∧ exWoven.1.freed = exHeap.freed ++ [5, 6] :=
  operands_consumed 0 exHeap exWoven.1 5 6 exWoven.2 (by decide) (by decide) (by decide) rfl

/-- The state in which the loop of `mopWeave` reaches index `k`: the slots `k`
of both operands are as the caller passed them and the slot `k` of the result
is null. -/
theorem weave_at_step (h hk : Heap) (l r k ck : Nat) (hlr : l ≠ r) (hlb : l ≤ h.brk)
    (hrb : r ≤ h.brk)
    (hpre : weaveLoop l r (h.brk + 1) k 0 (mopNew h).1 0 = .ok (hk, ck)) :
    (hk.mop l).y k = (h.mop l).y k ∧ (hk.mop r).y k = (h.mop r).y k
      ∧ (hk.mop (h.brk + 1)).y k = 0 := by
  have hlm : l ≠ h.brk + 1 := by omega
  have hrm : r ≠ h.brk + 1 := by omega
  obtain ⟨g1, g2, g3, g4, g5, g6, g7, g8, g9, g10⟩ :=
    weaveLoop_inv l r (h.brk + 1) hlr hlm hrm k 0 _ _ _ _ hpre
  refine ⟨?_, ?_, ?_⟩
  · rw [g5 k]; simp [mopNew, hlm]
  · rw [g6 k]; simp [mopNew, hrm]
  · rw [g7 k (Or.inr (by omega))]; simp [mopNew]

/-- C15, merge is a full adder per size-class.  When the loop of `mopWeave`
on two different allocated operands has reached index `k` with the carry `ck`
and the pass for `k` returns, then with `L`, `C`, `R` the numbers `1` or `0`
for the slot `k` of `left`, the incoming carry and the slot `k` of `right`,
the slot `k` of the result is occupied after the pass if and only if
`L + C + R` is odd, and the outgoing carry is non-null if and only if
`L + C + R ≥ 2`. -/
theorem full_adder (h hk hk1 : Heap) (l r k ck ck1 : Nat) (hlr : l ≠ r) (hlb : l ≤ h.brk)
    (hrb : r ≤ h.brk)
    (hpre : weaveLoop l r (h.brk + 1) k 0 (mopNew h).1 0 = .ok (hk, ck))
    (hstep : weaveStep hk l r (h.brk + 1) k ck = .ok (hk1, ck1)) :
    ((hk1.mop (h.brk + 1)).y k ≠ 0
        ↔ (present ((h.mop l).y k) + present ck + present ((h.mop r).y k)) % 2 = 1)
      ∧ (ck1 ≠ 0
        ↔ 2 ≤ present ((h.mop l).y k) + present ck + present ((h.mop r).y k)) := by
  have hlm : l ≠ h.brk + 1 := by omega
  have hrm : r ≠ h.brk + 1 := by omega
  obtain ⟨el, er, em⟩ := weave_at_step h hk l r k ck hlr hlb hrb hpre
  obtain ⟨_, so⟩ := weaveStep_inv hk hk1 l r (h.brk + 1) k ck ck1 hlr hlm hrm hstep
  unfold StepOutcome at so
  rw [el, er, em] at so
  obtain ⟨s0, s1, s2, s4, s3, s5, s6, s7⟩ := so
  by_cases hL : (h.mop l).y k = 0 <;> by_cases hC : ck = 0 <;>
    by_cases hR : (h.mop r).y k = 0
  · obtain ⟨a, b, _⟩ := s0 hL hC hR
    simp [present, hL, hC, hR, a, b]
  · obtain ⟨a, b, _⟩ := s4 hL hC hR
    simp [present, hL, hC, hR, a, b]
  · obtain ⟨a, b, _⟩ := s2 hL hC hR
    simp [present, hL, hC, hR, a, b]
  · obtain ⟨a, hw, e, _⟩ := s6 hL hC hR
    have hi := yarnWeave_inv _ _ _ _ _ e
    have : ck1 ≠ 0 := by rw [hi.1]; exact hi.2.1
    simp [present, hL, hC, hR, a, this]
  · obtain ⟨a, b, _⟩ := s1 hL hC hR
    simp [present, hL, hC, hR, a, b]
  · obtain ⟨a, hw, e, _⟩ := s5 hL hC hR
    have hi := yarnWeave_inv _ _ _ _ _ e
    have : ck1 ≠ 0 := by rw [hi.1]; exact hi.2.1
    simp [present, hL, hC, hR, a, this]
  · obtain ⟨a, hw, e, _⟩ := s3 hL hC hR
    have hi := yarnWeave_inv _ _ _ _ _ e
    have : ck1 ≠ 0 := by rw [hi.1]; exact hi.2.1
    simp [present, hL, hC, hR, a, this]
  · obtain ⟨a, hw, e, _⟩ := s7 hL hC hR
    have hi := yarnWeave_inv _ _ _ _ _ e
    have : ck1 ≠ 0 := by rw [hi.1]; exact hi.2.1
    simp [present, hL, hC, hR, a, this]

theorem full_adder_witness :
    ((exStep1.1.mop (exHeap.brk + 1)).y 1 ≠ 0
        ↔ (present ((exHeap.mop 5).y 1) + present exStep0.2 + present ((exHeap.mop 6).y 1)) % 2
            = 1)
      ∧ (exStep1.2 ≠ 0
        ↔ 2 ≤ present ((exHeap.mop 5).y 1) + present exStep0.2 + present ((exHeap.mop 6).y 1)) :=
  full_adder exHeap exStep0.1 exStep1.1 5 6 1 exStep0.2 exStep1.2 (by decide) (by decide)
    (by decide) rfl rfl

/-- C16, the identity of the surviving tree and of the carry.  When the loop
of `mopWeave` on two different allocated operands has reached index `k` with
the carry `ck` and the pass for `k` returns: with none of the slot of `left`,
the carry and the slot of `right` present, the result slot and the outgoing
carry are null; with exactly one present, it becomes the result slot and the
outgoing carry is null; with exactly two present, the result slot is null and
the outgoing carry is what `yarnWeave` returns on the two (the slot of `left`
first, the slot of `right` last); with all three present, the result slot is
the incoming carry and the outgoing carry is what `yarnWeave` returns on the
slots of `left` and `right`.  Yarn cells are written by that `yarnWeave` only. -/
theorem surviving_tree_and_carry (h hk hk1 : Heap) (l r k ck ck1 : Nat) (hlr : l ≠ r)
    (hlb : l ≤ h.brk) (hrb : r ≤ h.brk)
    (hpre : weaveLoop l r (h.brk + 1) k 0 (mopNew h).1 0 = .ok (hk, ck))
    (hstep : weaveStep hk l r (h.brk + 1) k ck = .ok (hk1, ck1)) :
    ((h.mop l).y k = 0 → ck = 0 → (h.mop r).y k = 0 →
        (hk1.mop (h.brk + 1)).y k = 0 ∧ ck1 = 0 ∧ hk1.yarn = hk.yarn)
      ∧ ((h.mop l).y k ≠ 0 → ck = 0 → (h.mop r).y k = 0 →
        (hk1.mop (h.brk + 1)).y k = (h.mop l).y k ∧ ck1 = 0 ∧ hk1.yarn = hk.yarn)
      ∧ ((h.mop l).y k = 0 → ck ≠ 0 → (h.mop r).y k = 0 →
        (hk1.mop (h.brk + 1)).y k = ck ∧ ck1 = 0 ∧ hk1.yarn = hk.yarn)
      ∧ ((h.mop l).y k = 0 → ck = 0 → (h.mop r).y k ≠ 0 →
        (hk1.mop (h.brk + 1)).y k = (h.mop r).y k ∧ ck1 = 0 ∧ hk1.yarn = hk.yarn)
      ∧ ((h.mop l).y k ≠ 0 → ck ≠ 0 → (h.mop r).y k = 0 →
        (hk1.mop (h.brk + 1)).y k = 0
          ∧ ∃ hw, yarnWeave hk ((h.mop l).y k) ck = .ok (hw, ck1) ∧ hk1.yarn = hw.yarn)
      ∧ ((h.mop l).y k ≠ 0 → ck = 0 → (h.mop r).y k ≠ 0 →
        (hk1.mop (h.brk + 1)).y k = 0
          ∧ ∃ hw, yarnWeave hk ((h.mop l).y k) ((h.mop r).y k) = .ok (hw, ck1)
            ∧ hk1.yarn = hw.yarn)
      ∧ ((h.mop l).y k = 0 → ck ≠ 0 → (h.mop r).y k ≠ 0 →
        (hk1.mop (h.brk + 1)).y k = 0
          ∧ ∃ hw, yarnWeave hk ck ((h.mop r).y k) = .ok (hw, ck1) ∧ hk1.yarn = hw.yarn)
      ∧ ((h.mop l).y k ≠ 0 → ck ≠ 0 → (h.mop r).y k ≠ 0 →
        (hk1.mop (h.brk + 1)).y k = ck
          ∧ ∃ hw, yarnWeave hk ((h.mop l).y k) ((h.mop r).y k) = .ok (hw, ck1)
            ∧ hk1.yarn = hw.yarn) := by
  have hlm : l ≠ h.brk + 1 := by omega
  have hrm : r ≠ h.brk + 1 := by omega
  obtain ⟨el, er, em⟩ := weave_at_step h hk l r k ck hlr hlb hrb hpre
  obtain ⟨_, so⟩ := weaveStep_inv hk hk1 l r (h.brk + 1) k ck ck1 hlr hlm hrm hstep
  unfold StepOutcome at so
  rw [el, er, em] at so
  exact so

theorem surviving_tree_and_carry_witness :
    ((exHeap.mop 5).y 0 = 0 → 0 = 0 → (exHeap.mop 6).y 0 = 0 →
        (exStep0.1.mop (exHeap.brk + 1)).y 0 = 0 ∧ exStep0.2 = 0
          ∧ exStep0.1.yarn = (mopNew exHeap).1.yarn)
      ∧ ((exHeap.mop 5).y 0 ≠ 0 → 0 = 0 → (exHeap.mop 6).y 0 = 0 →
        (exStep0.1.mop (exHeap.brk + 1)).y 0 = (exHeap.mop 5).y 0 ∧ exStep0.2 = 0
          ∧ exStep0.1.yarn = (mopNew exHeap).1.yarn)
      ∧ ((exHeap.mop 5).y 0 = 0 → 0 ≠ 0 → (exHeap.mop 6).y 0 = 0 →
        (exStep0.1.mop (exHeap.brk + 1)).y 0 = 0 ∧ exStep0.2 = 0
          ∧ exStep0.1.yarn = (mopNew exHeap).1.yarn)
      ∧ ((exHeap.mop 5).y 0 = 0 → 0 = 0 → (exHeap.mop 6).y 0 ≠ 0 →
        (exStep0.1.mop (exHeap.brk + 1)).y 0 = (exHeap.mop 6).y 0 ∧ exStep0.2 = 0
          ∧ exStep0.1.yarn = (mopNew exHeap).1.yarn)
      ∧ ((exHeap.mop 5).y 0 ≠ 0 → 0 ≠ 0 → (exHeap.mop 6).y 0 = 0 →
        (exStep0.1.mop (exHeap.brk + 1)).y 0 = 0
          ∧ ∃ hw, yarnWeave (mopNew exHeap).1 ((exHeap.mop 5).y 0) 0 = .ok (hw, exStep0.2)
            ∧ exStep0.1.yarn = hw.yarn)
      ∧ ((exHeap.mop 5).y 0 ≠ 0 → 0 = 0 → (exHeap.mop 6).y 0 ≠ 0 →
        (exStep0.1.mop (exHeap.brk + 1)).y 0 = 0
          ∧ ∃ hw, yarnWeave (mopNew exHeap).1 ((exHeap.mop 5).y 0) ((exHeap.mop 6).y 0)
              = .ok (hw, exStep0.2)
            ∧ exStep0.1.yarn = hw.yarn)
      ∧ ((exHeap.mop 5).y 0 = 0 → 0 ≠ 0 → (exHeap.mop 6).y 0 ≠ 0 →
        (exStep0.1.mop (exHeap.brk + 1)).y 0 = 0
          ∧ ∃ hw, yarnWeave (mopNew exHeap).1 0 ((exHeap.mop 6).y 0) = .ok (hw, exStep0.2)
            ∧ exStep0.1.yarn = hw.yarn)
      ∧ ((exHeap.mop 5).y 0 ≠ 0 → 0 ≠ 0 → (exHeap.mop 6).y 0 ≠ 0 →
        (exStep0.1.mop (exHeap.brk + 1)).y 0 = 0
          ∧ ∃ hw, yarnWeave (mopNew exHeap).1 ((exHeap.mop 5).y 0) ((exHeap.mop 6).y 0)
              = .ok (hw, exStep0.2)
            ∧ exStep0.1.yarn = hw.yarn) :=
  surviving_tree_and_carry exHeap (mopNew exHeap).1 exStep0.1 5 6 0 0 exStep0.2 (by decide)
    (by decide) (by decide) rfl rfl

/-! ## The invariant of the slots and of the knot -/

theorem itemNodes_nodup_of_mem {Y : Nat → Yarn} {items : List (Nat × Nat)}
    (hn : (itemNodes Y items).Nodup) {it : Nat × Nat} (hit : it ∈ items) :
    (yarnNodes Y it.1 it.2).Nodup := by
  induction items with
  | nil => simp at hit
  | cons a t ih =>
    rw [itemNodes_cons] at hn
    rcases List.mem_cons.mp hit with e | e
    · subst e
      exact (List.nodup_append.mp hn).1
    · exact ih (List.nodup_append.mp hn).2.1 e

theorem mem_slotItems_of_ne {y : Nat → Nat} {n : Nat} :
    ∀ {s k : Nat}, s ≤ k → k < s + n → y k ≠ 0 → (k, y k) ∈ slotItems y s n := by
  induction n with
  | zero => intro s k h1 h2; omega
  | succ n ih =>
    intro s k h1 h2 hy
    simp only [slotItems, List.mem_append]
    by_cases e : k = s
    · subst e
      left
      simp [item, hy]
    · right
      exact ih (by omega) (by omega) hy

/-- C17, the invariant of the slots and of the knot.  In every state a
client can reach by `mopNew`, `yarnNew`, `mopAbsorb`, `mopWeave` and `mopRedo`
calls that returned, each mop `m` it holds has `knot ≤ 30`; each slot `y[k]`
with `k ≤ knot` is null or a well-formed yarn of knot `k`, of `2 ^ k` cells;
each slot above `knot` is null; when some slot is occupied, `y[knot]` is
occupied and no occupied slot has a higher index; and when no slot is
occupied, `knot` is `0`. -/
theorem slot_knot_invariant (h : Heap) (ms ys : List Nat) (hr : Reach h ms ys) (m : Nat)
    (hm : m ∈ ms) :
    (h.mop m).knot ≤ 30
      ∧ (∀ k, k ≤ (h.mop m).knot → (h.mop m).y k = 0
          ∨ (WfYarn h.yarn k ((h.mop m).y k)
            ∧ (yarnNodes h.yarn k ((h.mop m).y k)).length = 2 ^ k))
      ∧ (∀ k, (h.mop m).knot < k → k < SIZELOG2 → (h.mop m).y k = 0)
      ∧ ((∃ k, k < SIZELOG2 ∧ (h.mop m).y k ≠ 0) →
          (h.mop m).y (h.mop m).knot ≠ 0
            ∧ ∀ k, k < SIZELOG2 → (h.mop m).y k ≠ 0 → k ≤ (h.mop m).knot)
      ∧ ((∀ k, k < SIZELOG2 → (h.mop m).y k = 0) → (h.mop m).knot = 0) := by
  have hw : WfMop h m := ((reach_live hr).2.1 m hm).2
  obtain ⟨_, hk, hp, hz, hq⟩ := hw
  have hle : ∀ k, k < SIZELOG2 → (h.mop m).y k ≠ 0 → k ≤ (h.mop m).knot := by
    intro k h1 h2
    by_contra hc
    exact h2 (hz k h1 (by omega))
  refine ⟨by unfold SIZELOG2 at hk; omega, fun k hkk => ?_, fun k h1 h2 => hz k h2 h1,
    fun ⟨k, h1, h2⟩ => ⟨?_, hle⟩, fun hall => ?_⟩
  · by_cases hy : (h.mop m).y k = 0
    · exact Or.inl hy
    · right
      have hmem : (k, (h.mop m).y k) ∈ mopItems h m :=
        mem_slotItems_of_ne (Nat.zero_le k) (by omega) hy
      exact ⟨⟨hp.1 _ hmem, itemNodes_nodup_of_mem hp.2 hmem⟩, yarnNodes_length _ _ _⟩
  · rcases hq with e | e
    · have := hle k h1 h2
      have e2 : k = (h.mop m).knot := by omega
      rw [← e2]
      exact h2
    · exact e
  · rcases hq with e | e
    · exact e
    · exact absurd (hall _ hk) e

theorem slot_knot_invariant_witness :
    (exAbsorbed.1.mop exAbsorbed.2).knot ≤ 30
      ∧ (∀ k, k ≤ (exAbsorbed.1.mop exAbsorbed.2).knot → (exAbsorbed.1.mop exAbsorbed.2).y k = 0
          ∨ (WfYarn exAbsorbed.1.yarn k ((exAbsorbed.1.mop exAbsorbed.2).y k)
            ∧ (yarnNodes exAbsorbed.1.yarn k ((exAbsorbed.1.mop exAbsorbed.2).y k)).length
              = 2 ^ k))
      ∧ (∀ k, (exAbsorbed.1.mop exAbsorbed.2).knot < k → k < SIZELOG2 →
          (exAbsorbed.1.mop exAbsorbed.2).y k = 0)
      ∧ ((∃ k, k < SIZELOG2 ∧ (exAbsorbed.1.mop exAbsorbed.2).y k ≠ 0) →
          (exAbsorbed.1.mop exAbsorbed.2).y (exAbsorbed.1.mop exAbsorbed.2).knot ≠ 0
            ∧ ∀ k, k < SIZELOG2 → (exAbsorbed.1.mop exAbsorbed.2).y k ≠ 0 →
              k ≤ (exAbsorbed.1.mop exAbsorbed.2).knot)
      ∧ ((∀ k, k < SIZELOG2 → (exAbsorbed.1.mop exAbsorbed.2).y k = 0) →
          (exAbsorbed.1.mop exAbsorbed.2).knot = 0) :=
  slot_knot_invariant exAbsorbed.1 [exAbsorbed.2] []
    (@Reach.mopAbsorb (yarnNew (mopNew Heap.empty).1).1 exAbsorbed.1 [1] [2] 1 2 exAbsorbed.2 0
      (Reach.yarnNew (Reach.mopNew (Reach.start Heap.empty))) (by decide) (by decide) rfl)
    exAbsorbed.2 (List.mem_singleton_self _)

/-! ## Termination of `mopRedo` -/

/-- C19, termination of `mopRedo`.  On an array that starts with the mops
`mops`, which a client holds (different well-formed mops sharing no cell) and
which have at most `2 ^ 31 - 1` cells together, `mopRedo` with `count` the
number of these mops returns, and what it returns is one well-formed mop
holding the cells of all of them.
Its recursion descends on `count`: for an odd `count > 2` the one recursive
call is on `mops + 1` with `count - 1 < count`, and for an even `count > 2`
the two recursive calls are on `mops` and `mops + count / 2` with
`count / 2 < count`. -/
theorem redo_terminates (fuel : Nat) (h : Heap) (mops extra others ys : List Nat)
    (hl : Live h (mops ++ others) ys)
    (hcap : (mops.flatMap (mopNodes h)).length ≤ 2 ^ 31 - 1) :
    (∃ h1 m, mopRedo fuel h (mops ++ extra) mops.length = .ok (h1, m) ∧ WfMop h1 m
        ∧ (mopNodes h1 m).Perm (mops.flatMap (mopNodes h)))
      ∧ (∀ (hx : Heap) (arr : List Nat) (count : Nat), 2 < count → count % 2 = 1 →
          count - 1 < count
            ∧ mopRedo fuel hx arr count =
              match arr[0]? with
              | some m0 =>
                (mopRedo fuel hx (arr.drop 1) (count - 1)).bind
                  fun p => mopWeave fuel p.1 m0 p.2
              | none => .error .bounds)
      ∧ (∀ (hx : Heap) (arr : List Nat) (count : Nat), 2 < count → count % 2 = 0 →
          count / 2 < count
            ∧ mopRedo fuel hx arr count =
              (mopRedo fuel hx arr (count / 2)).bind fun p =>
                (mopRedo fuel p.1 (arr.drop (count / 2)) (count / 2)).bind fun q =>
                  mopWeave fuel q.1 p.2 q.2) := by
  refine ⟨?_, fun hx arr count h2 ho => ⟨by omega, ?_⟩,
    fun hx arr count h2 he => ⟨by omega, ?_⟩⟩
  · obtain ⟨h1, m, e, l1, p, _⟩ := mopRedo_spec fuel mops.length h mops extra others ys rfl hl
      (by unfold SIZELOG2; omega)
    exact ⟨h1, m, e, (l1.2.1 m (List.mem_cons_self _ _)).2, p⟩
  · rw [mopRedo]
    have c0 : count ≠ 0 := by omega
    have c1 : count ≠ 1 := by omega
    have c2 : count ≠ 2 := by omega
    have c3 : count % 2 ≠ 0 := by omega
    simp only [c0, c1, c2, c3, if_false, ne_eq, not_false_eq_true, if_true]
    cases arr[0]? <;> rfl
  · rw [mopRedo]
    have c0 : count ≠ 0 := by omega
    have c1 : count ≠ 1 := by omega
    have c2 : count ≠ 2 := by omega
    have c3 : ¬ count % 2 ≠ 0 := by omega
    simp only [c0, c1, c2, c3, if_false]
    rfl

theorem redo_terminates_witness :
    (∃ h1 m, mopRedo 0 exHeap ([5, 6, 7] ++ [0]) [5, 6, 7].length = .ok (h1, m) ∧ WfMop h1 m
        ∧ (mopNodes h1 m).Perm ([5, 6, 7].flatMap (mopNodes exHeap)))
      ∧ (∀ (hx : Heap) (arr : List Nat) (count : Nat), 2 < count → count % 2 = 1 →
          count - 1 < count
            ∧ mopRedo 0 hx arr count =
              match arr[0]? with
              | some m0 =>
                (mopRedo 0 hx (arr.drop 1) (count - 1)).bind
                  fun p => mopWeave 0 p.1 m0 p.2
              | none => .error .bounds)
      ∧ (∀ (hx : Heap) (arr : List Nat) (count : Nat), 2 < count → count % 2 = 0 →
          count / 2 < count
            ∧ mopRedo 0 hx arr count =
              (mopRedo 0 hx arr (count / 2)).bind fun p =>
                (mopRedo 0 p.1 (arr.drop (count / 2)) (count / 2)).bind fun q =>
                  mopWeave 0 q.1 p.2 q.2) :=
  redo_terminates 0 exHeap [5, 6, 7] [0] [] [] (by decide) (by decide)

/-! ## Weaving without a carry, and the empty mop -/

/-- One pass of the loop of `mopWeave` with no carry coming in and at most
one of the two operand slots occupied: it returns with no carry. -/
theorem weaveStep_nocarry (h : Heap) (l r m k : Nat)
    (hz : (h.mop l).y k = 0 ∨ (h.mop r).y k = 0) :
    ∃ p, weaveStep h l r m k 0 = .ok (p, 0) := by
  unfold weaveStep
  rw [weaveSwitch_eq]
  by_cases hL : (h.mop l).y k = 0
  · by_cases hR : (h.mop r).y k = 0
    · simp [hL, hR, bind, Except.bind, pure, Except.pure]
    · simp [hL, hR, bind, Except.bind, pure, Except.pure]
  · have hR : (h.mop r).y k = 0 := by
      rcases hz with e | e
      · exact absurd e hL
      · exact e
    simp [hL, hR, bind, Except.bind, pure, Except.pure]

/-- The loop of `mopWeave` with no carry coming in, over indices at which at
most one of the two operand slots is occupied: it returns with no carry, it
writes no yarn cell, and each result slot it passed holds the occupied
operand slot of its index, or is as it was when neither is occupied. -/
theorem weaveLoop_nocarry (l r m : Nat) (hlr : l ≠ r) (hlm : l ≠ m) (hrm : r ≠ m) :
    ∀ (todo k : Nat) (h : Heap),
      (∀ j, k ≤ j → j < k + todo → (h.mop l).y j = 0 ∨ (h.mop r).y j = 0) →
      ∃ h1, weaveLoop l r m todo k h 0 = .ok (h1, 0) ∧ h1.yarn = h.yarn
        ∧ ∀ j, k ≤ j → j < k + todo →
            (h1.mop m).y j = if (h.mop l).y j ≠ 0 then (h.mop l).y j
              else if (h.mop r).y j ≠ 0 then (h.mop r).y j else (h.mop m).y j := by
  intro todo
  induction todo with
  | zero =>
    intro k h _
    exact ⟨h, rfl, rfl, fun j h1 h2 => by omega⟩
  | succ todo ih =>
    intro k h hz
    obtain ⟨p, hp⟩ := weaveStep_nocarry h l r m k (hz k (le_refl k) (by omega))
    obtain ⟨fr, so⟩ := weaveStep_inv h p l r m k 0 0 hlr hlm hrm hp
    obtain ⟨_, _, _, _, fl, frr, fm, _, _, _⟩ := fr
    have hz1 : ∀ j, k + 1 ≤ j → j < k + 1 + todo → (p.mop l).y j = 0 ∨ (p.mop r).y j = 0 := by
      intro j h1 h2
      rw [fl j, frr j]
      have : ¬ (k ≤ j ∧ j < k + 1) := by omega
      simp only [this, if_false]
      exact hz j (by omega) (by omega)
    obtain ⟨h1, e1, y1, s1⟩ := ih (k + 1) p hz1
    obtain ⟨_, _, _, _, _, _, gm, _, _, _⟩ :=
      weaveLoop_inv l r m hlr hlm hrm todo (k + 1) p h1 0 0 e1
    have hy : p.yarn = h.yarn := by
      unfold StepOutcome at so
      obtain ⟨s0, sL, _, sR, _, _, _, _⟩ := so
      by_cases hL : (h.mop l).y k = 0
      · by_cases hR : (h.mop r).y k = 0
        · exact (s0 hL rfl hR).2.2
        · exact (sR hL rfl hR).2.2
      · have hR : (h.mop r).y k = 0 := by
          rcases hz k (le_refl k) (by omega) with e | e
          · exact absurd e hL
          · exact e
        exact (sL hL rfl hR).2.2
    refine ⟨h1, ?_, y1.trans hy, fun j hj1 hj2 => ?_⟩
    · simp only [weaveLoop, bind, Except.bind, hp]
      exact e1
    · by_cases hjk : j = k
      · subst hjk
        rw [gm j (Or.inl (by omega))]
        unfold StepOutcome at so
        obtain ⟨s0, sL, _, sR, _, _, _, _⟩ := so
        by_cases hL : (h.mop l).y j = 0
        · by_cases hR : (h.mop r).y j = 0
          · simp [hL, hR, (s0 hL rfl hR).1]
          · simp [hL, hR, (sR hL rfl hR).1]
        · have hR : (h.mop r).y j = 0 := by
            rcases hz j (le_refl j) (by omega) with e | e
            · exact absurd e hL
            · exact e
          simp [hL, (sL hL rfl hR).1]
      · rw [s1 j (by omega) (by omega), fl j, frr j, fm j (by omega)]
        have : ¬ (k ≤ j ∧ j < k + 1) := by omega
        simp only [this, if_false]

/-- `mopWeave` on two different allocated mops of which, at each index up to
the larger knot, at most one has the slot occupied: it returns the fresh
header with that knot, each slot up to it holding the occupied operand slot
of its index, every other slot being as `mopNew` left it, and no yarn cell
written. -/
theorem mopWeave_nocarry (fuel : Nat) (h : Heap) (l r K : Nat) (hl : l ≠ 0) (hr : r ≠ 0)
    (hlr : l ≠ r) (hlb : l ≤ h.brk) (hrb : r ≤ h.brk)
    (hK : K = if (h.mop l).knot > (h.mop r).knot then (h.mop l).knot else (h.mop r).knot)
    (hK2 : K < SIZELOG2)
    (hz : ∀ j, j ≤ K → (h.mop l).y j = 0 ∨ (h.mop r).y j = 0) :
    ∃ h1, mopWeave fuel h l r = .ok (h1, h.brk + 1) ∧ h1.yarn = h.yarn
      ∧ (h1.mop (h.brk + 1)).knot = K
      ∧ ∀ j, (h1.mop (h.brk + 1)).y j =
          if j ≤ K then (if (h.mop l).y j ≠ 0 then (h.mop l).y j else (h.mop r).y j) else 0 := by
  have hlm : l ≠ h.brk + 1 := by omega
  have hrm : r ≠ h.brk + 1 := by omega
  have ml : (mopNew h).1.mop l = h.mop l := by simp [mopNew, hlm]
  have mr : (mopNew h).1.mop r = h.mop r := by simp [mopNew, hrm]
  have mm : ∀ j, ((mopNew h).1.mop (h.brk + 1)).y j = 0 := by intro j; simp [mopNew]
  obtain ⟨hL, e1, y1, s1⟩ := weaveLoop_nocarry l r (h.brk + 1) hlr hlm hrm (K + 1) 0 (mopNew h).1
    (fun j _ hj => by rw [ml, mr]; exact hz j (by omega))
  obtain ⟨_, _, _, _, fl, frr, fm, _, _, fz⟩ :=
    weaveLoop_inv l r (h.brk + 1) hlr hlm hrm (K + 1) 0 _ _ _ _ e1
  have e2 := mopWeave_unfold fuel h l r hl hr K (by rw [ml, mr]; exact hK) hK2 hL 0 e1
  simp only [ne_eq, not_true_eq_false, if_false, bind, Except.bind, pure, Except.pure] at e2
  have e3 := weaveTail_spec fuel (hL.setKnot (h.brk + 1) K) l r (h.brk + 1) hl hr hlr
    (by
      have := fl 0
      simp [Heap.setKnot, hlm, this])
    (by
      have := frr 0
      simp [Heap.setKnot, hrm, this])
  simp only [bind, Except.bind, pure, Except.pure] at e3
  rw [e3] at e2
  refine ⟨_, e2, y1, ?_, fun j => ?_⟩
  · simp [Heap.setKnot, hlm.symm, hrm.symm]
  · have hj : (({ ((hL.setKnot (h.brk + 1) K).setKnot r 0).setKnot l 0 with
        freed := (hL.setKnot (h.brk + 1) K).freed ++ [l, r] } : Heap).mop (h.brk + 1)).y j
        = (hL.mop (h.brk + 1)).y j := by
      simp [Heap.setKnot, hlm.symm, hrm.symm]
    rw [hj]
    by_cases hjk : j ≤ K
    · rw [s1 j (Nat.zero_le j) (by omega), ml, mr, mm]
      simp only [hjk, if_true]
      by_cases hLj : (h.mop l).y j = 0
      · by_cases hRj : (h.mop r).y j = 0
        · simp [hLj, hRj]
        · simp [hLj, hRj]
      · simp [hLj]
    · rw [fm j (Or.inr (by omega)), mm]
      simp [hjk]

/-- C12, the empty mop is an identity for `mopWeave`.  For a well-formed
allocated mop `F` and a mop `E` fresh from `mopNew`, both `mopWeave(F, E)`
and `mopWeave(E, F)` return a mop with the knot of `F` whose slot `y[k]`, for
every `k` in `0 .. 30`, holds what the slot `y[k]` of `F` held, null or the
very same yarn, and no yarn cell is written.  `mopWeave` on two mops fresh
from `mopNew` returns a mop with `knot == 0` and every slot null, whose wring
makes the one call `mopF` and no `yarnF` call. -/
theorem empty_identity (fuel : Nat) (h : Heap) (F : Nat) (hw : WfMop h F) (hb : F ≤ h.brk) :
    (∃ h1 m, mopWeave fuel (mopNew h).1 F (mopNew h).2 = .ok (h1, m)
        ∧ (h1.mop m).knot = (h.mop F).knot
        ∧ (∀ k, k < SIZELOG2 → (h1.mop m).y k = (h.mop F).y k)
        ∧ h1.yarn = h.yarn)
      ∧ (∃ h1 m, mopWeave fuel (mopNew h).1 (mopNew h).2 F = .ok (h1, m)
        ∧ (h1.mop m).knot = (h.mop F).knot
        ∧ (∀ k, k < SIZELOG2 → (h1.mop m).y k = (h.mop F).y k)
        ∧ h1.yarn = h.yarn)
      ∧ (∃ h1 m, mopWeave fuel (mopNew (mopNew h).1).1 (mopNew h).2 (mopNew (mopNew h).1).2
          = .ok (h1, m)
        ∧ (h1.mop m).knot = 0 ∧ (∀ k, (h1.mop m).y k = 0)
        ∧ mopWring fuel h1 m traceBucket [] = .ok [Call.mop m]
        ∧ h1.yarn = h.yarn) := by
  obtain ⟨hF0, hk, _, hz, _⟩ := hw
  have hFE : F ≠ h.brk + 1 := by omega
  have mF : (mopNew h).1.mop F = h.mop F := by simp [mopNew, hFE]
  have mEk : ((mopNew h).1.mop (h.brk + 1)).knot = 0 := by simp [mopNew]
  have mEy : ∀ j, ((mopNew h).1.mop (h.brk + 1)).y j = 0 := by intro j; simp [mopNew]
  have hE : (mopNew h).2 = h.brk + 1 := rfl
  have hbrk : (mopNew h).1.brk = h.brk + 1 := rfl
  have hyarn : (mopNew h).1.yarn = h.yarn := rfl
  refine ⟨?_, ?_, ?_⟩
  · obtain ⟨h1, e, y1, k1, s1⟩ := mopWeave_nocarry fuel (mopNew h).1 F (h.brk + 1)
      (h.mop F).knot hF0 (by omega) hFE (by rw [hbrk]; omega) (by rw [hbrk])
      (by rw [mF, mEk]; split_ifs <;> omega) hk (fun j _ => Or.inr (mEy j))
    rw [hbrk] at e k1 s1
    refine ⟨h1, h.brk + 1 + 1, by rw [hE]; exact e, k1, fun k hk1 => ?_, y1.trans hyarn⟩
    rw [s1 k, mF, mEy]
    by_cases hkk : k ≤ (h.mop F).knot
    · by_cases hy : (h.mop F).y k = 0 <;> simp [hkk, hy]
    · simp [hkk, hz k hk1 (by omega)]
  · obtain ⟨h1, e, y1, k1, s1⟩ := mopWeave_nocarry fuel (mopNew h).1 (h.brk + 1) F
      (h.mop F).knot (by omega) hF0 hFE.symm (by rw [hbrk]) (by rw [hbrk]; omega)
      (by rw [mF, mEk]; split_ifs <;> omega) hk (fun j _ => Or.inl (mEy j))
    rw [hbrk] at e k1 s1
    refine ⟨h1, h.brk + 1 + 1, by rw [hE]; exact e, k1, fun k hk1 => ?_, y1.trans hyarn⟩
    rw [s1 k, mF, mEy]
    by_cases hkk : k ≤ (h.mop F).knot
    · simp [hkk]
    · simp [hkk, hz k hk1 (by omega)]
  · have hE2 : (mopNew (mopNew h).1).2 = h.brk + 1 + 1 := rfl
    have hbrk2 : (mopNew (mopNew h).1).1.brk = h.brk + 1 + 1 := rfl
    have m1k : ((mopNew (mopNew h).1).1.mop (h.brk + 1)).knot = 0 := by simp [mopNew]
    have m2k : ((mopNew (mopNew h).1).1.mop (h.brk + 1 + 1)).knot = 0 := by simp [mopNew]
    have m1y : ∀ j, ((mopNew (mopNew h).1).1.mop (h.brk + 1)).y j = 0 := by
      intro j; simp [mopNew]
    have m2y : ∀ j, ((mopNew (mopNew h).1).1.mop (h.brk + 1 + 1)).y j = 0 := by
      intro j; simp [mopNew]
    obtain ⟨h1, e, y1, k1, s1⟩ := mopWeave_nocarry fuel (mopNew (mopNew h).1).1 (h.brk + 1)
      (h.brk + 1 + 1) 0 (by omega) (by omega) (by omega) (by rw [hbrk2]; omega) (by rw [hbrk2])
      (by rw [m1k, m2k]; simp) (by decide) (fun j _ => Or.inl (m1y j))
    rw [hbrk2] at e k1 s1
    have hy0 : ∀ k, (h1.mop (h.brk + 1 + 1 + 1)).y k = 0 := by
      intro k
      rw [s1 k, m1y, m2y]
      simp
    refine ⟨h1, h.brk + 1 + 1 + 1, by rw [hE, hE2]; exact e, k1, hy0, ?_, y1⟩
    simp [mopWring, mopWringLoop, k1, hy0, SIZELOG2, traceBucket, bind, Except.bind, pure,
      Except.pure]

theorem empty_identity_witness :
    (∃ h1 m, mopWeave 0 (mopNew exHeap).1 6 (mopNew exHeap).2 = .ok (h1, m)
        ∧ (h1.mop m).knot = (exHeap.mop 6).knot
        ∧ (∀ k, k < SIZELOG2 → (h1.mop m).y k = (exHeap.mop 6).y k)
        ∧ h1.yarn = exHeap.yarn)
      ∧ (∃ h1 m, mopWeave 0 (mopNew exHeap).1 (mopNew exHeap).2 6 = .ok (h1, m)
        ∧ (h1.mop m).knot = (exHeap.mop 6).knot
        ∧ (∀ k, k < SIZELOG2 → (h1.mop m).y k = (exHeap.mop 6).y k)
        ∧ h1.yarn = exHeap.yarn)
      ∧ (∃ h1 m, mopWeave 0 (mopNew (mopNew exHeap).1).1 (mopNew exHeap).2
            (mopNew (mopNew exHeap).1).2 = .ok (h1, m)
        ∧ (h1.mop m).knot = 0 ∧ (∀ k, (h1.mop m).y k = 0)
        ∧ mopWring 0 h1 m traceBucket [] = .ok [Call.mop m]
        ∧ h1.yarn = exHeap.yarn) :=
  empty_identity 0 exHeap 6 (by decide) (by decide)

/-! ## The shape of a woven yarn -/

theorem wfYarn_weave (h h1 : Heap) (k a b c : Nat) (ha : WfYarn h.yarn k a)
    (hb : WfYarn h.yarn k b) (hd : (yarnNodes h.yarn k a ++ yarnNodes h.yarn k b).Nodup)
    (he : yarnWeave h a b = .ok (h1, c)) : WfYarn h1.yarn (k + 1) c := by
  obtain ⟨h2, e1, s1, n1, _⟩ := yarnWeave_spec h k a b ha.1 hb.1 hd
  rw [e1] at he
  simp only [Except.ok.injEq, Prod.mk.injEq] at he
  obtain ⟨rfl, rfl⟩ := he
  refine ⟨s1, ?_⟩
  have hperm : (yarnNodes h2.yarn (k + 1) a).Perm
      (yarnNodes h.yarn k a ++ yarnNodes h.yarn k b) := by
    rw [n1]
    simp only [yarnNodes]
    exact List.perm_iff_count.mpr (fun x => by
      simp only [List.count_append, List.count_cons, List.count_nil]
      omega)
  exact hperm.nodup_iff.mpr hd

theorem wfYarn_of_woven {h : Heap} {k p : Nat} (hw : Woven h k p) : WfYarn h.yarn k p := by
  induction hw with
  | leaf h =>
    refine ⟨?_, by simp [yarnNodes, yarnSub]⟩
    simp [yarnShape, yarnNew, Heap.setRoot]
  | weave _ _ hd he iha ihb => exact wfYarn_weave _ _ _ _ _ _ iha ihb hd he
  | frame _ hf ih =>
    exact ⟨yarnShape_frame _ _ hf ih.1, by rw [yarnNodes_frame _ _ hf]; exact ih.2⟩

/-- An inner node of rank `j` starts a chain of `j` links and none of
`j + 1` links. -/
theorem inner_chain (Y : Nat → Yarn) (j : Nat) :
    ∀ q, innerShape Y j q → linkChain Y j q ∧ ¬ linkChain Y (j + 1) q := by
  induction j with
  | zero =>
    intro q hs
    refine ⟨trivial, ?_⟩
    simp only [linkChain, link, hs.2.1, hs.2.2]
    simp
  | succ j ih =>
    intro q hs
    obtain ⟨_, ht, _, hs1, hs2⟩ := hs
    refine ⟨Or.inr ⟨⟨ht, Or.inr rfl⟩, (ih _ hs1).1⟩, ?_⟩
    intro hc
    rcases hc with ⟨_, hc⟩ | ⟨_, hc⟩
    · exact (ih _ hs2).2 hc
    · exact (ih _ hs1).2 hc

/-- A yarn of knot `k` starts a chain of `k` links and none of `k + 1`
links. -/
theorem yarn_chain (Y : Nat → Yarn) (k p : Nat) (hs : yarnShape Y k p) :
    linkChain Y k p ∧ ¬ linkChain Y (k + 1) p := by
  cases k with
  | zero =>
    refine ⟨trivial, ?_⟩
    simp only [linkChain, link, hs.2.1, hs.2.2]
    simp
  | succ k =>
    obtain ⟨_, hrt, hs1⟩ := hs
    have ht := innerShape_ne_zero hs1
    refine ⟨Or.inr ⟨⟨ht, Or.inr rfl⟩, (inner_chain Y k _ hs1).1⟩, ?_⟩
    intro hc
    rcases hc with ⟨_, hc⟩ | ⟨_, hc⟩
    · rw [hrt] at hc; exact (inner_chain Y k _ hs1).2 hc
    · exact (inner_chain Y k _ hs1).2 hc

/-- Every cell under an inner node is itself an inner node of some rank,
and its cells are among the cells under that node, in the same order. -/
theorem inner_sub (Y : Nat → Yarn) (j : Nat) :
    ∀ q, innerShape Y j q → ∀ x ∈ innerNodes Y j q,
      ∃ i, innerShape Y i x ∧ (innerNodes Y i x).Sublist (innerNodes Y j q) := by
  induction j with
  | zero =>
    intro q hs x hx
    simp only [innerNodes, List.mem_singleton] at hx
    subst hx
    exact ⟨0, hs, List.Sublist.refl _⟩
  | succ j ih =>
    intro q hs x hx
    have hs0 := hs
    obtain ⟨_, _, _, hs1, hs2⟩ := hs
    simp only [innerNodes, List.mem_append, List.mem_singleton] at hx
    rcases hx with (hx | hx) | hx
    · obtain ⟨i, si, sl⟩ := ih _ hs1 x hx
      refine ⟨i, si, sl.trans ?_⟩
      simp only [innerNodes, List.append_assoc]
      exact List.sublist_append_left _ _
    · obtain ⟨i, si, sl⟩ := ih _ hs2 x hx
      refine ⟨i, si, sl.trans ?_⟩
      simp only [innerNodes, List.append_assoc]
      exact (List.sublist_append_left _ _).trans (List.sublist_append_right _ _)
    · subst hx
      exact ⟨j + 1, hs0, List.Sublist.refl _⟩

/-- The cells under an inner node are the node and the cells reachable from
it over links. -/
theorem inner_mem_iff (Y : Nat → Yarn) (j q : Nat) (hs : innerShape Y j q)
    (hn : (innerNodes Y j q).Nodup) (c : Nat) :
    c ∈ innerNodes Y j q ↔ (c = q ∨ Relation.TransGen (link Y) q c) := by
  constructor
  · exact inner_reach Y j q hs c
  · intro hc
    rcases hc with e | e
    · rw [e]; exact mem_innerNodes_self Y j q
    · exact (reach_before Y _ hn (inner_link_before Y j q hs) q
        (mem_innerNodes_self Y j q) c e).mem_left

/-- The cells of a yarn are its root and the cells reachable from it over
links. -/
theorem yarn_mem_iff (Y : Nat → Yarn) (k p : Nat) (hw : WfYarn Y k p) (c : Nat) :
    c ∈ yarnNodes Y k p ↔ (c = p ∨ Relation.TransGen (link Y) p c) := by
  constructor
  · exact yarn_reach Y k p hw.1 c
  · intro hc
    rcases hc with e | e
    · rw [e]; exact mem_yarnNodes_self Y k p
    · exact (reach_before Y _ hw.2 (yarn_link_before Y k p hw.1) p
        (mem_yarnNodes_self Y k p) c e).mem_left

/-- A cell of a yarn other than its root is an inner node of some rank whose
cells occur once each. -/
theorem yarn_inner_of_mem (Y : Nat → Yarn) (k p : Nat) (hw : WfYarn Y k p) (x : Nat)
    (hx : x ∈ yarnNodes Y k p) :
    x = p ∨ ∃ i, innerShape Y i x ∧ (innerNodes Y i x).Nodup := by
  cases k with
  | zero =>
    simp only [yarnNodes, yarnSub, List.nil_append, List.mem_singleton] at hx
    exact Or.inl hx
  | succ k =>
    obtain ⟨⟨_, _, hs1⟩, hn⟩ := hw
    simp only [yarnNodes, yarnSub, List.mem_append, List.mem_singleton] at hx hn
    rcases hx with hx | hx
    · right
      obtain ⟨i, si, sl⟩ := inner_sub Y k _ hs1 x hx
      exact ⟨i, si, sl.nodup (List.nodup_append.mp hn).1⟩
    · exact Or.inl hx

/-- C18, the shape of a woven yarn.  Let `p` be a yarn of knot `k` obtained
from cells returned by `yarnNew` by calls of `yarnWeave`, each on two yarns
of the same knot that share no cell.  A chain of `k` links starts at `p` and
no chain of `k + 1` links does.  No cell has three different children.  A
cell of the yarn with `root == tree` and a non-null `tree` is the root `p`,
and for `k > 0` the root is such a cell.  For a cell of the yarn with two
different non-null links, the cells behind `tree` and the cells behind `root`
are as many: there are lists `t1` and `t2` without repetition, of the same
length, of which `t1` holds exactly the cell behind `tree` and the cells
reachable from it, and `t2` exactly the cell behind `root` and the cells
reachable from it. -/
theorem tree_shape_invariant (h : Heap) (k p : Nat) (hw : Woven h k p) :
    (linkChain h.yarn k p ∧ ¬ linkChain h.yarn (k + 1) p)
      ∧ (∀ x c1 c2 c3, link h.yarn x c1 → link h.yarn x c2 → link h.yarn x c3 →
          c1 = c2 ∨ c1 = c3 ∨ c2 = c3)
      ∧ (∀ x, (x = p ∨ Relation.TransGen (link h.yarn) p x) →
          (h.yarn x).root = (h.yarn x).tree → (h.yarn x).tree ≠ 0 → x = p)
      ∧ (0 < k → (h.yarn p).root = (h.yarn p).tree ∧ (h.yarn p).tree ≠ 0)
      ∧ (∀ x, (x = p ∨ Relation.TransGen (link h.yarn) p x) →
          (h.yarn x).root ≠ 0 → (h.yarn x).tree ≠ 0 → (h.yarn x).root ≠ (h.yarn x).tree →
          ∃ t1 t2 : List Nat, t1.Nodup ∧ t2.Nodup ∧ t1.length = t2.length
            ∧ (∀ c, c ∈ t1 ↔ (c = (h.yarn x).tree
                ∨ Relation.TransGen (link h.yarn) (h.yarn x).tree c))
            ∧ (∀ c, c ∈ t2 ↔ (c = (h.yarn x).root
                ∨ Relation.TransGen (link h.yarn) (h.yarn x).root c))) := by
  have wf := wfYarn_of_woven hw
  refine ⟨yarn_chain _ k p wf.1, ?_, ?_, ?_, ?_⟩
  · intro x c1 c2 c3 l1 l2 l3
    rcases l1.2 with e1 | e1 <;> rcases l2.2 with e2 | e2 <;> rcases l3.2 with e3 | e3 <;>
      simp [e1, e2, e3]
  · intro x hx hrt ht
    rcases yarn_inner_of_mem _ k p wf x ((yarn_mem_iff _ k p wf x).mpr hx) with e | ⟨i, si, _⟩
    · exact e
    · cases i with
      | zero => exact absurd si.2.2 ht
      | succ i => exact absurd hrt si.2.2.1
  · intro hk
    obtain ⟨k1, rfl⟩ : ∃ k1, k = k1 + 1 := ⟨k - 1, by omega⟩
    obtain ⟨_, hrt, hs1⟩ := wf.1
    exact ⟨hrt, innerShape_ne_zero hs1⟩
  · intro x hx hr ht hne
    rcases yarn_inner_of_mem _ k p wf x ((yarn_mem_iff _ k p wf x).mpr hx) with e | ⟨i, si, ni⟩
    · subst e
      exact absurd (yarnShape_root_eq_tree wf.1) hne
    · cases i with
      | zero => exact absurd si.2.2 ht
      | succ i =>
        obtain ⟨_, _, _, s1, s2⟩ := si
        simp only [innerNodes] at ni
        have n12 := (List.nodup_append.mp ni).1
        have n1 := (List.nodup_append.mp n12).1
        have n2 := (List.nodup_append.mp n12).2.1
        refine ⟨innerNodes h.yarn i (h.yarn x).tree, innerNodes h.yarn i (h.yarn x).root,
          n1, n2, ?_, inner_mem_iff _ i _ s1 n1, inner_mem_iff _ i _ s2 n2⟩
        have l1 := innerNodes_length h.yarn i (h.yarn x).tree
        have l2 := innerNodes_length h.yarn i (h.yarn x).root
        omega

theorem tree_shape_invariant_witness :
    (linkChain exYarn.1.yarn 2 exYarn.2 ∧ ¬ linkChain exYarn.1.yarn (2 + 1) exYarn.2)
      ∧ (∀ x c1 c2 c3, link exYarn.1.yarn x c1 → link exYarn.1.yarn x c2 →
          link exYarn.1.yarn x c3 → c1 = c2 ∨ c1 = c3 ∨ c2 = c3)
      ∧ (∀ x, (x = exYarn.2 ∨ Relation.TransGen (link exYarn.1.yarn) exYarn.2 x) →
          (exYarn.1.yarn x).root = (exYarn.1.yarn x).tree → (exYarn.1.yarn x).tree ≠ 0 →
          x = exYarn.2)
      ∧ (0 < 2 → (exYarn.1.yarn exYarn.2).root = (exYarn.1.yarn exYarn.2).tree
          ∧ (exYarn.1.yarn exYarn.2).tree ≠ 0)
      ∧ (∀ x, (x = exYarn.2 ∨ Relation.TransGen (link exYarn.1.yarn) exYarn.2 x) →
          (exYarn.1.yarn x).root ≠ 0 → (exYarn.1.yarn x).tree ≠ 0 →
          (exYarn.1.yarn x).root ≠ (exYarn.1.yarn x).tree →
          ∃ t1 t2 : List Nat, t1.Nodup ∧ t2.Nodup ∧ t1.length = t2.length
            ∧ (∀ c, c ∈ t1 ↔ (c = (exYarn.1.yarn x).tree
                ∨ Relation.TransGen (link exYarn.1.yarn) (exYarn.1.yarn x).tree c))
            ∧ (∀ c, c ∈ t2 ↔ (c = (exYarn.1.yarn x).root
                ∨ Relation.TransGen (link exYarn.1.yarn) (exYarn.1.yarn x).root c))) :=
  tree_shape_invariant exYarn.1 2 exYarn.2
    (@Woven.weave exPair2.1 exYarn.1 1 exPair1.2 exPair2.2 exYarn.2
      (@Woven.frame exPair1.1 exPair2.1 1 exPair1.2
        (@Woven.weave exLeaves exPair1.1 0 1 2 exPair1.2
          (@Woven.frame (yarnNew Heap.empty).1 exLeaves 0 1 (Woven.leaf Heap.empty)
            (by decide))
          (@Woven.frame (yarnNew (yarnNew Heap.empty).1).1 exLeaves 0 2
            (Woven.leaf (yarnNew Heap.empty).1) (by decide))
          (by decide) rfl)
        (by decide))
      (@Woven.weave exPair1.1 exPair2.1 0 3 4 exPair2.2
        (@Woven.frame (yarnNew (yarnNew (yarnNew Heap.empty).1).1).1 exPair1.1 0 3
          (Woven.leaf (yarnNew (yarnNew Heap.empty).1).1) (by decide))
        (@Woven.frame exLeaves exPair1.1 0 4
          (Woven.leaf (yarnNew (yarnNew (yarnNew Heap.empty).1).1).1) (by decide))
        (by decide) rfl)
      (by decide) rfl)

/-! ## The driver -/

/-- The test of `main` for an argument that parsed to `n`, at most
`2 ^ 31 - 1`, runs to its end on any heap. -/
theorem mainTest_returns (fuel : Nat) (hf : SIZELOG2 ≤ fuel) (h : Heap) (n : Nat)
    (hn : n ≤ 2 ^ 31 - 1) : ∃ h2, mainTest fuel h n = .ok h2 := by
  have hlen : (range 0 n).length = n := by rw [range_zero]; simp
  have hcap : (range 0 n).length < 2 ^ SIZELOG2 := by
    have : (2 : Nat) ^ SIZELOG2 = 2 ^ 31 := rfl
    omega
  obtain ⟨h1, m, e1, l1, p1, c1⟩ :=
    intMopRedo_spec fuel h (range 0 n).length (range 0 n) (le_refl _) hcap
  rw [List.take_length] at p1
  rw [hlen] at e1
  have hw : WfMop h1 m := (l1.2.1 m (List.mem_cons_self _ _)).2
  have hfk : (h1.mop m).knot < fuel := by have := hw.2.1; omega
  have hb : ∀ a ∈ mopNodes h1 m, 0 ≤ h1.n a
      ∧ (h1.n a).toNat < (List.replicate n (0 : Int)).length := by
    intro a ha
    have hm : h1.n a ∈ range 0 n := p1.mem_iff.mp (List.mem_map_of_mem _ ha)
    rw [range_zero] at hm
    obtain ⟨i, hi, e⟩ := List.mem_map.mp hm
    rw [List.mem_range] at hi
    rw [List.length_replicate, ← e]
    omega
  have hwr : mopWring fuel h1 m (intBucket h1) (.ok (List.replicate n 0))
      = .ok (.ok (range 0 n)) := by
    rw [mopWring_spec fuel h1 m (intBucket h1) _ hw.1 hw.2.1 hw.2.2.1.1 hfk]
    have e2 : (mopNodes h1 m).foldl (intBucket h1).yarnF (.ok (List.replicate n 0))
        = .ok (((mopNodes h1 m).map h1.n).foldl (fun o v => o.set v.toNat v)
            (List.replicate n 0)) := foldl_intYarnF h1 _ _ hb
    rw [e2, foldl_set_range n _ p1]
    rfl
  have hsz : (((n : Nat) : Int) - 0).toNat = n := by simp
  have hd := mopDelete_spec fuel h1 m hw.1 hw.2.1 hw.2.2.1.1 hfk
  refine ⟨{ h1 with freed := h1.freed ++ mopNodes h1 m ++ [m] }, ?_⟩
  have ha := assertEqual_self (range 0 n) (range 0 n).length 0 (by omega)
  rw [hlen] at ha
  simp only [mainTest, hsz, e1, hwr, hd, ha, bind, Except.bind, pure, Except.pure]

theorem getElem?_append_cons_self {α : Type} (pre : List α) (a : α) (rest : List α) :
    (pre ++ a :: rest)[pre.length]? = some a := by
  induction pre with
  | nil => simp
  | cons b t ih => simpa using ih

theorem toInt_toNat_le (v : Int) (hv : ¬ toInt v < 0) : (toInt v).toNat ≤ 2 ^ 31 - 1 := by
  unfold toInt at hv ⊢
  norm_num
  omega

/-- The loop of `main` over the remaining arguments `rest`, none of which
parses to a negative `end`: it returns, having counted the arguments that
were consumed to their end. -/
theorem mainLoop_returns (strtoll : List Char → Int × Nat) (fuel : Nat) (hf : SIZELOG2 ≤ fuel)
    (av : List (List Char)) :
    ∀ (rest pre : List (List Char)) (h : Heap) (ok : Nat), av = pre ++ rest →
      (∀ a ∈ rest, atEnd a (strtoll a).2 = true → 0 ≤ toInt (strtoll a).1) →
      ∃ h1, mainLoop strtoll fuel av rest.length pre.length h ok
        = .ok (h1, ok + rest.countP (fun a => atEnd a (strtoll a).2)) := by
  intro rest
  induction rest with
  | nil => intro pre h ok _ _; exact ⟨h, rfl⟩
  | cons a rest ih =>
    intro pre h ok hav hpos
    have hget : av[pre.length]? = some a := by rw [hav]; exact getElem?_append_cons_self _ _ _
    have hav1 : av = (pre ++ [a]) ++ rest := by rw [hav]; simp
    have hlen : (pre ++ [a]).length = pre.length + 1 := by simp
    simp only [List.length_cons, mainLoop, hget]
    by_cases hc : atEnd a (strtoll a).2 = true
    · have h0 : ¬ toInt (strtoll a).1 < 0 := by
        have := hpos a (List.mem_cons_self _ _) hc
        omega
      obtain ⟨h2, e2⟩ := mainTest_returns fuel hf h (toInt (strtoll a).1).toNat
        (toInt_toNat_le _ h0)
      obtain ⟨h1, e1⟩ := ih (pre ++ [a]) h2 (ok + 1) hav1
        (fun b hb => hpos b (List.mem_cons_of_mem _ hb))
      rw [hlen] at e1
      refine ⟨h1, ?_⟩
      simp only [hc, h0, if_true, if_false, e2, bind, Except.bind, e1, List.countP_cons]
      congr 2
      omega
    · obtain ⟨h1, e1⟩ := ih (pre ++ [a]) h ok hav1
        (fun b hb => hpos b (List.mem_cons_of_mem _ hb))
      rw [hlen] at e1
      refine ⟨h1, ?_⟩
      simp only [hc, if_false, e1, List.countP_cons]
      simp

/-- The loop of `main` when it returned: no argument that was consumed to
its end parsed to a negative `end`, and the count is the number of the
arguments consumed to their end. -/
theorem mainLoop_inv (strtoll : List Char → Int × Nat) (fuel : Nat) (av : List (List Char)) :
    ∀ (rest pre : List (List Char)) (h h1 : Heap) (ok ok1 : Nat), av = pre ++ rest →
      mainLoop strtoll fuel av rest.length pre.length h ok = .ok (h1, ok1) →
      (∀ a ∈ rest, atEnd a (strtoll a).2 = true → 0 ≤ toInt (strtoll a).1)
        ∧ ok1 = ok + rest.countP (fun a => atEnd a (strtoll a).2) := by
  intro rest
  induction rest with
  | nil =>
    intro pre h h1 ok ok1 _ he
    simp only [List.length_nil, mainLoop, pure, Except.pure, Except.ok.injEq,
      Prod.mk.injEq] at he
    exact ⟨fun a ha => by simp at ha, by simp [he.2]⟩
  | cons a rest ih =>
    intro pre h h1 ok ok1 hav he
    have hget : av[pre.length]? = some a := by rw [hav]; exact getElem?_append_cons_self _ _ _
    have hav1 : av = (pre ++ [a]) ++ rest := by rw [hav]; simp
    have hlen : (pre ++ [a]).length = pre.length + 1 := by simp
    simp only [List.length_cons, mainLoop, hget] at he
    by_cases hc : atEnd a (strtoll a).2 = true
    · simp only [hc, if_true] at he
      by_cases h0 : toInt (strtoll a).1 < 0
      · simp only [h0, if_true] at he
        cases he
      · simp only [h0, if_false, bind, Except.bind] at he
        cases ht : mainTest fuel h (toInt (strtoll a).1).toNat with
        | error e => rw [ht] at he; cases he
        | ok h2 =>
          rw [ht] at he
          dsimp only at he
          rw [← hlen] at he
          obtain ⟨r1, r2⟩ := ih (pre ++ [a]) h2 h1 (ok + 1) ok1 hav1 he
          refine ⟨fun b hb hbe => ?_, ?_⟩
          · rcases List.mem_cons.mp hb with e | e
            · subst e; omega
            · exact r1 b e hbe
          · simp only [List.countP_cons, hc, if_true]
            omega
    · simp only [hc, if_false] at he
      rw [← hlen] at he
      obtain ⟨r1, r2⟩ := ih (pre ++ [a]) h h1 ok ok1 hav1 he
      refine ⟨fun b hb hbe => ?_, ?_⟩
      · rcases List.mem_cons.mp hb with e | e
        · subst e; exact absurd hbe hc
        · exact r1 b e hbe
      · simp only [List.countP_cons, hc]
        simpa using r2

/-- `main` with its loop run: the status and the call of `showUsage` decided
by the count. -/
theorem main_of_loop (strtoll : List Char → Int × Nat) (fuel : Nat) (h h1 : Heap)
    (av : List (List Char)) (ok : Nat)
    (he : mainLoop strtoll fuel av (av.length - 1) 1 h 0 = .ok (h1, ok)) :
    main strtoll fuel h av
      = if av.length > 1 ∧ av.length = ok + 1 then .ok (h1, 0, false) else .ok (h1, 1, true) := by
  simp only [main, he, bind, Except.bind, pure, Except.pure]

/-- What `main` has done when it returned. -/
theorem main_inv (strtoll : List Char → Int × Nat) (fuel : Nat) (h : Heap)
    (av : List (List Char)) (r : Heap × Nat × Bool) (he : main strtoll fuel h av = .ok r) :
    ∃ ok, mainLoop strtoll fuel av (av.length - 1) 1 h 0 = .ok (r.1, ok)
      ∧ ((av.length > 1 ∧ av.length = ok + 1 ∧ r.2 = (0, false))
        ∨ (¬ (av.length > 1 ∧ av.length = ok + 1) ∧ r.2 = (1, true))) := by
  cases hl : mainLoop strtoll fuel av (av.length - 1) 1 h 0 with
  | error e => simp [main, hl, bind, Except.bind] at he
  | ok p =>
    obtain ⟨h1, ok⟩ := p
    rw [main_of_loop strtoll fuel h h1 av ok hl] at he
    refine ⟨ok, ?_, ?_⟩
    · by_cases hc : av.length > 1 ∧ av.length = ok + 1
      · rw [if_pos hc] at he
        simp only [Except.ok.injEq] at he
        rw [← he]
      · rw [if_neg hc] at he
        simp only [Except.ok.injEq] at he
        rw [← he]
    · by_cases hc : av.length > 1 ∧ av.length = ok + 1
      · rw [if_pos hc] at he
        simp only [Except.ok.injEq] at he
        left
        exact ⟨hc.1, hc.2, by rw [← he]⟩
      · rw [if_neg hc] at he
        simp only [Except.ok.injEq] at he
        right
        exact ⟨hc, by rw [← he]⟩

/-- C14, the exit status of the driver.  With `strtoll` any function and
the budget of the embedding at least `SIZELOG2`:
`main` returns whenever no argument that is consumed to its end parses to a
negative `end`;
`main` returns `0` if and only if there is at least one argument and each
argument is consumed to its end and parses to an `end` that is not negative;
for an argument consumed to its end, the pass of the loop returns, its test
run without a failed assertion, if and only if `end` is not negative;
an argument that is not consumed to its end is skipped: the pass of the loop
leaves the heap and the count as they are and does not abort;
when `main` returns, either the status is `0` and `showUsage` was not called,
or the status is `1` and `showUsage` was called;
and for an argument without a NUL character, `*pEnd == *""` holds exactly
when `pEnd` is at its end. -/
theorem driver_exit_status (strtoll : List Char → Int × Nat) (fuel : Nat)
    (hf : SIZELOG2 ≤ fuel) (h : Heap) (av : List (List Char)) :
    ((∀ a ∈ av.tail, atEnd a (strtoll a).2 = true → 0 ≤ toInt (strtoll a).1) →
        ∃ r, main strtoll fuel h av = .ok r)
      ∧ ((∃ h1 us, main strtoll fuel h av = .ok (h1, 0, us)) ↔
          (1 < av.length
            ∧ ∀ a ∈ av.tail, atEnd a (strtoll a).2 = true ∧ 0 ≤ toInt (strtoll a).1))
      ∧ (∀ (hx : Heap) (a : List Char), atEnd a (strtoll a).2 = true →
          ((∃ h2 ok2, mainLoop strtoll fuel [a] 1 0 hx 0 = .ok (h2, ok2)) ↔
            0 ≤ toInt (strtoll a).1))
      ∧ (∀ (todo i : Nat) (hx : Heap) (ok : Nat) (a : List Char), av[i]? = some a →
          atEnd a (strtoll a).2 = false →
          mainLoop strtoll fuel av (todo + 1) i hx ok = mainLoop strtoll fuel av todo (i + 1) hx ok)
      ∧ (∀ h1 st us, main strtoll fuel h av = .ok (h1, st, us) →
          (st = 0 ∧ us = false) ∨ (st = 1 ∧ us = true))
      ∧ (∀ (a : List Char) (n : Nat), (∀ c ∈ a, c ≠ Char.ofNat 0) →
          (atEnd a n = true ↔ n = a.length)) := by
  have hsplit : av = [] ∨ ∃ a0 rest, av = [a0] ++ rest := by
    cases av with
    | nil => exact Or.inl rfl
    | cons a0 rest => exact Or.inr ⟨a0, rest, rfl⟩
  refine ⟨fun hpos => ?_, ⟨fun ⟨h1, us, he⟩ => ?_, fun ⟨hlen, hall⟩ => ?_⟩,
    fun hx a hc => ⟨fun ⟨h2, ok2, he⟩ => ?_, fun h0 => ?_⟩,
    fun todo i hx ok a hget hc => ?_, fun h1 st us he => ?_, fun a n hnul => ?_⟩
  · rcases hsplit with e | ⟨a0, rest, e⟩
    · subst e
      exact ⟨_, main_of_loop strtoll fuel h h [] 0 rfl⟩
    · have hl : av.length - 1 = rest.length := by rw [e]; simp
      have ht : av.tail = rest := by rw [e]; rfl
      obtain ⟨h1, e1⟩ := mainLoop_returns strtoll fuel hf av rest [a0] h 0 e
        (fun a ha => hpos a (by rw [ht]; exact ha))
      rw [← hl] at e1
      rw [main_of_loop strtoll fuel h h1 av _ e1]
      split_ifs
      · exact ⟨_, rfl⟩
      · exact ⟨_, rfl⟩
  · obtain ⟨ok, hl, hr⟩ := main_inv strtoll fuel h av _ he
    rcases hr with ⟨c1, c2, _⟩ | ⟨_, c⟩
    · refine ⟨c1, ?_⟩
      rcases hsplit with e | ⟨a0, rest, e⟩
      · rw [e] at c1; simp at c1
      · have hl1 : av.length - 1 = rest.length := by rw [e]; simp
        have ht : av.tail = rest := by rw [e]; rfl
        rw [hl1] at hl
        obtain ⟨r1, r2⟩ := mainLoop_inv strtoll fuel av rest [a0] h h1 0 ok e hl
        have hcnt : rest.countP (fun a => atEnd a (strtoll a).2) = rest.length := by omega
        rw [ht]
        intro a ha
        have := List.countP_eq_length.mp hcnt a ha
        exact ⟨this, r1 a ha this⟩
    · simp at c
  · rcases hsplit with e | ⟨a0, rest, e⟩
    · rw [e] at hlen; simp at hlen
    · have hl1 : av.length - 1 = rest.length := by rw [e]; simp
      have ht : av.tail = rest := by rw [e]; rfl
      rw [ht] at hall
      obtain ⟨h1, e1⟩ := mainLoop_returns strtoll fuel hf av rest [a0] h 0 e
        (fun a ha _ => (hall a ha).2)
      have hcnt : rest.countP (fun a => atEnd a (strtoll a).2) = rest.length :=
        List.countP_eq_length.mpr (fun a ha => (hall a ha).1)
      rw [← hl1] at e1
      refine ⟨h1, false, ?_⟩
      rw [main_of_loop strtoll fuel h h1 av _ e1, if_pos]
      exact ⟨hlen, by omega⟩
  · exact (mainLoop_inv strtoll fuel [a] [a] [] hx h2 0 ok2 rfl he).1 a
      (List.mem_singleton_self a) hc
  · obtain ⟨h1, e1⟩ := mainLoop_returns strtoll fuel hf [a] [a] [] hx 0 rfl
      (fun b hb _ => by rw [List.mem_singleton.mp hb]; exact h0)
    exact ⟨h1, _, e1⟩
  · simp only [mainLoop, hget, hc]
    simp
  · obtain ⟨ok, _, hr⟩ := main_inv strtoll fuel h av _ he
    rcases hr with ⟨_, _, c⟩ | ⟨_, c⟩
    · left
      simp only [Prod.mk.injEq] at c
      exact c
    · right
      simp only [Prod.mk.injEq] at c
      exact c
  · unfold atEnd
    have hne : Char.ofNat 0 ∉ a := fun hm => hnul _ hm rfl
    constructor
    · intro he
      have he1 : (a ++ [Char.ofNat 0])[n]? = some (Char.ofNat 0) := by simpa using he
      by_cases hlt : n < a.length
      · rw [List.getElem?_append_left hlt] at he1
        rw [List.getElem?_eq_getElem hlt] at he1
        simp only [Option.some.injEq] at he1
        exact absurd (he1 ▸ List.getElem_mem hlt) hne
      · by_cases hgt : a.length < n
        · rw [List.getElem?_eq_none (by simp; omega)] at he1
          cases he1
        · omega
    · intro hn
      subst hn
      simp

theorem driver_exit_status_witness :
    ((∀ a ∈ [['m', 'o', 'p'], ['3'], ['x']].tail,
          atEnd a (exStrtoll a).2 = true → 0 ≤ toInt (exStrtoll a).1) →
        ∃ r, main exStrtoll 31 Heap.empty [['m', 'o', 'p'], ['3'], ['x']] = .ok r)
      ∧ ((∃ h1 us, main exStrtoll 31 Heap.empty [['m', 'o', 'p'], ['3'], ['x']]
            = .ok (h1, 0, us)) ↔
          (1 < [['m', 'o', 'p'], ['3'], ['x']].length
            ∧ ∀ a ∈ [['m', 'o', 'p'], ['3'], ['x']].tail,
                atEnd a (exStrtoll a).2 = true ∧ 0 ≤ toInt (exStrtoll a).1))
      ∧ (∀ (hx : Heap) (a : List Char), atEnd a (exStrtoll a).2 = true →
          ((∃ h2 ok2, mainLoop exStrtoll 31 [a] 1 0 hx 0 = .ok (h2, ok2)) ↔
            0 ≤ toInt (exStrtoll a).1))
      ∧ (∀ (todo i : Nat) (hx : Heap) (ok : Nat) (a : List Char),
          [['m', 'o', 'p'], ['3'], ['x']][i]? = some a →
          atEnd a (exStrtoll a).2 = false →
          mainLoop exStrtoll 31 [['m', 'o', 'p'], ['3'], ['x']] (todo + 1) i hx ok
            = mainLoop exStrtoll 31 [['m', 'o', 'p'], ['3'], ['x']] todo (i + 1) hx ok)
      ∧ (∀ h1 st us, main exStrtoll 31 Heap.empty [['m', 'o', 'p'], ['3'], ['x']]
            = .ok (h1, st, us) →
          (st = 0 ∧ us = false) ∨ (st = 1 ∧ us = true))
      ∧ (∀ (a : List Char) (n : Nat), (∀ c ∈ a, c ≠ Char.ofNat 0) →
          (atEnd a n = true ↔ n = a.length)) :=
  driver_exit_status exStrtoll 31 (by decide) Heap.empty [['m', 'o', 'p'], ['3'], ['x']]

end MopRedo
